import Mathlib

/-!
# express-restify-mongoose: failure channel, middlewares, field filter and query options

A shallow embedding of `src/errorHandler.js`, `src/middleware/access.js`,
`src/middleware/filterAndFindById.js` and `src/middleware/outputFn.js`,
followed by models of the field filter (`resource_filter`), of the query
parameter parser (`prepareQuery`) and of the query plan builder
(`buildQuery`), whose sources are not available and which are taken from
the specification and the unit tests.

Conventions of the embedding:

* a request is a record; the mutable `req` object of the JavaScript code is
  the `req` component of a `State`, threaded through every function;
* the request-scoped state `req.erm` and the route parameters `req.params`
  are always there (the library creates `req.erm` before any of these
  middlewares runs, the router creates `req.params`);
* `options.onError` and `next` are external callees: each invocation is
  appended to the call log of the `State` together with the arguments it
  received, and the callee returns normally, the way the spies of the unit
  tests do; the methods of `res`, `options.contextFilter` and the store
  query are logged in the same way;
* a JavaScript exception is the `thrown` component of an `Outcome`.
-/

namespace ERM

/-! ## Data model -/

/-- JavaScript values that occur as an access level or as a payload:
`undefined`, `null`, booleans, integer numbers, strings, and objects that
the code passes on without reading them (a store document, a result),
known by their identity. -/
inductive JSVal
  | undefined
  | null
  | bool (b : Bool)
  | num (n : Int)
  | str (s : String)
  | obj (ident : Nat)
  deriving DecidableEq, Repr

/-- The fields of an error object that the library reads. A field that is
absent (or not a string) is `none`. -/
structure Err where
  message : Option String
  name : Option String
  path : Option String
  deriving DecidableEq, Repr

/-- A store model or a query context derived from it, as an object that is
passed on. -/
structure Model where
  ident : Nat
  deriving DecidableEq, Repr

/-- Route parameters, `req.params`. -/
structure Params where
  id : Option String
  deriving DecidableEq, Repr

/-- Request-scoped state, `req.erm`. A status that was never set is `none`;
a status that was set is an integer. -/
structure Erm where
  statusCode : Option Int
  result : JSVal
  document : JSVal
  model : Option Model := none
  deriving DecidableEq, Repr

/-- The request object, `req`. `access` is `JSVal.undefined` until the
access middleware sets it. -/
structure Req where
  params : Params
  erm : Erm
  access : JSVal
  deriving DecidableEq, Repr

/-- The response object `res`: the code under study only passes it on. -/
structure Res where
  ident : Nat
  deriving DecidableEq, Repr

/-- The continuation `next` of the middleware chain, as an object that is
passed on; invoking it is a `Call.next`. -/
structure Next where
  ident : Nat
  deriving DecidableEq, Repr

/-- The query that `filterAndFindById` builds on a filtered context:
`findOne().and({[idProperty]: id}).lean(lean).read(read)`. -/
structure Query where
  context : Model
  idProperty : Option String
  id : Option String
  lean : Bool
  read : String
  deriving DecidableEq, Repr

/-- How the promise of `exec()` settles: resolved with a document (or with
`null` when there is none), or rejected with an error. -/
inductive Lookup
  | resolved (doc : JSVal)
  | rejected (err : Err)
  deriving DecidableEq, Repr

/-- One invocation of an external callee, with the arguments it received.
The request is recorded as it was at the time of the call. -/
inductive Call
  | onError (err : Err) (req : Req) (res : Res) (next : Next)
  | next (fn : Next) (args : List JSVal)
  | contextFilter (model : Model) (req : Req)
  | exec (query : Query)
  | status (res : Res) (code : Option Int)
  | json (res : Res) (body : JSVal)
  | sendStatus (res : Res) (code : Option Int)
  | send (res : Res) (code : Option Int) (body : JSVal)
  deriving DecidableEq, Repr

/-- What a JavaScript `throw` carries: an `Error` built by the library with
its message, or a `TypeError` raised by the engine. -/
inductive Thrown
  | error (message : String)
  | typeError
  deriving DecidableEq, Repr

/-- The mutable world of one request: the request object and the log of
calls made so far. -/
structure State where
  req : Req
  calls : List Call
  deriving DecidableEq, Repr

/-- Result of running a middleware: the world it leaves and the exception
it threw, if any. -/
structure Outcome where
  state : State
  thrown : Option Thrown
  deriving DecidableEq, Repr

/-- A configured `options.access` function: its declared arity
(`options.access.length`), the value it returns when invoked as
`access(req)`, and the completion callback it makes when invoked as
`access(req, handler)`: `none` when it never calls back, otherwise the pair
`(err, access)` it calls back with, where a falsy `err` is `none`. A
resolver reads the request without changing it, does not throw by itself
and calls back at most once. -/
structure AccessFn where
  length : Nat
  apply1 : Req → JSVal
  apply2 : Req → Option (Option Err × JSVal)

/-- The options of a resource registration that these files read.
`contextFilter` gives the filtered context that `options.contextFilter`
hands to its callback (`none` when it never calls back); unless configured
it hands the model back unchanged. -/
structure Options where
  idProperty : Option String
  access : Option AccessFn
  contextFilter : Model → Req → Option Model := fun model _ => some model
  readPreference : Option String := none

/-! ## JavaScript primitives -/

/-- Modelled from the spec: the table `STATUS_CODES` of Node's `http`
module, which is not part of the sources. The library reads the entry 404,
the literal string "Not Found"; every other entry is left out. -/
def STATUS_CODES : Nat → Option String
  | 404 => some "Not Found"
  | _ => none

/-- Truthiness of a route parameter: a non-empty string. -/
def truthyStr : Option String → Bool
  | some s => s != ""
  | none => false

/-- Truthiness of a value: `undefined`, `null`, `false`, `0` and the empty
string are falsy, everything else, every object included, is truthy. -/
def truthyVal : JSVal → Bool
  | JSVal.undefined => false
  | JSVal.null => false
  | JSVal.bool b => b
  | JSVal.num n => n != 0
  | JSVal.str s => s != ""
  | JSVal.obj _ => true

/-- Truthiness of a status: a number other than zero. -/
def truthyNum : Option Int → Bool
  | some n => n != 0
  | none => false

/-- The helper of `Array.prototype.indexOf`: position of `v` from index `i`
on, by strict equality, or -1. -/
def indexOfFrom (v : JSVal) : List JSVal → Nat → Int
  | [], _ => -1
  | x :: xs, i => if x = v then (i : Int) else indexOfFrom v xs (i + 1)

/-- JavaScript `xs.indexOf(v)`. -/
def indexOf (xs : List JSVal) (v : JSVal) : Int :=
  indexOfFrom v xs 0

/-! ## src/errorHandler.js -/

/-- The condition of line 8: the message is `STATUS_CODES[404]`, or the
request has a path id and the error is a `CastError` on `idProperty`. -/
def isNotFoundClass (options : Options) (req : Req) (err : Err) : Bool :=
  decide (err.message = STATUS_CODES 404) ||
    (truthyStr req.params.id && decide (err.path = options.idProperty) &&
      decide (err.name = some "CastError"))

/-- The right-hand side of line 11:
`req.erm.statusCode && req.erm.statusCode >= 400 ? req.erm.statusCode : 400`. -/
def keepOr400 (statusCode : Option Int) : Int :=
  match statusCode with
  | some c => if truthyNum (some c) && decide (c ≥ 400) then c else 400
  | none => 400

/-- The function `errorHandler(options)(req, res, next)(err)`: it assigns
`req.erm.statusCode` and then invokes `options.onError(err, req, res, next)`. -/
def errorHandler (options : Options) (res : Res) (next : Next) (err : Err)
    (s : State) : State :=
  let statusCode : Int :=
    if isNotFoundClass options s.req err then 404 else keepOr400 s.req.erm.statusCode
  let req : Req := { s.req with erm := { s.req.erm with statusCode := some statusCode } }
  { req := req, calls := s.calls ++ [Call.onError err req res next] }

/-! ## src/middleware/access.js -/

/-- The message of the error thrown on an unsupported access level. -/
def unsupportedAccess : String :=
  "Unsupported access, must be \"private\", \"protected\" or \"public\""

/-- The inner function `handler(err, access)` of the access middleware. -/
def handler (options : Options) (res : Res) (next : Next) (err : Option Err)
    (access : JSVal) (s : State) : Outcome :=
  match err with
  | some e => { state := errorHandler options res next e s, thrown := none }
  | none =>
    if indexOf [JSVal.str "public", JSVal.str "private", JSVal.str "protected"] access < 0 then
      { state := s, thrown := some (Thrown.error unsupportedAccess) }
    else
      { state := { req := { s.req with access := access },
                   calls := s.calls ++ [Call.next next []] },
        thrown := none }

/-- The middleware `access(options)(req, res, next)`. Reading
`options.access.length` when `options.access` is absent raises a
`TypeError`. A resolver of arity above 1 receives `handler` as its
callback; any other resolver is called with the request alone and its
return value is handed to `handler`. -/
def access (options : Options) (res : Res) (next : Next) (s : State) : Outcome :=
  match options.access with
  | none => { state := s, thrown := some Thrown.typeError }
  | some fn =>
    if fn.length > 1 then
      match fn.apply2 s.req with
      | some (err, level) => handler options res next err level s
      | none => { state := s, thrown := none }
    else
      handler options res next none (fn.apply1 s.req) s

/-- Modelled from the spec: the access resolution of a registered resource,
the part of the registration code, not under `src/`, that decides what a
resource without an access specification gets. With no access function
configured the request resolves to `'public'`, and that level goes the way
of every resolved level: it is validated, attached to the request, and
`next` is called. With an access function configured the resolution is the
access middleware. -/
def resolveAccess (options : Options) (res : Res) (next : Next) (s : State) : Outcome :=
  match options.access with
  | none => handler options res next none (JSVal.str "public") s
  | some _ => access options res next s

/-! ## src/middleware/filterAndFindById.js -/

/-- The error `new Error(STATUS_CODES[404])` of line 26. -/
def notFoundError : Err :=
  { message := STATUS_CODES 404, name := some "Error", path := none }

/-- Line 9: `(req.erm && req.erm.model) || model`. -/
def contextModel (model : Model) (req : Req) : Model :=
  match req.erm.model with
  | some m => m
  | none => model

/-- The argument of `read` on line 22: `options.readPreference || 'p'`. -/
def readPreferenceOrP (options : Options) : String :=
  match options.readPreference with
  | some r => if truthyStr (some r) then r else "p"
  | none => "p"

/-- The query of lines 16 to 22, built on the filtered context:
`findOne().and({[options.idProperty]: req.params.id}).lean(false)
.read(options.readPreference || 'p')`. -/
def findByIdQuery (options : Options) (filteredContext : Model) (req : Req) : Query :=
  { context := filteredContext, idProperty := options.idProperty, id := req.params.id,
    lean := false, read := readPreferenceOrP options }

/-- The middleware `filterAndFindById(model, options)(req, res, next)`.
`store` tells how the promise of `exec()` settles for a query; the
callbacks given to `then` run once it has settled. -/
def filterAndFindById (model : Model) (options : Options) (store : Query → Lookup)
    (res : Res) (next : Next) (s : State) : State :=
  if !truthyStr s.req.params.id then
    { s with calls := s.calls ++ [Call.next next []] }
  else
    let s1 : State :=
      { s with calls := s.calls ++ [Call.contextFilter (contextModel model s.req) s.req] }
    match options.contextFilter (contextModel model s.req) s.req with
    | none => s1
    | some filteredContext =>
      let s2 : State :=
        { s1 with calls := s1.calls ++ [Call.exec (findByIdQuery options filteredContext s.req)] }
      match store (findByIdQuery options filteredContext s.req) with
      | Lookup.resolved doc =>
        if !truthyVal doc then
          errorHandler options res next notFoundError s2
        else
          { req := { s2.req with erm := { s2.req.erm with document := doc } },
            calls := s2.calls ++ [Call.next next []] }
      | Lookup.rejected err => errorHandler options res next err s2

/-! ## src/middleware/outputFn.js -/

/-- The function `outputFn(isExpress)(req, res)`. The call `res.status(code)`
hands back `res` itself, on which `json` is then called. -/
def outputFn (isExpress : Bool) (res : Res) (s : State) : State :=
  if isExpress then
    if truthyVal s.req.erm.result then
      { s with calls := s.calls ++
          [Call.status res s.req.erm.statusCode, Call.json res s.req.erm.result] }
    else
      { s with calls := s.calls ++ [Call.sendStatus res s.req.erm.statusCode] }
  else
    { s with calls := s.calls ++ [Call.send res s.req.erm.statusCode s.req.erm.result] }

/-! ## Reading the call log -/

/-- Whether a logged call is an invocation of `next`. -/
def Call.isNext : Call → Bool
  | Call.next _ _ => true
  | _ => false

/-- Whether a logged call is an invocation of `options.onError`. -/
def Call.isOnError : Call → Bool
  | Call.onError _ _ _ _ => true
  | _ => false

/-- Whether a logged call sends the response: `json`, `sendStatus` and
`send` do, `status` only sets the status of the response to come. -/
def Call.isSending : Call → Bool
  | Call.json _ _ => true
  | Call.sendStatus _ _ => true
  | Call.send _ _ _ => true
  | _ => false

/-- The statement "the status is never downgraded once elevated" for one
run of `errorHandler`: if the status before was some `c ≥ 400`, the status
after is some `c' ≥ c`. -/
def StatusNeverLowered (options : Options) (res : Res) (next : Next) (err : Err)
    (s : State) : Prop :=
  ∀ c : Int, s.req.erm.statusCode = some c → c ≥ 400 →
    ∃ k : Int, (errorHandler options res next err s).req.erm.statusCode = some k ∧ k ≥ c

/-! ## The field filter (`resource_filter`), from the specification

The source of `resource_filter` is not available: only its unit tests are.
Its data and its two functions `getExcluded` and `filterItem` are modelled
from the specification, with the argument shapes the unit tests use. -/

/-- Modelled from the spec: the access level of `resource_filter`, the enum
of public, protected and private. -/
inductive AccessLevel
  | publicLevel
  | protectedLevel
  | privateLevel
  deriving DecidableEq, Repr

/-- Modelled from the spec: the two lists of dotted paths of a resource, the
`private` and `protected` entries of a `filteredKeys` object of
`resource_filter`. An entry that is missing is `none`. -/
structure FilteredKeys where
  privatePaths : Option (List String)
  protectedPaths : Option (List String)
  deriving DecidableEq, Repr

/-- Modelled from the spec: the argument of `getExcluded` of
`resource_filter`, with the four entries the unit tests pass. -/
structure ExcludedContext where
  access : AccessLevel
  filteredKeys : Option FilteredKeys
  modelName : Option String
  excludedMap : Option (List (String × FilteredKeys))
  deriving DecidableEq, Repr

/-- Modelled from the spec: the keys that `getExcluded` of `resource_filter`
works from, the entry `excludedMap[modelName]` when there is one and the
supplied `filteredKeys` otherwise. The specification does not say which of
the two wins when both are supplied. -/
def ExcludedContext.keys (ctx : ExcludedContext) : Option FilteredKeys :=
  match ctx.excludedMap, ctx.modelName with
  | some excludedMap, some modelName =>
    match excludedMap.lookup modelName with
    | some entry => some entry
    | none => ctx.filteredKeys
  | _, _ => ctx.filteredKeys

/-- Modelled from the spec: `getExcluded` of `resource_filter`. Public gives
the private paths followed by the protected paths, protected gives the
private paths, private gives nothing; missing keys count as empty lists. -/
def getExcluded (ctx : ExcludedContext) : List String :=
  let privatePaths : List String :=
    match ctx.keys with
    | some keys => keys.privatePaths.getD []
    | none => []
  let protectedPaths : List String :=
    match ctx.keys with
    | some keys => keys.protectedPaths.getD []
    | none => []
  match ctx.access with
  | AccessLevel.privateLevel => []
  | AccessLevel.protectedLevel => privatePaths
  | AccessLevel.publicLevel => privatePaths ++ protectedPaths

mutual
/-- Modelled from the spec: the plain values that `filterItem` of
`resource_filter` works on, a tree of scalars, arrays and objects. An
object is the list of its fields in order. -/
inductive Doc
  | undefined
  | null
  | bool (b : Bool)
  | num (n : Int)
  | str (s : String)
  | arr (items : Items)
  | obj (fields : Fields)
  deriving DecidableEq, Repr
/-- The elements of an array value. -/
inductive Items
  | nil
  | cons (head : Doc) (tail : Items)
  deriving DecidableEq, Repr
/-- The fields of an object value: key, value, remaining fields. -/
inductive Fields
  | nil
  | cons (key : String) (value : Doc) (rest : Fields)
  deriving DecidableEq, Repr
end

mutual
/-- Modelled from the spec: removal of the path `k.ks` by `filterItem` of
`resource_filter`. In an object the field `k` is deleted when the path ends
there, and otherwise the rest of the path is removed inside its value; a
field that is not there is a silent no-op. An array is filtered element by
element, a scalar is left alone. -/
def removeDoc (k : String) (ks : List String) : Doc → Doc
  | Doc.arr items => Doc.arr (removeItems k ks items)
  | Doc.obj fields => Doc.obj (removeFields k ks fields)
  | d => d
/-- Removal of the path `k.ks` in every element of an array. -/
def removeItems (k : String) (ks : List String) : Items → Items
  | Items.nil => Items.nil
  | Items.cons d rest => Items.cons (removeDoc k ks d) (removeItems k ks rest)
/-- Removal of the path `k.ks` in the fields of an object. -/
def removeFields (k : String) (ks : List String) : Fields → Fields
  | Fields.nil => Fields.nil
  | Fields.cons key v rest =>
    if key = k then
      match ks with
      | [] => removeFields k ks rest
      | k2 :: ks2 => Fields.cons key (removeDoc k2 ks2 v) (removeFields k ks rest)
    else Fields.cons key v (removeFields k ks rest)
end

/-- Splitting of a dotted path at every dot; `cur` holds the characters of
the current segment, last one first. -/
def splitDots (cur : List Char) : List Char → List (List Char)
  | [] => [cur.reverse]
  | c :: cs => if c = '.' then cur.reverse :: splitDots [] cs else splitDots (c :: cur) cs

/-- The segments of a dotted path: `'foo.bar.baz'` has the segments `foo`,
`bar` and `baz`. -/
def segments (p : String) : List String :=
  (splitDots [] p.toList).map String.mk

/-- Removal of a path given by its segments; a path without segments
removes nothing. -/
def removePath (path : List String) (d : Doc) : Doc :=
  match path with
  | [] => d
  | k :: ks => removeDoc k ks d

/-- Removal of several paths, one after the other. -/
def removePaths (paths : List (List String)) (d : Doc) : Doc :=
  paths.foldl (fun acc path => removePath path acc) d

/-- Modelled from the spec: `filterItem(target, excludedPaths)` of
`resource_filter`, which removes each listed dotted path from a plain
object, or from every element of an array of them, and returns the target.
A list that is not supplied lists nothing. -/
def filterItem (target : Doc) (excluded : List String) : Doc :=
  removePaths (excluded.map segments) target

mutual
/-- The values found at a path in a document, going into every element of
an array met on the way; the empty path gives the document itself, and a
path that is not present gives no value. -/
def valuesDoc : List String → Doc → List Doc
  | [], d => [d]
  | k :: ks, Doc.arr items => valuesItems k ks items
  | k :: ks, Doc.obj fields => valuesFields k ks fields
  | _ :: _, _ => []
/-- The values found at the path `k.ks` in the elements of an array. -/
def valuesItems (k : String) (ks : List String) : Items → List Doc
  | Items.nil => []
  | Items.cons d rest => valuesDoc (k :: ks) d ++ valuesItems k ks rest
/-- The values found at the path `k.ks` in the fields of an object. -/
def valuesFields (k : String) (ks : List String) : Fields → List Doc
  | Fields.nil => []
  | Fields.cons key v rest =>
    (if key = k then valuesDoc ks v else []) ++ valuesFields k ks rest
end

/-- How a path `q` that is looked up stands to a path `k.ks` that is
removed: `covered` when `q` is at or under it, `above` when `q` is a proper
prefix of it (with what remains of `k.ks` below `q`), `apart` otherwise. -/
inductive PathRel
  | covered
  | apart
  | above (k : String) (ks : List String)
  deriving DecidableEq, Repr

/-- The relation of the looked-up path `q` to the removed path `k.ks`. -/
def relate : List String → String → List String → PathRel
  | [], k, ks => PathRel.above k ks
  | a :: q, k, ks =>
    if a = k then
      match ks with
      | [] => PathRel.covered
      | k2 :: ks2 => relate q k2 ks2
    else PathRel.apart

/-- What the values at `q` become when the path `k.ks` is removed. -/
def afterRemove (q : List String) (k : String) (ks : List String) (vs : List Doc) :
    List Doc :=
  match relate q k ks with
  | PathRel.covered => []
  | PathRel.apart => vs
  | PathRel.above j js => vs.map (removeDoc j js)

/-- The outline of the fields of an object: its keys in order, without those
listed in `drop`, each holding `null` in place of its value. -/
def outlineFields (drop : List String) : Fields → Fields
  | Fields.nil => Fields.nil
  | Fields.cons key _ rest =>
    if key ∈ drop then outlineFields drop rest
    else Fields.cons key Doc.null (outlineFields drop rest)

mutual
/-- The outline of a value, what it is apart from the values of its fields:
a scalar is itself, an object is the outline of its fields, an array is the
array of the outlines of its elements. -/
def outlineDoc (drop : List String) : Doc → Doc
  | Doc.arr items => Doc.arr (outlineItems drop items)
  | Doc.obj fields => Doc.obj (outlineFields drop fields)
  | d => d
/-- The outlines of the elements of an array. -/
def outlineItems (drop : List String) : Items → Items
  | Items.nil => Items.nil
  | Items.cons d rest => Items.cons (outlineDoc drop d) (outlineItems drop rest)
end

/-- The key `x` for which the path `p` is `q` followed by `x`, if there is
one: the field that removing `p` deletes from the values at `q`. -/
def keyBelow : List String → List String → Option String
  | [], [x] => some x
  | [], _ => none
  | _ :: _, [] => none
  | a :: q, b :: p => if a = b then keyBelow q p else none

/-- The keys that removing the paths deletes from the values at `q`. -/
def droppedAt (q : List String) (paths : List (List String)) : List String :=
  paths.flatMap (fun p => (keyBelow q p).toList)

/-- Modelled from the spec: a populate descriptor
`{path, select?, match?, options?}` of the query options, as `prepareQuery`
builds it and `resource_filter` reads it. An entry that is missing is
`none`. -/
structure Populate where
  path : Option String
  select : Option String := none
  matching : Option Doc := none
  options : Option Doc := none
  deriving DecidableEq, Repr

/-- Modelled from the spec: the second argument of `filterPopulatedItem` of
`resource_filter`, the access level of the request, its populate
descriptors and the map from resource name to the keys of that resource. -/
structure PopulateOptions where
  access : AccessLevel
  populate : List Populate
  excludedMap : List (String × FilteredKeys)
  deriving DecidableEq, Repr

mutual
/-- The document with `f` applied to every value found at a path, going into
every element of an array met on the way; a path that is not present is a
silent no-op. -/
def mapAtDoc (f : Doc → Doc) : List String → Doc → Doc
  | [], d => f d
  | k :: ks, Doc.arr items => Doc.arr (mapAtItems f k ks items)
  | k :: ks, Doc.obj fields => Doc.obj (mapAtFields f k ks fields)
  | _ :: _, d => d
/-- The elements of an array with `f` applied at the path `k.ks` in each. -/
def mapAtItems (f : Doc → Doc) (k : String) (ks : List String) : Items → Items
  | Items.nil => Items.nil
  | Items.cons d rest => Items.cons (mapAtDoc f (k :: ks) d) (mapAtItems f k ks rest)
/-- The fields of an object with `f` applied at the path `k.ks`. -/
def mapAtFields (f : Doc → Doc) (k : String) (ks : List String) : Fields → Fields
  | Fields.nil => Fields.nil
  | Fields.cons key v rest =>
    if key = k then Fields.cons key (mapAtDoc f ks v) (mapAtFields f k ks rest)
    else Fields.cons key v (mapAtFields f k ks rest)
end

/-- Modelled from the spec: the excluded paths of the resource `name` in
`filterPopulatedItem` of `resource_filter`, which `getExcluded` derives
from the entry of the excluded map; a resource without entry has none. -/
def excludedOf (access : AccessLevel) (excludedMap : List (String × FilteredKeys))
    (name : String) : List String :=
  getExcluded { access := access, filteredKeys := none, modelName := some name,
                excludedMap := some excludedMap }

/-- Modelled from the spec: what `filterPopulatedItem` of `resource_filter`
does for one populate descriptor. The path is resolved against the outer
document or documents, and the value found, a single object or every
element of an array, is filtered with the excluded paths of the resource
it refers to. `refOf` gives that resource for a populate path, as the
schema of the store declares it (`none` for an unknown target); it is not
part of the sources and is taken as given. -/
def filterPopulatedStep (refOf : String → Option String) (access : AccessLevel)
    (excludedMap : List (String × FilteredKeys)) (d : Doc) (desc : Populate) : Doc :=
  match desc.path with
  | none => d
  | some p =>
    match refOf p with
    | none => d
    | some name =>
      mapAtDoc (fun v => filterItem v (excludedOf access excludedMap name)) (segments p) d

/-- Modelled from the spec: `filterPopulatedItem(target, options)` of
`resource_filter`, which filters each populated field in turn and returns
the target. -/
def filterPopulatedItem (refOf : String → Option String) (target : Doc)
    (opts : PopulateOptions) : Doc :=
  opts.populate.foldl (filterPopulatedStep refOf opts.access opts.excludedMap) target

/-- The paths that `filterPopulatedItem` removes for one descriptor: the
excluded paths of the resource referred to, each below the populate path. -/
def populatedPaths (refOf : String → Option String) (access : AccessLevel)
    (excludedMap : List (String × FilteredKeys)) (desc : Populate) : List (List String) :=
  match desc.path with
  | none => []
  | some p =>
    match refOf p with
    | none => []
    | some name =>
      (excludedOf access excludedMap name).map (fun e => segments p ++ segments e)

/-! ## The query parameter parser (`prepareQuery`), from the specification

The source of `prepareQuery` is not available: only its unit tests are. The
reviver of the `query` parameter and the parsing of `select` and `populate`
are modelled from the specification. -/

/-- The key with which `JSON.parse` calls a reviver: the name of an object
field, or the index of an array element, whose string is a numeral and so
never the name `$regex`. -/
inductive ReviverKey
  | field (name : String)
  | index (i : Nat)
  deriving DecidableEq, Repr

/-- Modelled from the spec: the reviver `jsonQueryParser` of `prepareQuery`.
A key named `$regex` is stripped when `allowRegex` is false (the reviver
answers `undefined`), and an array value becomes `{ $in: <array> }`. -/
def jsonQueryParser (allowRegex : Bool) (key : ReviverKey) (value : Doc) : Doc :=
  if key = ReviverKey.field "$regex" ∧ allowRegex = false then Doc.undefined
  else
    match value with
    | Doc.arr items => Doc.obj (Fields.cons "$in" (Doc.arr items) Fields.nil)
    | v => v

mutual
/-- The walk that `JSON.parse(text, reviver)` makes over the parsed value,
children first: every element and every field is replaced by what the
reviver answers for it, and a field for which it answers `undefined` is
deleted. The value itself is handed to the reviver by its holder. -/
def reviveDoc (allowRegex : Bool) : Doc → Doc
  | Doc.arr items => Doc.arr (reviveItems allowRegex 0 items)
  | Doc.obj fields => Doc.obj (reviveFields allowRegex fields)
  | d => d
/-- The walk over the elements of an array, from index `i` on; a deleted
element leaves a hole, which reads as `undefined`. -/
def reviveItems (allowRegex : Bool) (i : Nat) : Items → Items
  | Items.nil => Items.nil
  | Items.cons d rest =>
    Items.cons (jsonQueryParser allowRegex (ReviverKey.index i) (reviveDoc allowRegex d))
      (reviveItems allowRegex (i + 1) rest)
/-- The walk over the fields of an object. -/
def reviveFields (allowRegex : Bool) : Fields → Fields
  | Fields.nil => Fields.nil
  | Fields.cons key v rest =>
    match jsonQueryParser allowRegex (ReviverKey.field key) (reviveDoc allowRegex v) with
    | Doc.undefined => reviveFields allowRegex rest
    | revived => Fields.cons key revived (reviveFields allowRegex rest)
end

deriving instance DecidableEq for Except

/-- Modelled from the spec: the parsing of the `query` parameter by
`prepareQuery`, `JSON.parse(text, jsonQueryParser)`. `parse` is the plain
`JSON.parse` of the language (`none` for malformed JSON), taken as given;
the root is handed to the reviver under the empty key. Malformed JSON is the
error `invalid_json_query`. -/
def parseJsonQuery (parse : String → Option Doc) (allowRegex : Bool) (text : String) :
    Except String Doc :=
  match parse text with
  | none => Except.error "invalid_json_query"
  | some root =>
    Except.ok (jsonQueryParser allowRegex (ReviverKey.field "") (reviveDoc allowRegex root))

mutual
/-- Whether a field named `k` occurs anywhere in a value. -/
def hasKeyDoc (k : String) : Doc → Bool
  | Doc.arr items => hasKeyItems k items
  | Doc.obj fields => hasKeyFields k fields
  | _ => false
/-- Whether a field named `k` occurs anywhere in the elements of an array. -/
def hasKeyItems (k : String) : Items → Bool
  | Items.nil => false
  | Items.cons d rest => hasKeyDoc k d || hasKeyItems k rest
/-- Whether a field named `k` occurs anywhere in the fields of an object. -/
def hasKeyFields (k : String) : Fields → Bool
  | Fields.nil => false
  | Fields.cons key v rest => decide (key = k) || hasKeyDoc k v || hasKeyFields k rest
end

mutual
/-- Whether an array occurs anywhere in a value. -/
def hasArrayDoc : Doc → Bool
  | Doc.arr _ => true
  | Doc.obj fields => hasArrayFields fields
  | _ => false
/-- Whether an array occurs anywhere in the fields of an object. -/
def hasArrayFields : Fields → Bool
  | Fields.nil => false
  | Fields.cons _ v rest => hasArrayDoc v || hasArrayFields rest
end

/-- Whether an array occurs anywhere inside the elements of an array. -/
def hasArrayItems : Items → Bool
  | Items.nil => false
  | Items.cons d rest => hasArrayDoc d || hasArrayItems rest

mutual
/-- Whether `undefined` occurs anywhere in a value; a value that `JSON.parse`
produces has none. -/
def hasUndefinedDoc : Doc → Bool
  | Doc.undefined => true
  | Doc.arr items => hasUndefinedItems items
  | Doc.obj fields => hasUndefinedFields fields
  | _ => false
/-- Whether `undefined` occurs anywhere in the elements of an array. -/
def hasUndefinedItems : Items → Bool
  | Items.nil => false
  | Items.cons d rest => hasUndefinedDoc d || hasUndefinedItems rest
/-- Whether `undefined` occurs anywhere in the fields of an object. -/
def hasUndefinedFields : Fields → Bool
  | Fields.nil => false
  | Fields.cons _ v rest => hasUndefinedDoc v || hasUndefinedFields rest
end

mutual
/-- The value with every field named `$regex` deleted, at any depth, when
`allowRegex` is false; the value itself when `allowRegex` is true. -/
def stripDoc (allowRegex : Bool) : Doc → Doc
  | Doc.arr items => Doc.arr (stripItems allowRegex items)
  | Doc.obj fields => Doc.obj (stripFields allowRegex fields)
  | d => d
/-- The elements of an array with the fields named `$regex` deleted. -/
def stripItems (allowRegex : Bool) : Items → Items
  | Items.nil => Items.nil
  | Items.cons d rest => Items.cons (stripDoc allowRegex d) (stripItems allowRegex rest)
/-- The fields of an object with those named `$regex` deleted. -/
def stripFields (allowRegex : Bool) : Fields → Fields
  | Fields.nil => Fields.nil
  | Fields.cons key v rest =>
    if key = "$regex" ∧ allowRegex = false then stripFields allowRegex rest
    else Fields.cons key (stripDoc allowRegex v) (stripFields allowRegex rest)
end

mutual
/-- The value with every object of the form `{ $in: <array> }` replaced by
that array, from the outside in. -/
def unwrapDoc : Doc → Doc
  | Doc.arr items => Doc.arr (unwrapItems items)
  | Doc.obj (Fields.cons key (Doc.arr items) Fields.nil) =>
    if key = "$in" then Doc.arr (unwrapItems items)
    else Doc.obj (Fields.cons key (Doc.arr (unwrapItems items)) Fields.nil)
  | Doc.obj fields => Doc.obj (unwrapFields fields)
  | d => d
/-- The elements of an array, each unwrapped. -/
def unwrapItems : Items → Items
  | Items.nil => Items.nil
  | Items.cons d rest => Items.cons (unwrapDoc d) (unwrapItems rest)
/-- The fields of an object, the value of each unwrapped. -/
def unwrapFields : Fields → Fields
  | Fields.nil => Fields.nil
  | Fields.cons key v rest => Fields.cons key (unwrapDoc v) (unwrapFields rest)
end

mutual
/-- Whether every array of a value has been rewritten: the value is not an
array, and no field and no array element inside it holds an array, except
the single field `$in` of an object `{ $in: <array> }`, whose elements are
held to the same. -/
def wrappedDoc : Doc → Bool
  | Doc.arr _ => false
  | Doc.obj (Fields.cons key (Doc.arr items) Fields.nil) =>
    decide (key = "$in") && wrappedItems items
  | Doc.obj fields => wrappedFields fields
  | _ => true
/-- Whether every array has been rewritten in each element of an array. -/
def wrappedItems : Items → Bool
  | Items.nil => true
  | Items.cons d rest => wrappedDoc d && wrappedItems rest
/-- Whether every array has been rewritten in the value of each field. -/
def wrappedFields : Fields → Bool
  | Fields.nil => true
  | Fields.cons _ v rest => wrappedDoc v && wrappedFields rest
end

/-- Whether the first field of an object holds an array. -/
def headArray : Fields → Bool
  | Fields.cons _ (Doc.arr _) _ => true
  | _ => false

mutual
/-- The value with every array `v` inside it, at any depth, replaced by
`{ $in: v }`, the elements of `v` treated the same. -/
def wrapDoc : Doc → Doc
  | Doc.arr items => Doc.obj (Fields.cons "$in" (Doc.arr (wrapItems items)) Fields.nil)
  | Doc.obj fields => Doc.obj (wrapFields fields)
  | d => d
/-- The elements of an array, with every array inside them replaced. -/
def wrapItems : Items → Items
  | Items.nil => Items.nil
  | Items.cons d rest => Items.cons (wrapDoc d) (wrapItems rest)
/-- The fields of an object, with every array inside their values replaced. -/
def wrapFields : Fields → Fields
  | Fields.nil => Fields.nil
  | Fields.cons key v rest => Fields.cons key (wrapDoc v) (wrapFields rest)
end

/-- Splitting of a text at every occurrence of the character `sep`; `cur`
holds the characters of the current piece, last one first. -/
def splitOnChar (sep : Char) (cur : List Char) : List Char → List (List Char)
  | [] => [cur.reverse]
  | c :: cs =>
    if c = sep then cur.reverse :: splitOnChar sep [] cs else splitOnChar sep (c :: cur) cs

/-- The pieces of a comma-separated list: `'foo,bar'` has the pieces `foo`
and `bar`. -/
def splitComma (s : String) : List String :=
  (splitOnChar ',' [] s.toList).map String.mk

/-- Assignment `m[k] = v` on a mapping kept in insertion order: a key that is
there keeps its place and takes the new value, a new key goes last. -/
def setKey (m : List (String × Doc)) (k : String) (v : Doc) : List (String × Doc) :=
  if m.any (fun e => decide (e.1 = k)) then
    m.map (fun e => if e.1 = k then (k, v) else e)
  else m ++ [(k, v)]

/-- The mapping that a comma-separated select string names: each piece is a
dotted path mapped to 1, or to 0 when the piece has a leading `-`, which is
taken off. -/
def splitSelect (s : String) : List (String × Doc) :=
  (splitComma s).foldl
    (fun m item =>
      match item.toList with
      | '-' :: rest => setKey m (String.mk rest) (Doc.num 0)
      | _ => setKey m item (Doc.num 1))
    []

/-- The fields of an object as a mapping, in order. -/
def fieldList : Fields → List (String × Doc)
  | Fields.nil => []
  | Fields.cons key v rest => (key, v) :: fieldList rest

/-- The elements of an array as a list, in order. -/
def itemList : Items → List Doc
  | Items.nil => []
  | Items.cons d rest => d :: itemList rest

/-- The value of the field `k` of an object, when it has one. -/
def fieldValue (k : String) : Fields → Option Doc
  | Fields.nil => none
  | Fields.cons key v rest => if key = k then some v else fieldValue k rest

/-- The text of a string value. -/
def textOf : Doc → Option String
  | Doc.str t => some t
  | _ => none

/-- Modelled from the spec: the parsing of a `select` string by
`prepareQuery`. `parse` is the plain `JSON.parse` of the language (`none`
for text that is not JSON), taken as given. A JSON-object string is parsed
directly as the mapping; any other string is split at commas into a mapping
from dotted path to 1, or to 0 when the piece has a leading `-`. -/
def parseSelect (parse : String → Option Doc) (s : String) : List (String × Doc) :=
  match parse s with
  | some (Doc.obj fields) => fieldList fields
  | _ => splitSelect s

/-- Whether a select key is scoped under the populated path `p`: it starts
with `p` followed by a dot. -/
def isScopedUnder (p key : String) : Bool :=
  (p.toList ++ ['.']).isPrefixOf key.toList

/-- The field that a scoped select entry names below the populated path
`p`, with a leading `-` when the entry excludes it (the polarity is passed
on as given). -/
def scopedField (p : String) (entry : String × Doc) : String :=
  (if entry.2 = Doc.num 0 then "-" else "") ++ String.mk (entry.1.toList.drop (p.length + 1))

/-- Texts joined by single spaces. -/
def joinSpace : List String → String
  | [] => ""
  | [x] => x
  | x :: y :: rest => x ++ " " ++ joinSpace (y :: rest)

/-- Modelled from the spec: the select string that `prepareQuery` attaches
to the populate descriptor of path `p`, the fields of the select entries
scoped under `p`, joined by spaces in the order of the request; nothing is
attached when no entry is scoped under `p`. -/
def attachedSelect (p : String) (select : List (String × Doc)) : Option String :=
  match select.filter (fun e => isScopedUnder p e.1) with
  | [] => none
  | found => some (joinSpace (found.map (scopedField p)))

/-- Modelled from the spec: the descriptors that `prepareQuery` builds for
the populated paths, one `{path}` per path in order, each taking the select
entries scoped under it off the top-level select mapping. The result is the
descriptors and what is left of the mapping. -/
def attachSelect : List String → List (String × Doc) → List Populate × List (String × Doc)
  | [], select => ([], select)
  | p :: ps, select =>
    ({ path := some p, select := attachedSelect p select } ::
        (attachSelect ps (select.filter (fun e => !isScopedUnder p e.1))).1,
      (attachSelect ps (select.filter (fun e => !isScopedUnder p e.1))).2)

/-- Modelled from the spec: the populate descriptor that a JSON object is,
its `path` with the optional `select`, `match` and `options` it carries. -/
def populateOfDoc : Doc → Populate
  | Doc.obj fields =>
    { path := (fieldValue "path" fields).bind textOf,
      select := (fieldValue "select" fields).bind textOf,
      matching := fieldValue "match" fields,
      options := fieldValue "options" fields }
  | _ => { path := none }

/-- Modelled from the spec: the descriptors of a `populate` string that is
the JSON text of an object or of an array of objects, that structure
directly; `none` for every other string, which is then a comma-separated
list of paths. -/
def jsonPopulate (parse : String → Option Doc) (p : String) : Option (List Populate) :=
  match parse p with
  | some (Doc.obj fields) => some [populateOfDoc (Doc.obj fields)]
  | some (Doc.arr items) => some ((itemList items).map populateOfDoc)
  | _ => none

/-- The `select` and `populate` entries of the query options that
`prepareQuery` stores on the request. -/
structure SelectPopulate where
  select : Option (List (String × Doc))
  populate : Option (List Populate)
  deriving DecidableEq, Repr

/-- Modelled from the spec: the parsing of the `select` and `populate`
parameters by `prepareQuery`, both given as strings; `parse` is the plain
`JSON.parse`. A populate string that is the JSON text of an object or of an
array of objects is that structure directly, and the select mapping is left
as parsed. Any other populate string is a comma-separated list of paths:
there is one `{path}` descriptor per path, each takes the select entries
scoped under it, and a select mapping that is left empty after the
descriptors took their fields is removed, as the unit test "parses a string
to populate and select fields" expects. -/
def parseSelectPopulate (parse : String → Option Doc) (select populate : Option String) :
    SelectPopulate :=
  match populate with
  | none => { select := select.map (parseSelect parse), populate := none }
  | some paths =>
    match jsonPopulate parse paths with
    | some descs => { select := select.map (parseSelect parse), populate := some descs }
    | none =>
      match select with
      | none => { select := none, populate := some (attachSelect (splitComma paths) []).1 }
      | some sel =>
        { select :=
            match (attachSelect (splitComma paths) (parseSelect parse sel)).2 with
            | [] => none
            | left => some left,
          populate := some (attachSelect (splitComma paths) (parseSelect parse sel)).1 }

/-! ## The query plan builder (`buildQuery`), from the specification

The source of `buildQuery` is not available: only its unit tests are. It is
modelled from the ordering rules of the specification; the operations it
invokes on the plan are logged, as the spies of the unit tests do. -/

/-- Modelled from the spec: the structured query options of a request, which
`buildQuery` consumes. `skip` and `limit` are as the request supplied them,
a string or a number; an entry that is missing is `none`. -/
structure QueryOptions where
  query : Option Doc := none
  sort : Option Doc := none
  skip : Option Doc := none
  limit : Option Doc := none
  select : Option (List (String × Doc)) := none
  populate : Option (List Populate) := none
  distinct : Option String := none
  deriving DecidableEq, Repr

/-- Modelled from the spec: the static options of a resource that
`buildQuery` reads, the server-configured limit. -/
structure StaticOptions where
  limit : Option Int := none
  deriving DecidableEq, Repr

/-- Modelled from the spec: the query plan handed to `buildQuery`, an object
of the store known by its identity, with its operation (`op`), which is
`count` for a count plan. -/
structure Plan where
  ident : Nat
  op : Option String := none
  deriving DecidableEq, Repr

/-- One operation invoked on the plan, with its argument; `filter` is the
method `where` of the plan. -/
inductive PlanCall
  | filter (query : Doc)
  | distinct (field : String)
  | sort (sort : Doc)
  | skip (n : Int)
  | limit (n : Int)
  | select (select : List (String × Doc))
  | populate (populate : List Populate)
  deriving DecidableEq, Repr

/-- Result of a build: the operations invoked on the plan, and the plan
handed back or the identifier of the error. -/
structure BuildResult where
  calls : List PlanCall
  result : Except String Plan
  deriving DecidableEq, Repr

/-- The operation for an optional argument: invoked when the argument is
present. -/
def callIfPresent {α : Type} (mk : α → PlanCall) : Option α → List PlanCall
  | some a => [mk a]
  | none => []

/-- Modelled from the spec: the limit that `buildQuery` applies on a plan
that is neither a count nor a distinct operation. A request-supplied limit
`n` is applied, cut down to the static limit when it exceeds that cap (the
unit test with static 1 and request '2'); without a request-supplied limit
the static limit is applied when there is one. -/
def resolveLimit (staticLimit requested : Option Int) : Option Int :=
  match requested, staticLimit with
  | some n, some cap => if n > cap then some cap else some n
  | some n, none => some n
  | none, some cap => some cap
  | none, none => none

/-- Modelled from the spec: step 4 of `buildQuery` with the symmetric rule
of step 5, on a plan that is neither a count nor a distinct operation. A
request-supplied skip is coerced to an integer and applied; one that is not
numeric is the fatal error `invalid_skip_value`. -/
def skipCalls (coerce : Doc → Option Int) : Option Doc → Except String (List PlanCall)
  | none => Except.ok []
  | some k =>
    match coerce k with
    | some n => Except.ok [PlanCall.skip n]
    | none => Except.error "invalid_skip_value"

/-- Modelled from the spec: step 5 of `buildQuery`, on a plan that is
neither a count nor a distinct operation. A request-supplied limit is
coerced to an integer, and one that is not numeric is the fatal error
`invalid_limit_value`; the limit applied is `resolveLimit`. -/
def limitCalls (coerce : Doc → Option Int) (staticLimit : Option Int) :
    Option Doc → Except String (List PlanCall)
  | none => Except.ok (callIfPresent PlanCall.limit (resolveLimit staticLimit none))
  | some l =>
    match coerce l with
    | some n => Except.ok (callIfPresent PlanCall.limit (resolveLimit staticLimit (some n)))
    | none => Except.error "invalid_limit_value"

/-- Modelled from the spec: `buildQuery(staticOptions)(plan, queryOptions)`.
`coerce` is the integer coercion of the language for a request-supplied
value (`none` for a value that is not numeric), taken as given. The steps
follow the numbered order of the specification: (1) the filter, when a
query is present; (2) distinct alone, when it is set; otherwise, on a plan
that is not a count, (3) sort, (4) skip and (5) limit; (6) select and
populate. A build that fails at step 4 or 5 stops there, with the
operations of the earlier steps already invoked on the plan. -/
def buildQuery (coerce : Doc → Option Int) (staticOptions : StaticOptions) (plan : Plan)
    (queryOptions : QueryOptions) : BuildResult :=
  let filtered : List PlanCall := callIfPresent PlanCall.filter queryOptions.query
  let projected : List PlanCall :=
    callIfPresent PlanCall.select queryOptions.select ++
      callIfPresent PlanCall.populate queryOptions.populate
  match queryOptions.distinct with
  | some field => { calls := filtered ++ [PlanCall.distinct field], result := Except.ok plan }
  | none =>
    if plan.op = some "count" then
      { calls := filtered ++ projected, result := Except.ok plan }
    else
      let sorted : List PlanCall := filtered ++ callIfPresent PlanCall.sort queryOptions.sort
      match skipCalls coerce queryOptions.skip with
      | Except.error e => { calls := sorted, result := Except.error e }
      | Except.ok skipped =>
        match limitCalls coerce staticOptions.limit queryOptions.limit with
        | Except.error e => { calls := sorted ++ skipped, result := Except.error e }
        | Except.ok limited =>
          { calls := sorted ++ skipped ++ limited ++ projected, result := Except.ok plan }

/-- Whether an operation is `limit`. -/
def PlanCall.isLimit : PlanCall → Bool
  | PlanCall.limit _ => true
  | _ => false

/-- Whether an operation is one of sort, skip, limit, select and populate,
the operations that distinct excludes. -/
def PlanCall.isPaging : PlanCall → Bool
  | PlanCall.filter _ => false
  | PlanCall.distinct _ => false
  | _ => true

/-- Whether an operation is one of limit, select and populate, the
operations of the steps from the limit rule on. -/
def PlanCall.isLimitOrLater : PlanCall → Bool
  | PlanCall.limit _ => true
  | PlanCall.select _ => true
  | PlanCall.populate _ => true
  | _ => false

/-- The value of a text of decimal digits read so far as `acc`; `none` when
a character is not a digit. -/
def digitsValue (acc : Nat) : List Char → Option Nat
  | [] => some acc
  | c :: cs =>
    if '0' ≤ c ∧ c ≤ '9' then digitsValue (acc * 10 + (c.toNat - 48)) cs else none

/-- An integer coercion for the examples: a number is itself, a non-empty
text of decimal digits is its value, everything else is not numeric. -/
def coerceDecimal : Doc → Option Int
  | Doc.num n => some n
  | Doc.str s =>
    match s.toList with
    | [] => none
    | cs => (digitsValue 0 cs).map Int.ofNat
  | _ => none

/-! ## Example inputs -/

/-- A request on `/Customer/42` with nothing set yet. -/
def reqWithId : Req :=
  { params := { id := some "42" },
    erm := { statusCode := none, result := JSVal.undefined, document := JSVal.undefined },
    access := JSVal.undefined }

/-- A request on `/Customer` (no path id) with nothing set yet. -/
def reqNoId : Req :=
  { params := { id := none },
    erm := { statusCode := none, result := JSVal.undefined, document := JSVal.undefined },
    access := JSVal.undefined }

/-- The request `reqWithId` after an earlier stage set the status `c`. -/
def reqWithStatus (c : Int) : Req :=
  { reqWithId with erm := { reqWithId.erm with statusCode := some c } }

/-- The error `new Error('Not Found')`. -/
def errNotFound : Err :=
  { message := some "Not Found", name := some "Error", path := none }

/-- The error `new Error('Something went wrong')`. -/
def errOther : Err :=
  { message := some "Something went wrong", name := some "Error", path := none }

/-- A mongoose `CastError` on the path `p`. -/
def errCast (p : String) : Err :=
  { message := some "Cast to ObjectId failed", name := some "CastError", path := some p }

/-- Options with `idProperty: '_id'` and no access function. -/
def optsId : Options :=
  { idProperty := some "_id", access := none }

/-- The response and continuation used in the examples. -/
def res0 : Res := { ident := 0 }

/-- The continuation used in the examples. -/
def next0 : Next := { ident := 0 }

/-- The resolver `() => v`: arity 0, returns `v`. -/
def accessReturns (v : JSVal) : AccessFn :=
  { length := 0, apply1 := fun _ => v, apply2 := fun _ => none }

/-- The resolver `(req, cb) => cb(err, v)`: arity 2, calls back once. -/
def accessYields (err : Option Err) (v : JSVal) : AccessFn :=
  { length := 2, apply1 := fun _ => JSVal.undefined, apply2 := fun _ => some (err, v) }

/-- Options with `idProperty: '_id'` and the access function `fn`. -/
def optsAccess (fn : AccessFn) : Options :=
  { idProperty := some "_id", access := some fn }

/-- The model handed to `filterAndFindById` in the examples. -/
def customerModel : Model := { ident := 1 }

/-- A store that resolves every lookup with `doc`. -/
def storeResolves (doc : JSVal) : Query → Lookup :=
  fun _ => Lookup.resolved doc

/-- A store that rejects every lookup with `err`. -/
def storeRejects (err : Err) : Query → Lookup :=
  fun _ => Lookup.rejected err

/-- The request `reqNoId` with status `c` and result `r`, ready for output. -/
def reqOutput (c : Int) (r : JSVal) : Req :=
  { reqNoId with erm := { reqNoId.erm with statusCode := some c, result := r } }

/-- The keys `{ private: ['foo'], protected: ['bar'] }` of the unit tests. -/
def keysFooBar : FilteredKeys :=
  { privatePaths := some ["foo"], protectedPaths := some ["bar"] }

/-- The document `{ foo: { bar: { baz: v } } }`. -/
def docFooBarBaz (v : String) : Doc :=
  Doc.obj (Fields.cons "foo"
    (Doc.obj (Fields.cons "bar"
      (Doc.obj (Fields.cons "baz" (Doc.str v) Fields.nil)) Fields.nil)) Fields.nil)

/-- The document `{ foo: { bar: {} } }`. -/
def docFooBarEmpty : Doc :=
  Doc.obj (Fields.cons "foo"
    (Doc.obj (Fields.cons "bar" (Doc.obj Fields.nil) Fields.nil)) Fields.nil)

/-- The document `{ name: 'Bob', age: 12 }`. -/
def docBob : Doc :=
  Doc.obj (Fields.cons "name" (Doc.str "Bob") (Fields.cons "age" (Doc.num 12) Fields.nil))

/-- The references of the Invoice schema of the unit tests: `customer`
refers to Customer, `products` to Product. -/
def invoiceRefs : String → Option String :=
  fun p => if p = "customer" then some "Customer"
    else if p = "products" then some "Product" else none

/-- The references of the Customer schema of the unit tests:
`purchases.item` refers to Product. -/
def customerRefs : String → Option String :=
  fun p => if p = "purchases.item" then some "Product" else none

/-- The keys `{ private: ['name'] }` of the unit tests. -/
def keysName : FilteredKeys :=
  { privatePaths := some ["name"], protectedPaths := none }

/-- The document `{ name: n }`. -/
def docNamed (n : String) : Doc :=
  Doc.obj (Fields.cons "name" (Doc.str n) Fields.nil)

/-- The invoice `{ customer: { name: n }, amount: a }`. -/
def docInvoice (n a : String) : Doc :=
  Doc.obj (Fields.cons "customer" (docNamed n) (Fields.cons "amount" (Doc.str a) Fields.nil))

/-- The invoice `{ customer: {}, amount: a }`. -/
def docInvoiceFiltered (a : String) : Doc :=
  Doc.obj (Fields.cons "customer" (Doc.obj Fields.nil)
    (Fields.cons "amount" (Doc.str a) Fields.nil))

/-- The invoice `{ products: [{ name: 'Squirt Gun' }, { name: 'Water Balloons' }],
amount: '42' }`. -/
def docInvoiceProducts : Doc :=
  Doc.obj (Fields.cons "products"
    (Doc.arr (Items.cons (docNamed "Squirt Gun")
      (Items.cons (docNamed "Water Balloons") Items.nil)))
    (Fields.cons "amount" (Doc.str "42") Fields.nil))

/-- The customer `{ name: 'John', purchases: [{ item: { name: 'Squirt Gun' } }] }`. -/
def docCustomerPurchases : Doc :=
  Doc.obj (Fields.cons "name" (Doc.str "John")
    (Fields.cons "purchases"
      (Doc.arr (Items.cons (Doc.obj (Fields.cons "item" (docNamed "Squirt Gun") Fields.nil))
        Items.nil))
      Fields.nil))

/-- The options `{ populate: [{ path: p }], excludedMap: { [name]: keys } }`
at the public level. -/
def populateOne (p name : String) : PopulateOptions :=
  { access := AccessLevel.publicLevel, populate := [{ path := some p }],
    excludedMap := [(name, keysName)] }

/-- The value `{ foo: v }`. -/
def docFoo (v : Doc) : Doc :=
  Doc.obj (Fields.cons "foo" v Fields.nil)

/-- The array `['bar']`. -/
def itemsBar : Items :=
  Items.cons (Doc.str "bar") Items.nil

/-- The query string of the unit test "converts $regex to undefined", the
JSON text of an object `foo` holding the field `$regex` with value `bar`. -/
def textFooRegex : String :=
  "\x7b\"foo\":\x7b\"$regex\":\"bar\"\x7d\x7d"

/-- The query string of the unit test "converts [] to $in", the JSON text of
the field `foo` holding the array of `bar`. -/
def textFooArray : String :=
  "\x7b\"foo\":[\"bar\"]\x7d"

/-- The query string of the unit test "calls next when query key is valid
json", the JSON text of the field `foo` holding the string `bar`. -/
def textFooBar : String :=
  "\x7b\"foo\":\"bar\"\x7d"

/-- A select parameter given as a JSON-object string, the JSON text of the
mapping of `foo.bar` to 1 and of `baz` to 0. -/
def textSelectObject : String :=
  "\x7b\"foo.bar\":1,\"baz\":0\x7d"

/-- What `JSON.parse` gives for the select and populate strings of the
examples: the mapping for `textSelectObject`; the comma-separated strings
are not JSON. -/
def parseParamExamples : String → Option Doc :=
  fun text =>
    if text = textSelectObject then
      some (Doc.obj (Fields.cons "foo.bar" (Doc.num 1)
        (Fields.cons "baz" (Doc.num 0) Fields.nil)))
    else none

/-- A query string with arrays and `$regex` below the top level, the JSON
text of `$or` holding an array whose one element has the field `name` with
`$regex: 'x'` and the field `tags` with the array of `bar`. -/
def textNested : String :=
  "\x7b\"$or\":[\x7b\"name\":\x7b\"$regex\":\"x\"\x7d,\"tags\":[\"bar\"]\x7d]\x7d"

/-- The value that `JSON.parse` gives for `textNested`. -/
def docNested : Doc :=
  Doc.obj (Fields.cons "$or"
    (Doc.arr (Items.cons
      (Doc.obj (Fields.cons "name"
        (Doc.obj (Fields.cons "$regex" (Doc.str "x") Fields.nil))
        (Fields.cons "tags" (Doc.arr itemsBar) Fields.nil)))
      Items.nil))
    Fields.nil)

/-- The query `{ $or: { $in: [{ name: r, tags: { $in: ['bar'] } }] } }`. -/
def docNestedParsed (r : Doc) : Doc :=
  Doc.obj (Fields.cons "$or"
    (Doc.obj (Fields.cons "$in"
      (Doc.arr (Items.cons
        (Doc.obj (Fields.cons "name" r
          (Fields.cons "tags"
            (Doc.obj (Fields.cons "$in" (Doc.arr itemsBar) Fields.nil)) Fields.nil)))
        Items.nil))
      Fields.nil))
    Fields.nil)

/-- What `JSON.parse` gives for the query strings of the examples; every
other text counts as malformed here. -/
def parseExamples : String → Option Doc :=
  fun text =>
    if text = textFooRegex then
      some (docFoo (Doc.obj (Fields.cons "$regex" (Doc.str "bar") Fields.nil)))
    else if text = textFooArray then some (docFoo (Doc.arr itemsBar))
    else if text = textFooBar then some (docFoo (Doc.str "bar"))
    else if text = textNested then some docNested
    else none

/-- The plan of the unit tests, a find plan. -/
def planFind : Plan := { ident := 1 }

/-- The plan of the unit tests with `op` set to `count`. -/
def planCount : Plan := { ident := 1, op := some "count" }

/-! ## errorHandler: status rules -/

/-- C1: on a request that has a path id, whatever status was set before,
handling an error whose message is exactly "Not Found" sets
`req.erm.statusCode` to 404. -/
theorem errorHandler_notFound_sets_404 (options : Options) (res : Res) (next : Next)
    (err : Err) (s : State) (_hid : truthyStr s.req.params.id = true)
    (hmsg : err.message = some "Not Found") :
    (errorHandler options res next err s).req.erm.statusCode = some 404 := by
  simp [errorHandler, isNotFoundClass, STATUS_CODES, hmsg]

/-- Witness of C1: the request `/Customer/42` with an earlier status 500. -/
theorem errorHandler_notFound_sets_404_witness :
    truthyStr (reqWithStatus 500).params.id = true ∧
    errNotFound.message = some "Not Found" ∧
    (errorHandler optsId res0 next0 errNotFound
      { req := reqWithStatus 500, calls := [] }).req.erm.statusCode = some 404 :=
  ⟨by decide, rfl,
    errorHandler_notFound_sets_404 optsId res0 next0 errNotFound
      { req := reqWithStatus 500, calls := [] } (by decide) rfl⟩

/-- C2: on a request that has a path id, a `CastError` whose path is the
configured `idProperty` sets 404; a `CastError` on any other path, with a
message other than "Not Found" and no earlier status, sets 400. -/
theorem errorHandler_castError_status (options : Options) (res : Res) (next : Next)
    (err : Err) (s : State) (hid : truthyStr s.req.params.id = true)
    (hname : err.name = some "CastError") :
    (err.path = options.idProperty →
      (errorHandler options res next err s).req.erm.statusCode = some 404) ∧
    (err.path ≠ options.idProperty → err.message ≠ some "Not Found" →
      s.req.erm.statusCode = none →
      (errorHandler options res next err s).req.erm.statusCode = some 400) := by
  constructor
  · intro hpath
    simp [errorHandler, isNotFoundClass, hid, hname, hpath]
  · intro hpath hmsg hnone
    simp [errorHandler, isNotFoundClass, STATUS_CODES, hname, hpath, hmsg, hnone, keepOr400]

/-- Witness of C2: a cast failure on `_id` gives 404, a cast failure on
`age` gives 400, both on `/Customer/42` with `idProperty: '_id'`. -/
theorem errorHandler_castError_status_witness :
    truthyStr reqWithId.params.id = true ∧
    (errorHandler optsId res0 next0 (errCast "_id")
      { req := reqWithId, calls := [] }).req.erm.statusCode = some 404 ∧
    (errorHandler optsId res0 next0 (errCast "age")
      { req := reqWithId, calls := [] }).req.erm.statusCode = some 400 :=
  ⟨by decide,
    (errorHandler_castError_status optsId res0 next0 (errCast "_id")
      { req := reqWithId, calls := [] } (by decide) rfl).1 rfl,
    (errorHandler_castError_status optsId res0 next0 (errCast "age")
      { req := reqWithId, calls := [] } (by decide) rfl).2 (by decide) (by decide) rfl⟩

/-- C3: for an error that is neither a "Not Found" error nor an identifier
cast failure (a `CastError` on `idProperty` of a request with a path id),
the resulting status is the earlier status `c` when `c ≥ 400`, and exactly
400 when the status is absent, zero or below 400. -/
theorem errorHandler_other_errors_status (options : Options) (res : Res) (next : Next)
    (err : Err) (s : State) (hmsg : err.message ≠ some "Not Found")
    (hcast : ¬ (truthyStr s.req.params.id = true ∧ err.path = options.idProperty ∧
      err.name = some "CastError")) :
    (∀ c : Int, s.req.erm.statusCode = some c → c ≥ 400 →
      (errorHandler options res next err s).req.erm.statusCode = some c) ∧
    (s.req.erm.statusCode = none →
      (errorHandler options res next err s).req.erm.statusCode = some 400) ∧
    (∀ c : Int, s.req.erm.statusCode = some c → c < 400 →
      (errorHandler options res next err s).req.erm.statusCode = some 400) := by
  have hcls : isNotFoundClass options s.req err = false := by
    simp only [isNotFoundClass, STATUS_CODES, Bool.or_eq_false_iff, decide_eq_false_iff_not]
    refine ⟨hmsg, ?_⟩
    by_contra h
    simp only [Bool.not_eq_false, Bool.and_eq_true, decide_eq_true_eq] at h
    exact hcast ⟨h.1.1, h.1.2, h.2⟩
  refine ⟨?_, ?_, ?_⟩
  · intro c hc hge
    have hne : c ≠ 0 := by omega
    simp [errorHandler, hcls, hc, keepOr400, truthyNum, hne, hge]
  · intro hc
    simp [errorHandler, hcls, hc, keepOr400]
  · intro c hc hlt
    have hnot : ¬ c ≥ 400 := by omega
    simp [errorHandler, hcls, hc, keepOr400, hnot]

/-- Witness of C3: `new Error('Something went wrong')` on `/Customer/42`
keeps an earlier 500, and turns an earlier 200, an earlier 0 and an absent
status into 400. -/
theorem errorHandler_other_errors_status_witness :
    (errorHandler optsId res0 next0 errOther
      { req := reqWithStatus 500, calls := [] }).req.erm.statusCode = some 500 ∧
    (errorHandler optsId res0 next0 errOther
      { req := reqWithId, calls := [] }).req.erm.statusCode = some 400 ∧
    (errorHandler optsId res0 next0 errOther
      { req := reqWithStatus 200, calls := [] }).req.erm.statusCode = some 400 ∧
    (errorHandler optsId res0 next0 errOther
      { req := reqWithStatus 0, calls := [] }).req.erm.statusCode = some 400 :=
  ⟨(errorHandler_other_errors_status optsId res0 next0 errOther
      { req := reqWithStatus 500, calls := [] } (by decide) (by decide)).1 500 rfl (by decide),
    (errorHandler_other_errors_status optsId res0 next0 errOther
      { req := reqWithId, calls := [] } (by decide) (by decide)).2.1 rfl,
    (errorHandler_other_errors_status optsId res0 next0 errOther
      { req := reqWithStatus 200, calls := [] } (by decide) (by decide)).2.2 200 rfl (by decide),
    (errorHandler_other_errors_status optsId res0 next0 errOther
      { req := reqWithStatus 0, calls := [] } (by decide) (by decide)).2.2 0 rfl (by decide)⟩

/-- C4, as stated, fails: on `/Customer/42` with an earlier status 500, the
error `new Error('Not Found')` leaves the status 404, below 500. -/
theorem errorHandler_monotonic_counterexample :
    ¬ StatusNeverLowered optsId res0 next0 errNotFound
      { req := reqWithStatus 500, calls := [] } := by
  intro h
  obtain ⟨k, hk, hge⟩ := h 500 rfl (by decide)
  have h404 : (errorHandler optsId res0 next0 errNotFound
      { req := reqWithStatus 500, calls := [] }).req.erm.statusCode = some 404 := by decide
  rw [h404] at hk
  cases hk
  omega

/-- C4, amended: with an earlier status `c ≥ 400`, an error that is not
not-found-class leaves the status at `c`, so it is never lowered, while a
not-found-class error sets 404 whatever `c` was; the status is therefore
never lowered exactly when the error is not not-found-class or `c ≤ 404`. -/
theorem errorHandler_status_after_elevated (options : Options) (res : Res) (next : Next)
    (err : Err) (s : State) (c : Int) (hc : s.req.erm.statusCode = some c)
    (hge : c ≥ 400) :
    (isNotFoundClass options s.req err = false →
      (errorHandler options res next err s).req.erm.statusCode = some c) ∧
    (isNotFoundClass options s.req err = true →
      (errorHandler options res next err s).req.erm.statusCode = some 404) ∧
    (StatusNeverLowered options res next err s ↔
      (isNotFoundClass options s.req err = false ∨ c ≤ 404)) := by
  have hne : c ≠ 0 := by omega
  have hfalse : isNotFoundClass options s.req err = false →
      (errorHandler options res next err s).req.erm.statusCode = some c := by
    intro hcls
    simp [errorHandler, hcls, hc, keepOr400, truthyNum, hne, hge]
  have htrue : isNotFoundClass options s.req err = true →
      (errorHandler options res next err s).req.erm.statusCode = some 404 := by
    intro hcls
    simp [errorHandler, hcls]
  refine ⟨hfalse, htrue, ?_⟩
  constructor
  · intro h
    obtain ⟨k, hk, hkc⟩ := h c hc hge
    cases hcls : isNotFoundClass options s.req err with
    | false => exact Or.inl rfl
    | true =>
      right
      rw [htrue hcls] at hk
      cases hk
      omega
  · intro h d hd hdge
    rw [hc] at hd
    cases hd
    cases hcls : isNotFoundClass options s.req err with
    | false => exact ⟨c, hfalse hcls, le_refl c⟩
    | true =>
      rcases h with h | h
      · rw [hcls] at h
        cases h
      · exact ⟨404, htrue hcls, h⟩

/-- Witness of C4, amended: an earlier 500 survives
`new Error('Something went wrong')`. -/
theorem errorHandler_status_after_elevated_witness :
    (reqWithStatus 500).erm.statusCode = some 500 ∧ (500 : Int) ≥ 400 ∧
    (errorHandler optsId res0 next0 errOther
      { req := reqWithStatus 500, calls := [] }).req.erm.statusCode = some 500 :=
  ⟨rfl, by decide,
    (errorHandler_status_after_elevated optsId res0 next0 errOther
      { req := reqWithStatus 500, calls := [] } 500 rfl (by decide)).1 (by decide)⟩

/-- C5, as stated, fails: on `/Customer` (no path id, no earlier status) the
error `new Error('Not Found')` sets 404, not the default 400. -/
theorem errorHandler_notFound_no_id_counterexample :
    truthyStr reqNoId.params.id = false ∧
    errNotFound.message = some "Not Found" ∧
    keepOr400 reqNoId.erm.statusCode = 400 ∧
    (errorHandler optsId res0 next0 errNotFound
      { req := reqNoId, calls := [] }).req.erm.statusCode ≠ some 400 := by
  decide

/-- C5, amended: an error whose message is "Not Found" sets 404 also on a
request with no path id, whatever status was set before. -/
theorem errorHandler_notFound_no_id_sets_404 (options : Options) (res : Res) (next : Next)
    (err : Err) (s : State) (_hid : truthyStr s.req.params.id = false)
    (hmsg : err.message = some "Not Found") :
    (errorHandler options res next err s).req.erm.statusCode = some 404 := by
  simp [errorHandler, isNotFoundClass, STATUS_CODES, hmsg]

/-- Witness of C5, amended: `new Error('Not Found')` on `/Customer`. -/
theorem errorHandler_notFound_no_id_sets_404_witness :
    truthyStr reqNoId.params.id = false ∧
    (errorHandler optsId res0 next0 errNotFound
      { req := reqNoId, calls := [] }).req.erm.statusCode = some 404 :=
  ⟨by decide,
    errorHandler_notFound_no_id_sets_404 optsId res0 next0 errNotFound
      { req := reqNoId, calls := [] } (by decide) rfl⟩

/-! ## errorHandler: the failure channel -/

/-- C6: for every error, `errorHandler` appends exactly one call to the log,
`options.onError(err, req, res, next)` with the error it was given, and the
request passed in that call already holds the final status; the number of
`onError` calls grows by one and no call of `next` is added. -/
theorem errorHandler_invokes_onError_once (options : Options) (res : Res) (next : Next)
    (err : Err) (s : State) :
    (errorHandler options res next err s).calls =
      s.calls ++ [Call.onError err (errorHandler options res next err s).req res next] ∧
    (errorHandler options res next err s).req.erm.statusCode =
      some (if isNotFoundClass options s.req err then 404
        else keepOr400 s.req.erm.statusCode) ∧
    ((errorHandler options res next err s).calls.filter Call.isOnError).length =
      (s.calls.filter Call.isOnError).length + 1 ∧
    (errorHandler options res next err s).calls.filter Call.isNext =
      s.calls.filter Call.isNext := by
  refine ⟨rfl, rfl, ?_, ?_⟩
  · simp [errorHandler, List.filter_append, Call.isOnError]
  · simp [errorHandler, List.filter_append, Call.isNext]

/-! ## access middleware -/

/-- The three levels are found by `indexOf`, so the test of line 12 fails
for them. -/
theorem indexOf_level_nonneg (L : String)
    (hL : L = "public" ∨ L = "protected" ∨ L = "private") :
    ¬ indexOf [JSVal.str "public", JSVal.str "private", JSVal.str "protected"]
      (JSVal.str L) < 0 := by
  rcases hL with h | h | h <;> subst h <;> decide

/-- Any value other than the three level strings gives -1. -/
theorem indexOf_other_neg (v : JSVal) (h1 : v ≠ JSVal.str "public")
    (h2 : v ≠ JSVal.str "protected") (h3 : v ≠ JSVal.str "private") :
    indexOf [JSVal.str "public", JSVal.str "private", JSVal.str "protected"] v < 0 := by
  have e1 : ¬ JSVal.str "public" = v := fun h => h1 h.symm
  have e2 : ¬ JSVal.str "protected" = v := fun h => h2 h.symm
  have e3 : ¬ JSVal.str "private" = v := fun h => h3 h.symm
  simp [indexOf, indexOfFrom, e1, e2, e3]

/-- C7: when the resolver yields a level `L` among public, protected and
private, either by returning it (arity at most 1) or by calling back with
no error (arity above 1), the middleware sets `req.access` to `L`, appends
the single call `next()` to the log, does not invoke `onError`, throws
nothing and leaves every other field of the request as it was. -/
theorem access_success (options : Options) (res : Res) (next : Next) (s : State)
    (fn : AccessFn) (L : String) (hfn : options.access = some fn)
    (hL : L = "public" ∨ L = "protected" ∨ L = "private")
    (hres : (fn.length ≤ 1 ∧ fn.apply1 s.req = JSVal.str L) ∨
      (fn.length > 1 ∧ fn.apply2 s.req = some (none, JSVal.str L))) :
    access options res next s =
      { state := { req := { s.req with access := JSVal.str L },
                   calls := s.calls ++ [Call.next next []] },
        thrown := none } := by
  have hidx := indexOf_level_nonneg L hL
  rcases hres with ⟨hlen, hval⟩ | ⟨hlen, hval⟩
  · have hnot : ¬ fn.length > 1 := by omega
    simp only [access, hfn, hnot, if_false, handler, hval, hidx]
  · simp only [access, hfn, hlen, if_true, handler, hval, hidx, if_false]

/-- Witness of C7: `() => 'private'` and `(req, cb) => cb(null, 'private')`
both set `req.access` to `'private'` and call `next()` once. -/
theorem access_success_witness :
    access (optsAccess (accessReturns (JSVal.str "private"))) res0 next0
        { req := reqNoId, calls := [] } =
      { state := { req := { reqNoId with access := JSVal.str "private" },
                   calls := [Call.next next0 []] },
        thrown := none } ∧
    access (optsAccess (accessYields none (JSVal.str "private"))) res0 next0
        { req := reqNoId, calls := [] } =
      { state := { req := { reqNoId with access := JSVal.str "private" },
                   calls := [Call.next next0 []] },
        thrown := none } :=
  ⟨access_success (optsAccess (accessReturns (JSVal.str "private"))) res0 next0
      { req := reqNoId, calls := [] } (accessReturns (JSVal.str "private")) "private" rfl
      (Or.inr (Or.inr rfl)) (Or.inl ⟨by decide, rfl⟩),
    access_success (optsAccess (accessYields none (JSVal.str "private"))) res0 next0
      { req := reqNoId, calls := [] } (accessYields none (JSVal.str "private")) "private" rfl
      (Or.inr (Or.inr rfl)) (Or.inr ⟨by decide, rfl⟩)⟩

/-- C8: when the resolved value is none of the strings public, protected and
private, whether returned or called back with no error, the middleware
throws the "Unsupported access" error and leaves the world as it was: no
call of `next`, no call of `onError`, `req.access` not assigned. -/
theorem access_unsupported_throws (options : Options) (res : Res) (next : Next)
    (s : State) (fn : AccessFn) (v : JSVal) (hfn : options.access = some fn)
    (h1 : v ≠ JSVal.str "public") (h2 : v ≠ JSVal.str "protected")
    (h3 : v ≠ JSVal.str "private")
    (hres : (fn.length ≤ 1 ∧ fn.apply1 s.req = v) ∨
      (fn.length > 1 ∧ fn.apply2 s.req = some (none, v))) :
    access options res next s =
      { state := s,
        thrown := some (Thrown.error
          "Unsupported access, must be \"private\", \"protected\" or \"public\"") } := by
  have hidx := indexOf_other_neg v h1 h2 h3
  rcases hres with ⟨hlen, hval⟩ | ⟨hlen, hval⟩
  · have hnot : ¬ fn.length > 1 := by omega
    simp only [access, hfn, hnot, if_false, handler, hval, hidx, if_true, unsupportedAccess]
  · simp only [access, hfn, hlen, if_true, handler, hval, hidx, unsupportedAccess]

/-- Witness of C8: the values `'foo'` (returned), `undefined` (returned) and
`'Public'` (called back) are all refused, and `req.access` stays
`undefined`. -/
theorem access_unsupported_throws_witness :
    access (optsAccess (accessReturns (JSVal.str "foo"))) res0 next0
        { req := reqNoId, calls := [] } =
      { state := { req := reqNoId, calls := [] },
        thrown := some (Thrown.error
          "Unsupported access, must be \"private\", \"protected\" or \"public\"") } ∧
    access (optsAccess (accessReturns JSVal.undefined)) res0 next0
        { req := reqNoId, calls := [] } =
      { state := { req := reqNoId, calls := [] },
        thrown := some (Thrown.error
          "Unsupported access, must be \"private\", \"protected\" or \"public\"") } ∧
    access (optsAccess (accessYields none (JSVal.str "Public"))) res0 next0
        { req := reqNoId, calls := [] } =
      { state := { req := reqNoId, calls := [] },
        thrown := some (Thrown.error
          "Unsupported access, must be \"private\", \"protected\" or \"public\"") } ∧
    reqNoId.access = JSVal.undefined :=
  ⟨access_unsupported_throws (optsAccess (accessReturns (JSVal.str "foo"))) res0 next0
      { req := reqNoId, calls := [] } (accessReturns (JSVal.str "foo")) (JSVal.str "foo") rfl
      (by decide) (by decide) (by decide) (Or.inl ⟨by decide, rfl⟩),
    access_unsupported_throws (optsAccess (accessReturns JSVal.undefined)) res0 next0
      { req := reqNoId, calls := [] } (accessReturns JSVal.undefined) JSVal.undefined rfl
      (by decide) (by decide) (by decide) (Or.inl ⟨by decide, rfl⟩),
    access_unsupported_throws (optsAccess (accessYields none (JSVal.str "Public"))) res0 next0
      { req := reqNoId, calls := [] } (accessYields none (JSVal.str "Public"))
      (JSVal.str "Public") rfl
      (by decide) (by decide) (by decide) (Or.inr ⟨by decide, rfl⟩),
    rfl⟩

/-- C9: when a resolver of arity above 1 calls back with an error `e`, with
or without a level, the middleware does what `errorHandler` does with `e`
and nothing else: the log grows by the single call
`onError(e, req, res, next)`, whose request already carries the status set
by the errorHandler rule (400 when no status was set before and `e` is not
not-found-class); no call of `next` is added, `req.access` keeps its value
and nothing is thrown. -/
theorem access_async_error (options : Options) (res : Res) (next : Next) (s : State)
    (fn : AccessFn) (e : Err) (v : JSVal) (hfn : options.access = some fn)
    (hlen : fn.length > 1) (hcb : fn.apply2 s.req = some (some e, v)) :
    access options res next s =
      { state := errorHandler options res next e s, thrown := none } ∧
    (access options res next s).state.calls =
      s.calls ++ [Call.onError e (access options res next s).state.req res next] ∧
    (access options res next s).state.req.erm.statusCode =
      some (if isNotFoundClass options s.req e then 404
        else keepOr400 s.req.erm.statusCode) ∧
    (s.req.erm.statusCode = none → isNotFoundClass options s.req e = false →
      (access options res next s).state.req.erm.statusCode = some 400) ∧
    (access options res next s).state.calls.filter Call.isNext =
      s.calls.filter Call.isNext ∧
    (access options res next s).state.req.access = s.req.access := by
  have hrun : access options res next s =
      { state := errorHandler options res next e s, thrown := none } := by
    simp only [access, hfn, hlen, if_true, hcb, handler]
  rw [hrun]
  refine ⟨rfl, rfl, rfl, ?_, ?_, rfl⟩
  · intro hnone hcls
    simp [errorHandler, hcls, hnone, keepOr400]
  · simp [errorHandler, List.filter_append, Call.isNext]

/-- Witness of C9: `(req, cb) => cb(err, 'private')` with
`err = new Error('Something went wrong')` on a request with no status. -/
theorem access_async_error_witness :
    access (optsAccess (accessYields (some errOther) (JSVal.str "private"))) res0 next0
        { req := reqNoId, calls := [] } =
      { state :=
          { req := { reqNoId with erm := { reqNoId.erm with statusCode := some 400 } },
            calls := [Call.onError errOther
              { reqNoId with erm := { reqNoId.erm with statusCode := some 400 } }
              res0 next0] },
        thrown := none } :=
  (access_async_error (optsAccess (accessYields (some errOther) (JSVal.str "private")))
    res0 next0 { req := reqNoId, calls := [] }
    (accessYields (some errOther) (JSVal.str "private")) errOther (JSVal.str "private")
    rfl (by decide) rfl).1

/-- C10: when no access function is configured, the access resolution of
the resource resolves the request to `'public'`: `req.access` becomes
`'public'`, the single call `next()` is appended to the log, `onError` is
not invoked, nothing is thrown and the rest of the request is as before.
With an access function configured the resolution is the access
middleware. -/
theorem resolveAccess_default_public (options : Options) (res : Res) (next : Next)
    (s : State) (hfn : options.access = none) :
    resolveAccess options res next s =
      { state := { req := { s.req with access := JSVal.str "public" },
                   calls := s.calls ++ [Call.next next []] },
        thrown := none } ∧
    (resolveAccess options res next s).state.req.access = JSVal.str "public" ∧
    (resolveAccess options res next s).state.calls.filter Call.isNext =
      s.calls.filter Call.isNext ++ [Call.next next []] ∧
    (resolveAccess options res next s).state.calls.filter Call.isOnError =
      s.calls.filter Call.isOnError ∧
    (∀ (fn : AccessFn) (o : Options), o.access = some fn →
      resolveAccess o res next s = access o res next s) := by
  have hidx : ¬ indexOf [JSVal.str "public", JSVal.str "private", JSVal.str "protected"]
      (JSVal.str "public") < 0 := by decide
  have hrun : resolveAccess options res next s =
      { state := { req := { s.req with access := JSVal.str "public" },
                   calls := s.calls ++ [Call.next next []] },
        thrown := none } := by
    simp only [resolveAccess, hfn, handler, hidx, if_false]
  rw [hrun]
  refine ⟨rfl, rfl, ?_, ?_, ?_⟩
  · simp [List.filter_append, Call.isNext]
  · simp [List.filter_append, Call.isOnError]
  · intro fn o ho
    simp only [resolveAccess, ho]

/-- Witness of C10: a resource registered without access function, on
`/Customer`. -/
theorem resolveAccess_default_public_witness :
    resolveAccess optsId res0 next0 { req := reqNoId, calls := [] } =
      { state := { req := { reqNoId with access := JSVal.str "public" },
                   calls := [Call.next next0 []] },
        thrown := none } :=
  (resolveAccess_default_public optsId res0 next0 { req := reqNoId, calls := [] } rfl).1

/-- C11: the middleware dispatches on the declared arity. A resolver of
arity at most 1 is called as `access(req)`, and what it returns is
validated; a resolver of arity 2 or more is called as
`access(req, handler)`, and what it calls back is validated. For every
value `v`, a resolver returning `v` and a resolver calling back
`(null, v)` give the same outcome: when `v` is one of the three levels,
`req.access` is `v` and `next()` is called once, and nothing is thrown;
for any other `v` the "Unsupported access" error is thrown, `next` is not
called and the request is as before. -/
theorem access_dispatch_sync_async (options : Options) (res : Res) (next : Next)
    (s : State) (fnS fnA : AccessFn) (v : JSVal) (hS : fnS.length ≤ 1)
    (hSv : fnS.apply1 s.req = v) (hA : fnA.length ≥ 2)
    (hAv : fnA.apply2 s.req = some (none, v)) :
    access { options with access := some fnS } res next s =
      access { options with access := some fnA } res next s ∧
    ((v = JSVal.str "public" ∨ v = JSVal.str "protected" ∨ v = JSVal.str "private") →
      access { options with access := some fnS } res next s =
        { state := { req := { s.req with access := v },
                     calls := s.calls ++ [Call.next next []] },
          thrown := none } ∧
      access { options with access := some fnA } res next s =
        { state := { req := { s.req with access := v },
                     calls := s.calls ++ [Call.next next []] },
          thrown := none }) ∧
    (v ≠ JSVal.str "public" → v ≠ JSVal.str "protected" → v ≠ JSVal.str "private" →
      access { options with access := some fnS } res next s =
        { state := s,
          thrown := some (Thrown.error
            "Unsupported access, must be \"private\", \"protected\" or \"public\"") } ∧
      access { options with access := some fnA } res next s =
        { state := s,
          thrown := some (Thrown.error
            "Unsupported access, must be \"private\", \"protected\" or \"public\"") }) := by
  have hnot : ¬ fnS.length > 1 := by omega
  have hgt : fnA.length > 1 := by omega
  have hlevel : (v = JSVal.str "public" ∨ v = JSVal.str "protected" ∨
      v = JSVal.str "private") →
      ¬ indexOf [JSVal.str "public", JSVal.str "private", JSVal.str "protected"] v < 0 := by
    intro h
    rcases h with h | h | h <;> rw [h] <;> decide
  have hsync : ∀ out : Outcome,
      (if indexOf [JSVal.str "public", JSVal.str "private", JSVal.str "protected"] v < 0 then
        ({ state := s, thrown := some (Thrown.error unsupportedAccess) } : Outcome)
      else
        { state := { req := { s.req with access := v },
                     calls := s.calls ++ [Call.next next []] },
          thrown := none }) = out →
      access { options with access := some fnS } res next s = out ∧
      access { options with access := some fnA } res next s = out := by
    intro out hout
    constructor
    · simp only [access, hnot, if_false, handler, hSv]
      exact hout
    · simp only [access, hgt, if_true, hAv, handler]
      exact hout
  refine ⟨?_, ?_, ?_⟩
  · have h := hsync _ rfl
    rw [h.1, h.2]
  · intro h
    exact hsync _ (by rw [if_neg (hlevel h)])
  · intro h1 h2 h3
    exact hsync _ (by rw [if_pos (indexOf_other_neg v h1 h2 h3)]; rfl)

/-- Witness of C11: `() => 'foo'` and `(req, cb) => cb(null, 'foo')` both
end in the "Unsupported access" error, and `() => 'private'` and
`(req, cb) => cb(null, 'private')` both set `req.access`. -/
theorem access_dispatch_sync_async_witness :
    access { optsId with access := some (accessReturns (JSVal.str "foo")) } res0 next0
        { req := reqNoId, calls := [] } =
      access { optsId with access := some (accessYields none (JSVal.str "foo")) } res0 next0
        { req := reqNoId, calls := [] } ∧
    access { optsId with access := some (accessYields none (JSVal.str "private")) } res0 next0
        { req := reqNoId, calls := [] } =
      { state := { req := { reqNoId with access := JSVal.str "private" },
                   calls := [Call.next next0 []] },
        thrown := none } :=
  ⟨(access_dispatch_sync_async optsId res0 next0 { req := reqNoId, calls := [] }
      (accessReturns (JSVal.str "foo")) (accessYields none (JSVal.str "foo"))
      (JSVal.str "foo") (by decide) rfl (by decide) rfl).1,
    ((access_dispatch_sync_async optsId res0 next0 { req := reqNoId, calls := [] }
      (accessReturns (JSVal.str "private")) (accessYields none (JSVal.str "private"))
      (JSVal.str "private") (by decide) rfl (by decide) rfl).2.1
      (Or.inr (Or.inr rfl))).2⟩

/-! ## filterAndFindById -/

/-- C12: on a request with a path id, when the context filter hands over a
filtered context and the lookup on it resolves with no document (a falsy
value such as `null`), the middleware logs the context filter call, the
query and then exactly one `onError` call with the error
`new Error('Not Found')`; the status is 404, `next` is not called and
`req.erm.document` keeps the value it had. -/
theorem filterAndFindById_not_found (model : Model) (options : Options)
    (store : Query → Lookup) (res : Res) (next : Next) (s : State) (fc : Model)
    (doc : JSVal) (hid : truthyStr s.req.params.id = true)
    (hctx : options.contextFilter (contextModel model s.req) s.req = some fc)
    (hlook : store (findByIdQuery options fc s.req) = Lookup.resolved doc)
    (hdoc : truthyVal doc = false) :
    filterAndFindById model options store res next s =
      { req := { s.req with erm := { s.req.erm with statusCode := some 404 } },
        calls := s.calls ++
          [Call.contextFilter (contextModel model s.req) s.req,
           Call.exec (findByIdQuery options fc s.req),
           Call.onError notFoundError
             { s.req with erm := { s.req.erm with statusCode := some 404 } } res next] } ∧
    notFoundError.message = some "Not Found" ∧
    (filterAndFindById model options store res next s).req.erm.statusCode = some 404 ∧
    (filterAndFindById model options store res next s).req.erm.document =
      s.req.erm.document ∧
    ((filterAndFindById model options store res next s).calls.filter Call.isOnError).length =
      (s.calls.filter Call.isOnError).length + 1 ∧
    (filterAndFindById model options store res next s).calls.filter Call.isNext =
      s.calls.filter Call.isNext := by
  have hrun : filterAndFindById model options store res next s =
      { req := { s.req with erm := { s.req.erm with statusCode := some 404 } },
        calls := s.calls ++
          [Call.contextFilter (contextModel model s.req) s.req,
           Call.exec (findByIdQuery options fc s.req),
           Call.onError notFoundError
             { s.req with erm := { s.req.erm with statusCode := some 404 } } res next] } := by
    simp [filterAndFindById, hid, hctx, hlook, hdoc, errorHandler, isNotFoundClass,
      notFoundError]
  rw [hrun]
  refine ⟨rfl, rfl, rfl, rfl, ?_, ?_⟩
  · simp [List.filter_append, Call.isOnError]
  · simp [List.filter_append, Call.isNext]

/-- Witness of C12: `/Customer/42` on a store that resolves with `null`. -/
theorem filterAndFindById_not_found_witness :
    (filterAndFindById customerModel optsId (storeResolves JSVal.null) res0 next0
      { req := reqWithId, calls := [] }).req.erm.statusCode = some 404 :=
  (filterAndFindById_not_found customerModel optsId (storeResolves JSVal.null) res0 next0
    { req := reqWithId, calls := [] } customerModel JSVal.null (by decide) rfl rfl
    (by decide)).2.2.1

/-- C13: on a request with a path id, when the lookup resolves with a
document `d`, the middleware stores `d` in `req.erm.document` and calls
`next()` once with no argument; `onError` is not invoked and the status,
like every other field of the request, is left as it was. -/
theorem filterAndFindById_found (model : Model) (options : Options)
    (store : Query → Lookup) (res : Res) (next : Next) (s : State) (fc : Model)
    (d : JSVal) (hid : truthyStr s.req.params.id = true)
    (hctx : options.contextFilter (contextModel model s.req) s.req = some fc)
    (hlook : store (findByIdQuery options fc s.req) = Lookup.resolved d)
    (hdoc : truthyVal d = true) :
    filterAndFindById model options store res next s =
      { req := { s.req with erm := { s.req.erm with document := d } },
        calls := s.calls ++
          [Call.contextFilter (contextModel model s.req) s.req,
           Call.exec (findByIdQuery options fc s.req),
           Call.next next []] } ∧
    (filterAndFindById model options store res next s).req.erm.statusCode =
      s.req.erm.statusCode ∧
    (filterAndFindById model options store res next s).calls.filter Call.isOnError =
      s.calls.filter Call.isOnError ∧
    (filterAndFindById model options store res next s).calls.filter Call.isNext =
      s.calls.filter Call.isNext ++ [Call.next next []] := by
  have hrun : filterAndFindById model options store res next s =
      { req := { s.req with erm := { s.req.erm with document := d } },
        calls := s.calls ++
          [Call.contextFilter (contextModel model s.req) s.req,
           Call.exec (findByIdQuery options fc s.req),
           Call.next next []] } := by
    simp [filterAndFindById, hid, hctx, hlook, hdoc]
  rw [hrun]
  refine ⟨rfl, rfl, ?_, ?_⟩
  · simp [List.filter_append, Call.isOnError]
  · simp [List.filter_append, Call.isNext]

/-- Witness of C13: `/Customer/42` on a store that resolves with a document,
after an earlier stage set the status 200. -/
theorem filterAndFindById_found_witness :
    filterAndFindById customerModel optsId (storeResolves (JSVal.obj 7)) res0 next0
        { req := reqWithStatus 200, calls := [] } =
      { req := { reqWithStatus 200 with
                 erm := { (reqWithStatus 200).erm with document := JSVal.obj 7 } },
        calls :=
          [Call.contextFilter customerModel (reqWithStatus 200),
           Call.exec (findByIdQuery optsId customerModel (reqWithStatus 200)),
           Call.next next0 []] } :=
  (filterAndFindById_found customerModel optsId (storeResolves (JSVal.obj 7)) res0 next0
    { req := reqWithStatus 200, calls := [] } customerModel (JSVal.obj 7) (by decide) rfl rfl
    (by decide)).1

/-- C14: on a request without a path id (absent or empty), the middleware
appends the single call `next()` to the log and does nothing else: the
request is unchanged, and neither the context filter, nor the store, nor
`onError` is invoked. -/
theorem filterAndFindById_no_id (model : Model) (options : Options)
    (store : Query → Lookup) (res : Res) (next : Next) (s : State)
    (hid : truthyStr s.req.params.id = false) :
    filterAndFindById model options store res next s =
      { req := s.req, calls := s.calls ++ [Call.next next []] } := by
  simp [filterAndFindById, hid]

/-- Witness of C14: `/Customer`, and a request whose id is the empty string. -/
theorem filterAndFindById_no_id_witness :
    filterAndFindById customerModel optsId (storeResolves (JSVal.obj 7)) res0 next0
        { req := reqNoId, calls := [] } =
      { req := reqNoId, calls := [Call.next next0 []] } ∧
    filterAndFindById customerModel optsId (storeResolves (JSVal.obj 7)) res0 next0
        { req := { reqNoId with params := { id := some "" } }, calls := [] } =
      { req := { reqNoId with params := { id := some "" } },
        calls := [Call.next next0 []] } :=
  ⟨filterAndFindById_no_id customerModel optsId (storeResolves (JSVal.obj 7)) res0 next0
      { req := reqNoId, calls := [] } (by decide),
    filterAndFindById_no_id customerModel optsId (storeResolves (JSVal.obj 7)) res0 next0
      { req := { reqNoId with params := { id := some "" } }, calls := [] } (by decide)⟩

/-- C15, as stated, fails: on `/Customer/42` with no earlier status, a store
that rejects with an error whose message is "Not Found", which is not a
`CastError` on the identifier, ends with the status 404 and not with the
default 400. -/
theorem filterAndFindById_rejected_counterexample :
    ¬ (errNotFound.name = some "CastError" ∧ errNotFound.path = optsId.idProperty) ∧
    keepOr400 reqWithId.erm.statusCode = 400 ∧
    (filterAndFindById customerModel optsId (storeRejects errNotFound) res0 next0
      { req := reqWithId, calls := [] }).req.erm.statusCode = some 404 := by
  decide

/-- C15, amended: on a request with a path id, when the lookup rejects with
an error `e`, the middleware logs the context filter call, the query and
then exactly one `onError` call with that same `e`; `next` is not called,
`req.erm.document` keeps its value, and the status is 404 when `e` is a
`CastError` on the identifier field or has the message "Not Found", and
the 400-class default (the earlier status when at least 400, else 400)
otherwise. -/
theorem filterAndFindById_rejected (model : Model) (options : Options)
    (store : Query → Lookup) (res : Res) (next : Next) (s : State) (fc : Model)
    (e : Err) (hid : truthyStr s.req.params.id = true)
    (hctx : options.contextFilter (contextModel model s.req) s.req = some fc)
    (hlook : store (findByIdQuery options fc s.req) = Lookup.rejected e) :
    (filterAndFindById model options store res next s).calls =
      s.calls ++
        [Call.contextFilter (contextModel model s.req) s.req,
         Call.exec (findByIdQuery options fc s.req),
         Call.onError e (filterAndFindById model options store res next s).req res next] ∧
    (filterAndFindById model options store res next s).req =
      { s.req with erm := { s.req.erm with
          statusCode := (filterAndFindById model options store res next s).req.erm.statusCode } } ∧
    (((e.name = some "CastError" ∧ e.path = options.idProperty) ∨
        e.message = some "Not Found") →
      (filterAndFindById model options store res next s).req.erm.statusCode = some 404) ∧
    (¬ (e.name = some "CastError" ∧ e.path = options.idProperty) →
      e.message ≠ some "Not Found" →
      (filterAndFindById model options store res next s).req.erm.statusCode =
        some (keepOr400 s.req.erm.statusCode)) ∧
    (filterAndFindById model options store res next s).calls.filter Call.isNext =
      s.calls.filter Call.isNext := by
  have hrun : filterAndFindById model options store res next s =
      errorHandler options res next e
        { req := s.req,
          calls := s.calls ++
            [Call.contextFilter (contextModel model s.req) s.req,
             Call.exec (findByIdQuery options fc s.req)] } := by
    simp [filterAndFindById, hid, hctx, hlook]
  rw [hrun]
  refine ⟨?_, rfl, ?_, ?_, ?_⟩
  · simp [errorHandler]
  · intro h
    rcases h with ⟨hname, hpath⟩ | hmsg
    · simp [errorHandler, isNotFoundClass, hid, hname, hpath]
    · simp [errorHandler, isNotFoundClass, STATUS_CODES, hmsg]
  · intro hcast hmsg
    have hcls : isNotFoundClass options s.req e = false := by
      simp only [isNotFoundClass, STATUS_CODES, Bool.or_eq_false_iff, decide_eq_false_iff_not]
      refine ⟨hmsg, ?_⟩
      by_contra h
      simp only [Bool.not_eq_false, Bool.and_eq_true, decide_eq_true_eq] at h
      exact hcast ⟨h.2, h.1.2⟩
    simp [errorHandler, hcls]
  · simp [errorHandler, List.filter_append, Call.isNext]

/-- Witness of C15, amended: on `/Customer/42` a rejected cast of the id
gives 404, a rejected cast of `age` gives 400. -/
theorem filterAndFindById_rejected_witness :
    (filterAndFindById customerModel optsId (storeRejects (errCast "_id")) res0 next0
      { req := reqWithId, calls := [] }).req.erm.statusCode = some 404 ∧
    (filterAndFindById customerModel optsId (storeRejects (errCast "age")) res0 next0
      { req := reqWithId, calls := [] }).req.erm.statusCode = some 400 :=
  ⟨(filterAndFindById_rejected customerModel optsId (storeRejects (errCast "_id")) res0 next0
      { req := reqWithId, calls := [] } customerModel (errCast "_id") (by decide) rfl
      rfl).2.2.1 (Or.inl ⟨rfl, rfl⟩),
    (filterAndFindById_rejected customerModel optsId (storeRejects (errCast "age")) res0 next0
      { req := reqWithId, calls := [] } customerModel (errCast "age") (by decide) rfl
      rfl).2.2.2.1 (by decide) (by decide)⟩

/-! ## outputFn -/

/-- C16: in express mode with a result present (truthy, such as an object)
the function calls `res.status(statusCode)` and then `json(result)`, once
each and nothing else; in express mode with no result it calls only
`sendStatus(statusCode)`; in restify mode it calls only
`send(statusCode, result)`, an absent result being passed as `undefined`.
The request is not changed. -/
theorem outputFn_by_mode (res : Res) (s : State) :
    (truthyVal s.req.erm.result = true →
      outputFn true res s =
        { req := s.req,
          calls := s.calls ++
            [Call.status res s.req.erm.statusCode, Call.json res s.req.erm.result] }) ∧
    (s.req.erm.result = JSVal.undefined →
      outputFn true res s =
        { req := s.req, calls := s.calls ++ [Call.sendStatus res s.req.erm.statusCode] }) ∧
    outputFn false res s =
      { req := s.req,
        calls := s.calls ++ [Call.send res s.req.erm.statusCode s.req.erm.result] } ∧
    (s.req.erm.result = JSVal.undefined →
      outputFn false res s =
        { req := s.req,
          calls := s.calls ++ [Call.send res s.req.erm.statusCode JSVal.undefined] }) := by
  refine ⟨?_, ?_, ?_, ?_⟩
  · intro h
    simp [outputFn, h]
  · intro h
    simp [outputFn, h, truthyVal]
  · simp [outputFn]
  · intro h
    simp [outputFn, h]

/-- Witness of C16: the inputs of the unit tests, a result object with the
status 201 and an absent result with the status 200. -/
theorem outputFn_by_mode_witness :
    outputFn true res0 { req := reqOutput 201 (JSVal.obj 1), calls := [] } =
      { req := reqOutput 201 (JSVal.obj 1),
        calls := [Call.status res0 (some 201), Call.json res0 (JSVal.obj 1)] } ∧
    outputFn true res0 { req := reqOutput 200 JSVal.undefined, calls := [] } =
      { req := reqOutput 200 JSVal.undefined, calls := [Call.sendStatus res0 (some 200)] } ∧
    outputFn false res0 { req := reqOutput 200 JSVal.undefined, calls := [] } =
      { req := reqOutput 200 JSVal.undefined,
        calls := [Call.send res0 (some 200) JSVal.undefined] } :=
  ⟨(outputFn_by_mode res0 { req := reqOutput 201 (JSVal.obj 1), calls := [] }).1 rfl,
    (outputFn_by_mode res0 { req := reqOutput 200 JSVal.undefined, calls := [] }).2.1 rfl,
    (outputFn_by_mode res0 { req := reqOutput 200 JSVal.undefined, calls := [] }).2.2.2 rfl⟩

/-! ## getExcluded -/

/-- C17: for keys supplied as `filteredKeys`, `getExcluded` gives the private
paths followed by the protected paths at the public level, the private
paths alone at the protected level and the empty list at the private level;
missing `filteredKeys`, or keys without entries, give the empty list at
every level; and keys found as `excludedMap[modelName]` give what the same
keys give when supplied as `filteredKeys`. -/
theorem getExcluded_by_level (privatePaths protectedPaths : List String) :
    getExcluded { access := AccessLevel.publicLevel,
                  filteredKeys := some { privatePaths := some privatePaths,
                                         protectedPaths := some protectedPaths },
                  modelName := none, excludedMap := none } =
      privatePaths ++ protectedPaths ∧
    getExcluded { access := AccessLevel.protectedLevel,
                  filteredKeys := some { privatePaths := some privatePaths,
                                         protectedPaths := some protectedPaths },
                  modelName := none, excludedMap := none } = privatePaths ∧
    getExcluded { access := AccessLevel.privateLevel,
                  filteredKeys := some { privatePaths := some privatePaths,
                                         protectedPaths := some protectedPaths },
                  modelName := none, excludedMap := none } = [] ∧
    (∀ level : AccessLevel,
      getExcluded { access := level, filteredKeys := none,
                    modelName := none, excludedMap := none } = [] ∧
      getExcluded { access := level,
                    filteredKeys := some { privatePaths := none, protectedPaths := none },
                    modelName := none, excludedMap := none } = [] ∧
      getExcluded { access := level,
                    filteredKeys := some { privatePaths := some [], protectedPaths := some [] },
                    modelName := none, excludedMap := none } = []) ∧
    (∀ (level : AccessLevel) (excludedMap : List (String × FilteredKeys))
        (modelName : String) (keys : FilteredKeys),
      excludedMap.lookup modelName = some keys →
      getExcluded { access := level, filteredKeys := none,
                    modelName := some modelName, excludedMap := some excludedMap } =
        getExcluded { access := level, filteredKeys := some keys,
                      modelName := none, excludedMap := none }) := by
  refine ⟨rfl, rfl, rfl, ?_, ?_⟩
  · intro level
    cases level <;> exact ⟨rfl, rfl, rfl⟩
  · intro level excludedMap modelName keys hlookup
    simp only [getExcluded, ExcludedContext.keys, hlookup]

/-- Witness of C17: the unit tests with `private: ['foo']` and
`protected: ['bar']`, supplied directly and through `excludedMap.FooModel`. -/
theorem getExcluded_by_level_witness :
    getExcluded { access := AccessLevel.publicLevel, filteredKeys := some keysFooBar,
                  modelName := none, excludedMap := none } = ["foo", "bar"] ∧
    getExcluded { access := AccessLevel.protectedLevel, filteredKeys := none,
                  modelName := some "FooModel",
                  excludedMap := some [("FooModel", keysFooBar)] } = ["foo"] :=
  ⟨(getExcluded_by_level ["foo"] ["bar"]).1,
    ((getExcluded_by_level ["foo"] ["bar"]).2.2.2.2 AccessLevel.protectedLevel
      [("FooModel", keysFooBar)] "FooModel" keysFooBar (by decide)).trans
      (getExcluded_by_level ["foo"] ["bar"]).2.1⟩

/-! ## filterItem: removal of one path -/

/-- Removing a path leaves no value where there was none. -/
theorem afterRemove_nil (q : List String) (k : String) (ks : List String) :
    afterRemove q k ks [] = [] := by
  unfold afterRemove
  cases relate q k ks <;> simp

/-- The effect of a removal on values is taken value by value. -/
theorem afterRemove_append (q : List String) (k : String) (ks : List String)
    (xs ys : List Doc) :
    afterRemove q k ks (xs ++ ys) = afterRemove q k ks xs ++ afterRemove q k ks ys := by
  unfold afterRemove
  cases relate q k ks <;> simp

mutual
/-- The values at `q` after the removal of `k.ks`, for a document. -/
theorem valuesDoc_removeDoc (q : List String) (k : String) (ks : List String) :
    ∀ d : Doc, valuesDoc q (removeDoc k ks d) = afterRemove q k ks (valuesDoc q d)
  | Doc.undefined => by
    cases q with
    | nil => simp [removeDoc, valuesDoc, afterRemove, relate]
    | cons a q => simp [removeDoc, valuesDoc, afterRemove_nil]
  | Doc.null => by
    cases q with
    | nil => simp [removeDoc, valuesDoc, afterRemove, relate]
    | cons a q => simp [removeDoc, valuesDoc, afterRemove_nil]
  | Doc.bool _ => by
    cases q with
    | nil => simp [removeDoc, valuesDoc, afterRemove, relate]
    | cons a q => simp [removeDoc, valuesDoc, afterRemove_nil]
  | Doc.num _ => by
    cases q with
    | nil => simp [removeDoc, valuesDoc, afterRemove, relate]
    | cons a q => simp [removeDoc, valuesDoc, afterRemove_nil]
  | Doc.str _ => by
    cases q with
    | nil => simp [removeDoc, valuesDoc, afterRemove, relate]
    | cons a q => simp [removeDoc, valuesDoc, afterRemove_nil]
  | Doc.arr items => by
    cases q with
    | nil => simp [removeDoc, valuesDoc, afterRemove, relate]
    | cons a q =>
      simp only [removeDoc, valuesDoc]
      exact valuesItems_removeItems a q k ks items
  | Doc.obj fields => by
    cases q with
    | nil => simp [removeDoc, valuesDoc, afterRemove, relate]
    | cons a q =>
      simp only [removeDoc, valuesDoc]
      exact valuesFields_removeFields a q k ks fields
/-- The values at `a.q` after the removal of `k.ks`, for array elements. -/
theorem valuesItems_removeItems (a : String) (q : List String) (k : String)
    (ks : List String) :
    ∀ items : Items, valuesItems a q (removeItems k ks items) =
      afterRemove (a :: q) k ks (valuesItems a q items)
  | Items.nil => by simp [removeItems, valuesItems, afterRemove_nil]
  | Items.cons d rest => by
    simp only [removeItems, valuesItems, afterRemove_append]
    rw [valuesDoc_removeDoc (a :: q) k ks d, valuesItems_removeItems a q k ks rest]
/-- The values at `a.q` after the removal of `k.ks`, for object fields. -/
theorem valuesFields_removeFields (a : String) (q : List String) (k : String)
    (ks : List String) :
    ∀ fields : Fields, valuesFields a q (removeFields k ks fields) =
      afterRemove (a :: q) k ks (valuesFields a q fields)
  | Fields.nil => by simp [removeFields, valuesFields, afterRemove_nil]
  | Fields.cons key v rest => by
    have ih := valuesFields_removeFields a q k ks rest
    simp only [removeFields, valuesFields, afterRemove_append]
    by_cases hk : key = k
    · subst hk
      cases ks with
      | nil =>
        simp only [if_true]
        rw [ih]
        by_cases ha : key = a
        · subst ha
          simp [afterRemove, relate]
        · have ha2 : ¬ a = key := fun h => ha h.symm
          simp [afterRemove, relate, ha, ha2]
      | cons k2 ks2 =>
        simp only [if_true, valuesFields]
        rw [ih]
        by_cases ha : key = a
        · subst ha
          simp only [if_true]
          rw [valuesDoc_removeDoc q k2 ks2 v]
          simp [afterRemove, relate]
        · have ha2 : ¬ a = key := fun h => ha h.symm
          simp [afterRemove, relate, ha, ha2]
    · simp only [hk, if_false, valuesFields]
      rw [ih]
      by_cases ha : key = a
      · subst ha
        have hk2 : ¬ key = k := hk
        simp [afterRemove, relate, hk2]
      · simp [ha, afterRemove_nil]
end

/-- The relation is `covered` exactly when the removed path is a prefix of `q`. -/
theorem relate_covered_iff (q : List String) :
    ∀ (k : String) (ks : List String), relate q k ks = PathRel.covered ↔ (k :: ks) <+: q := by
  induction q with
  | nil => intro k ks; simp [relate]
  | cons a q ih =>
    intro k ks
    by_cases ha : a = k
    · subst ha
      cases ks with
      | nil => simp [relate, List.cons_prefix_cons]
      | cons k2 ks2 =>
        simp only [relate, if_true, List.cons_prefix_cons, true_and]
        exact ih k2 ks2
    · have ha2 : ¬ k = a := fun h => ha h.symm
      simp [relate, ha, ha2, List.cons_prefix_cons]

/-- Paths of which neither is a prefix of the other are `apart`. -/
theorem relate_apart_of (q : List String) :
    ∀ (k : String) (ks : List String), ¬ (k :: ks) <+: q → ¬ q <+: (k :: ks) →
      relate q k ks = PathRel.apart := by
  induction q with
  | nil => intro k ks _ h2; exact absurd List.nil_prefix h2
  | cons a q ih =>
    intro k ks h1 h2
    by_cases ha : a = k
    · subst ha
      cases ks with
      | nil => exact absurd (by simp [List.cons_prefix_cons]) h1
      | cons k2 ks2 =>
        simp only [relate, if_true]
        apply ih k2 ks2
        · intro h; exact h1 (by simpa [List.cons_prefix_cons] using h)
        · intro h; exact h2 (by simpa [List.cons_prefix_cons] using h)
    · simp [relate, ha]

/-- The relation is `above` exactly when `q` followed by the remainder is the
removed path. -/
theorem relate_above_iff (q : List String) :
    ∀ (k : String) (ks : List String) (j : String) (js : List String),
      relate q k ks = PathRel.above j js ↔ k :: ks = q ++ j :: js := by
  induction q with
  | nil => intro k ks j js; simp [relate]
  | cons a q ih =>
    intro k ks j js
    by_cases ha : a = k
    · subst ha
      cases ks with
      | nil => simp [relate]
      | cons k2 ks2 =>
        simp only [relate, if_true, List.cons_append, List.cons.injEq, true_and]
        exact ih k2 ks2 j js
    · have ha2 : ¬ k = a := fun h => ha h.symm
      simp [relate, ha, ha2]

mutual
/-- Two removals commute, for a document. -/
theorem removeDoc_comm (k : String) (ks : List String) (j : String) (js : List String) :
    ∀ d : Doc, removeDoc k ks (removeDoc j js d) = removeDoc j js (removeDoc k ks d)
  | Doc.undefined => by simp [removeDoc]
  | Doc.null => by simp [removeDoc]
  | Doc.bool _ => by simp [removeDoc]
  | Doc.num _ => by simp [removeDoc]
  | Doc.str _ => by simp [removeDoc]
  | Doc.arr items => by simp only [removeDoc]; rw [removeItems_comm k ks j js items]
  | Doc.obj fields => by simp only [removeDoc]; rw [removeFields_comm k ks j js fields]
/-- Two removals commute, for array elements. -/
theorem removeItems_comm (k : String) (ks : List String) (j : String) (js : List String) :
    ∀ items : Items,
      removeItems k ks (removeItems j js items) = removeItems j js (removeItems k ks items)
  | Items.nil => by simp [removeItems]
  | Items.cons d rest => by
    simp only [removeItems]
    rw [removeDoc_comm k ks j js d, removeItems_comm k ks j js rest]
/-- Two removals commute, for object fields. -/
theorem removeFields_comm (k : String) (ks : List String) (j : String) (js : List String) :
    ∀ fields : Fields,
      removeFields k ks (removeFields j js fields) =
        removeFields j js (removeFields k ks fields)
  | Fields.nil => by simp [removeFields]
  | Fields.cons key v rest => by
    have ih := removeFields_comm k ks j js rest
    by_cases hk : key = k <;> by_cases hj : key = j
    · subst hk
      subst hj
      cases ks with
      | nil =>
        cases js with
        | nil => simp [removeFields, ih]
        | cons j2 js2 => simp [removeFields, ih]
      | cons k2 ks2 =>
        cases js with
        | nil => simp [removeFields, ih]
        | cons j2 js2 =>
          simp only [removeFields, if_true]
          rw [ih, removeDoc_comm k2 ks2 j2 js2 v]
    · subst hk
      cases ks with
      | nil => simp [removeFields, hj, ih]
      | cons k2 ks2 => simp [removeFields, hj, ih]
    · subst hj
      cases js with
      | nil => simp [removeFields, hk, ih]
      | cons j2 js2 => simp [removeFields, hk, ih]
    · simp [removeFields, hk, hj, ih]
end

mutual
/-- Removing the same path twice is removing it once, for a document. -/
theorem removeDoc_idem (k : String) (ks : List String) :
    ∀ d : Doc, removeDoc k ks (removeDoc k ks d) = removeDoc k ks d
  | Doc.undefined => by simp [removeDoc]
  | Doc.null => by simp [removeDoc]
  | Doc.bool _ => by simp [removeDoc]
  | Doc.num _ => by simp [removeDoc]
  | Doc.str _ => by simp [removeDoc]
  | Doc.arr items => by simp only [removeDoc]; rw [removeItems_idem k ks items]
  | Doc.obj fields => by simp only [removeDoc]; rw [removeFields_idem k ks fields]
/-- Removing the same path twice is removing it once, for array elements. -/
theorem removeItems_idem (k : String) (ks : List String) :
    ∀ items : Items, removeItems k ks (removeItems k ks items) = removeItems k ks items
  | Items.nil => by simp [removeItems]
  | Items.cons d rest => by
    simp only [removeItems]
    rw [removeDoc_idem k ks d, removeItems_idem k ks rest]
/-- Removing the same path twice is removing it once, for object fields. -/
theorem removeFields_idem (k : String) (ks : List String) :
    ∀ fields : Fields, removeFields k ks (removeFields k ks fields) = removeFields k ks fields
  | Fields.nil => by simp [removeFields]
  | Fields.cons key v rest => by
    have ih := removeFields_idem k ks rest
    by_cases hk : key = k
    · subst hk
      cases ks with
      | nil => simp [removeFields, ih]
      | cons k2 ks2 =>
        simp only [removeFields, if_true]
        rw [ih, removeDoc_idem k2 ks2 v]
    · simp [removeFields, hk, ih]
end

mutual
/-- Removing a path that has no value changes nothing, for a document. -/
theorem removeDoc_of_values_nil (k : String) (ks : List String) :
    ∀ d : Doc, valuesDoc (k :: ks) d = [] → removeDoc k ks d = d
  | Doc.undefined => by simp [removeDoc]
  | Doc.null => by simp [removeDoc]
  | Doc.bool _ => by simp [removeDoc]
  | Doc.num _ => by simp [removeDoc]
  | Doc.str _ => by simp [removeDoc]
  | Doc.arr items => by
    intro h
    simp only [valuesDoc] at h
    simp only [removeDoc]
    rw [removeItems_of_values_nil k ks items h]
  | Doc.obj fields => by
    intro h
    simp only [valuesDoc] at h
    simp only [removeDoc]
    rw [removeFields_of_values_nil k ks fields h]
/-- Removing a path that has no value changes nothing, for array elements. -/
theorem removeItems_of_values_nil (k : String) (ks : List String) :
    ∀ items : Items, valuesItems k ks items = [] → removeItems k ks items = items
  | Items.nil => by simp [removeItems]
  | Items.cons d rest => by
    intro h
    simp only [valuesItems, List.append_eq_nil] at h
    simp only [removeItems]
    rw [removeDoc_of_values_nil k ks d h.1, removeItems_of_values_nil k ks rest h.2]
/-- Removing a path that has no value changes nothing, for object fields. -/
theorem removeFields_of_values_nil (k : String) (ks : List String) :
    ∀ fields : Fields, valuesFields k ks fields = [] → removeFields k ks fields = fields
  | Fields.nil => by simp [removeFields]
  | Fields.cons key v rest => by
    intro h
    simp only [valuesFields, List.append_eq_nil] at h
    have ih := removeFields_of_values_nil k ks rest h.2
    by_cases hk : key = k
    · subst hk
      cases ks with
      | nil => simp [valuesDoc] at h
      | cons k2 ks2 =>
        have hv : valuesDoc (k2 :: ks2) v = [] := by simpa using h.1
        simp only [removeFields, if_true]
        rw [ih, removeDoc_of_values_nil k2 ks2 v hv]
    · simp [removeFields, hk, ih]
end

mutual
/-- A path without value has no value below it, for a document. -/
theorem valuesDoc_append_nil (r : List String) :
    ∀ (q : List String) (d : Doc), valuesDoc q d = [] → valuesDoc (q ++ r) d = []
  | [], d => by simp [valuesDoc]
  | _ :: _, Doc.undefined => by simp [valuesDoc]
  | _ :: _, Doc.null => by simp [valuesDoc]
  | _ :: _, Doc.bool _ => by simp [valuesDoc]
  | _ :: _, Doc.num _ => by simp [valuesDoc]
  | _ :: _, Doc.str _ => by simp [valuesDoc]
  | a :: q, Doc.arr items => by
    intro h
    simp only [valuesDoc] at h
    simp only [List.cons_append, valuesDoc]
    exact valuesItems_append_nil r a q items h
  | a :: q, Doc.obj fields => by
    intro h
    simp only [valuesDoc] at h
    simp only [List.cons_append, valuesDoc]
    exact valuesFields_append_nil r a q fields h
/-- A path without value has no value below it, for array elements. -/
theorem valuesItems_append_nil (r : List String) (a : String) (q : List String) :
    ∀ items : Items, valuesItems a q items = [] → valuesItems a (q ++ r) items = []
  | Items.nil => by simp [valuesItems]
  | Items.cons d rest => by
    intro h
    simp only [valuesItems, List.append_eq_nil] at h
    simp only [valuesItems, List.append_eq_nil]
    exact ⟨valuesDoc_append_nil r (a :: q) d h.1, valuesItems_append_nil r a q rest h.2⟩
/-- A path without value has no value below it, for object fields. -/
theorem valuesFields_append_nil (r : List String) (a : String) (q : List String) :
    ∀ fields : Fields, valuesFields a q fields = [] → valuesFields a (q ++ r) fields = []
  | Fields.nil => by simp [valuesFields]
  | Fields.cons key v rest => by
    intro h
    simp only [valuesFields, List.append_eq_nil] at h
    simp only [valuesFields, List.append_eq_nil]
    refine ⟨?_, valuesFields_append_nil r a q rest h.2⟩
    by_cases hk : key = a
    · simp only [hk, if_true] at h ⊢
      exact valuesDoc_append_nil r q v h.1
    · simp [hk]
end

/-! ## filterItem: removal of several paths -/

/-- A dotted path always has at least one segment. -/
theorem splitDots_ne_nil (cs : List Char) : ∀ cur : List Char, splitDots cur cs ≠ [] := by
  induction cs with
  | nil => intro cur; simp [splitDots]
  | cons c cs ih =>
    intro cur
    by_cases hc : c = '.'
    · simp [splitDots, hc]
    · simp only [splitDots, hc, if_false]
      exact ih (c :: cur)

/-- The segments of a dotted path are never the empty list. -/
theorem segments_ne_nil (p : String) : segments p ≠ [] := by
  simp [segments, splitDots_ne_nil]

/-- The values at `q` after the removal of a path with at least one
segment. -/
theorem valuesDoc_removePath (q : List String) (k : String) (ks : List String) (d : Doc) :
    valuesDoc q (removePath (k :: ks) d) = afterRemove q k ks (valuesDoc q d) := by
  simp only [removePath]
  exact valuesDoc_removeDoc q k ks d

/-- A path without value stays without value when another path is removed. -/
theorem valuesDoc_removePath_nil (q path : List String) (d : Doc)
    (h : valuesDoc q d = []) : valuesDoc q (removePath path d) = [] := by
  cases path with
  | nil => simpa [removePath] using h
  | cons k ks => rw [valuesDoc_removePath, h, afterRemove_nil]

/-- A path without value stays without value when other paths are removed. -/
theorem valuesDoc_removePaths_nil (q : List String) (paths : List (List String)) :
    ∀ d : Doc, valuesDoc q d = [] → valuesDoc q (removePaths paths d) = [] := by
  induction paths with
  | nil => intro d h; simpa [removePaths] using h
  | cons path paths ih =>
    intro d h
    have hstep := ih (removePath path d) (valuesDoc_removePath_nil q path d h)
    simpa [removePaths] using hstep

/-- A removed path has no value left. -/
theorem valuesDoc_removePath_self (path : List String) (d : Doc) (hne : path ≠ []) :
    valuesDoc path (removePath path d) = [] := by
  cases path with
  | nil => exact absurd rfl hne
  | cons k ks =>
    rw [valuesDoc_removePath]
    have hrel : relate (k :: ks) k ks = PathRel.covered :=
      (relate_covered_iff (k :: ks) k ks).2 (List.prefix_refl _)
    simp [afterRemove, hrel]

/-- None of the removed paths has a value left. -/
theorem valuesDoc_removePaths_mem (paths : List (List String)) :
    ∀ d : Doc, (∀ path ∈ paths, path ≠ []) →
      ∀ path ∈ paths, valuesDoc path (removePaths paths d) = [] := by
  induction paths with
  | nil => intro d _ path hmem; simp at hmem
  | cons p paths ih =>
    intro d hne path hmem
    have hfold : removePaths (p :: paths) d = removePaths paths (removePath p d) := by
      simp [removePaths]
    rw [hfold]
    rcases List.mem_cons.1 hmem with hp | hp
    · subst hp
      exact valuesDoc_removePaths_nil path paths _
        (valuesDoc_removePath_self path d (hne path (List.mem_cons_self _ _)))
    · exact ih (removePath p d) (fun x hx => hne x (List.mem_cons_of_mem _ hx)) path hp

/-- The values at a path that is apart from every removed path are
unchanged. -/
theorem valuesDoc_removePaths_apart (q : List String) (paths : List (List String)) :
    ∀ d : Doc, (∀ path ∈ paths, ¬ path <+: q ∧ ¬ q <+: path) →
      valuesDoc q (removePaths paths d) = valuesDoc q d := by
  induction paths with
  | nil => intro d _; simp [removePaths]
  | cons p paths ih =>
    intro d h
    have hfold : removePaths (p :: paths) d = removePaths paths (removePath p d) := by
      simp [removePaths]
    rw [hfold, ih (removePath p d) (fun x hx => h x (List.mem_cons_of_mem _ hx))]
    have hp := h p (List.mem_cons_self _ _)
    cases p with
    | nil => simp [removePath]
    | cons k ks =>
      rw [valuesDoc_removePath]
      simp [afterRemove, relate_apart_of q k ks hp.1 hp.2]

/-- The values at a path that is not at or under a removed path are as many
as before. -/
theorem valuesDoc_removePaths_length (q : List String) (paths : List (List String)) :
    ∀ d : Doc, (∀ path ∈ paths, ¬ path <+: q) →
      (valuesDoc q (removePaths paths d)).length = (valuesDoc q d).length := by
  induction paths with
  | nil => intro d _; simp [removePaths]
  | cons p paths ih =>
    intro d h
    have hfold : removePaths (p :: paths) d = removePaths paths (removePath p d) := by
      simp [removePaths]
    rw [hfold, ih (removePath p d) (fun x hx => h x (List.mem_cons_of_mem _ hx))]
    have hp := h p (List.mem_cons_self _ _)
    cases p with
    | nil => simp [removePath]
    | cons k ks =>
      rw [valuesDoc_removePath]
      have hrel : relate q k ks ≠ PathRel.covered :=
        fun hcov => hp ((relate_covered_iff q k ks).1 hcov)
      unfold afterRemove
      cases hr : relate q k ks with
      | covered => exact absurd hr hrel
      | apart => simp
      | above j js => simp

/-- Two removals of a path commute. -/
theorem removePath_comm (p q : List String) (d : Doc) :
    removePath p (removePath q d) = removePath q (removePath p d) := by
  cases p with
  | nil => simp [removePath]
  | cons k ks =>
    cases q with
    | nil => simp [removePath]
    | cons j js =>
      simp only [removePath]
      exact removeDoc_comm k ks j js d

/-- Removing a path twice is removing it once. -/
theorem removePath_idem (p : List String) (d : Doc) :
    removePath p (removePath p d) = removePath p d := by
  cases p with
  | nil => simp [removePath]
  | cons k ks =>
    simp only [removePath]
    exact removeDoc_idem k ks d

/-- A removal can be moved across the removal of several paths. -/
theorem removePath_removePaths (p : List String) (paths : List (List String)) :
    ∀ d : Doc, removePath p (removePaths paths d) = removePaths paths (removePath p d) := by
  induction paths with
  | nil => intro d; simp [removePaths]
  | cons q paths ih =>
    intro d
    have h1 : removePaths (q :: paths) d = removePaths paths (removePath q d) := by
      simp [removePaths]
    have h2 : removePaths (q :: paths) (removePath p d) =
        removePaths paths (removePath q (removePath p d)) := by
      simp [removePaths]
    rw [h1, h2, ih (removePath q d), removePath_comm p q d]

/-- Removing several paths twice is removing them once. -/
theorem removePaths_idem (paths : List (List String)) :
    ∀ d : Doc, removePaths paths (removePaths paths d) = removePaths paths d := by
  induction paths with
  | nil => intro d; simp [removePaths]
  | cons p paths ih =>
    intro d
    have h1 : ∀ x : Doc, removePaths (p :: paths) x = removePaths paths (removePath p x) := by
      intro x
      simp [removePaths]
    rw [h1 d, h1 (removePaths paths (removePath p d)), removePath_removePaths p paths,
      removePath_idem, ih]

/-- Removing several paths, split at any point. -/
theorem removePaths_append (xs ys : List (List String)) (d : Doc) :
    removePaths (xs ++ ys) d = removePaths ys (removePaths xs d) := by
  simp [removePaths, List.foldl_append]

/-! ## filterItem: what is left above a removed path -/

/-- Deleting the field `j` shows in the outline as one more dropped key, for
object fields. -/
theorem outlineFields_removeFields_last (drop : List String) (j : String) :
    ∀ fields : Fields,
      outlineFields drop (removeFields j [] fields) = outlineFields (j :: drop) fields
  | Fields.nil => by simp [removeFields, outlineFields]
  | Fields.cons key v rest => by
    have ih := outlineFields_removeFields_last drop j rest
    by_cases hk : key = j
    · subst hk
      simp [removeFields, outlineFields, ih]
    · by_cases hd : key ∈ drop
      · simp [removeFields, outlineFields, hk, hd, ih]
      · simp [removeFields, outlineFields, hk, hd, ih]

/-- Removing a longer path below the field `j` does not show in the outline,
for object fields. -/
theorem outlineFields_removeFields_deeper (drop : List String) (j j2 : String)
    (js2 : List String) :
    ∀ fields : Fields,
      outlineFields drop (removeFields j (j2 :: js2) fields) = outlineFields drop fields
  | Fields.nil => by simp [removeFields, outlineFields]
  | Fields.cons key v rest => by
    have ih := outlineFields_removeFields_deeper drop j j2 js2 rest
    by_cases hk : key = j
    · subst hk
      by_cases hd : key ∈ drop
      · simp [removeFields, outlineFields, hd, ih]
      · simp [removeFields, outlineFields, hd, ih]
    · by_cases hd : key ∈ drop
      · simp [removeFields, outlineFields, hk, hd, ih]
      · simp [removeFields, outlineFields, hk, hd, ih]

mutual
/-- The outline of a value after the removal of the one-segment path `j`. -/
theorem outlineDoc_removeDoc_last (drop : List String) (j : String) :
    ∀ d : Doc, outlineDoc drop (removeDoc j [] d) = outlineDoc (j :: drop) d
  | Doc.undefined => by simp [removeDoc, outlineDoc]
  | Doc.null => by simp [removeDoc, outlineDoc]
  | Doc.bool _ => by simp [removeDoc, outlineDoc]
  | Doc.num _ => by simp [removeDoc, outlineDoc]
  | Doc.str _ => by simp [removeDoc, outlineDoc]
  | Doc.arr items => by
    simp only [removeDoc, outlineDoc]
    rw [outlineItems_removeItems_last drop j items]
  | Doc.obj fields => by
    simp only [removeDoc, outlineDoc]
    rw [outlineFields_removeFields_last drop j fields]
/-- The outlines of array elements after the removal of the one-segment path
`j`. -/
theorem outlineItems_removeItems_last (drop : List String) (j : String) :
    ∀ items : Items,
      outlineItems drop (removeItems j [] items) = outlineItems (j :: drop) items
  | Items.nil => by simp [removeItems, outlineItems]
  | Items.cons d rest => by
    simp only [removeItems, outlineItems]
    rw [outlineDoc_removeDoc_last drop j d, outlineItems_removeItems_last drop j rest]
end

mutual
/-- The outline of a value after the removal of a path of two segments or
more is the outline before. -/
theorem outlineDoc_removeDoc_deeper (drop : List String) (j j2 : String)
    (js2 : List String) :
    ∀ d : Doc, outlineDoc drop (removeDoc j (j2 :: js2) d) = outlineDoc drop d
  | Doc.undefined => by simp [removeDoc, outlineDoc]
  | Doc.null => by simp [removeDoc, outlineDoc]
  | Doc.bool _ => by simp [removeDoc, outlineDoc]
  | Doc.num _ => by simp [removeDoc, outlineDoc]
  | Doc.str _ => by simp [removeDoc, outlineDoc]
  | Doc.arr items => by
    simp only [removeDoc, outlineDoc]
    rw [outlineItems_removeItems_deeper drop j j2 js2 items]
  | Doc.obj fields => by
    simp only [removeDoc, outlineDoc]
    rw [outlineFields_removeFields_deeper drop j j2 js2 fields]
/-- The outlines of array elements after the removal of a path of two
segments or more. -/
theorem outlineItems_removeItems_deeper (drop : List String) (j j2 : String)
    (js2 : List String) :
    ∀ items : Items,
      outlineItems drop (removeItems j (j2 :: js2) items) = outlineItems drop items
  | Items.nil => by simp [removeItems, outlineItems]
  | Items.cons d rest => by
    simp only [removeItems, outlineItems]
    rw [outlineDoc_removeDoc_deeper drop j j2 js2 d,
      outlineItems_removeItems_deeper drop j j2 js2 rest]
end

/-- No path is a list followed by a key when it has no segment. -/
theorem keyBelow_nil_right (q : List String) : keyBelow q [] = none := by
  cases q <;> rfl

/-- The key below `q` on the path `k.ks`, read off the relation of the two. -/
theorem keyBelow_eq_of_relate (q : List String) :
    ∀ (k : String) (ks : List String),
      keyBelow q (k :: ks) =
        match relate q k ks with
        | PathRel.above j [] => some j
        | _ => none := by
  induction q with
  | nil =>
    intro k ks
    cases ks <;> simp [keyBelow, relate]
  | cons a q ih =>
    intro k ks
    by_cases ha : a = k
    · subst ha
      cases ks with
      | nil => simp [keyBelow, relate, keyBelow_nil_right]
      | cons k2 ks2 =>
        simp only [keyBelow, relate, if_true]
        exact ih k2 ks2
    · simp [keyBelow, relate, ha]

/-- The outlines of the values at `q` after the removal of one path that is
not a prefix of `q`. -/
theorem outline_values_removeDoc (q : List String) (k : String) (ks : List String)
    (drop : List String) (d : Doc) (h : ¬ (k :: ks) <+: q) :
    (valuesDoc q (removeDoc k ks d)).map (outlineDoc drop) =
      (valuesDoc q d).map (outlineDoc ((keyBelow q (k :: ks)).toList ++ drop)) := by
  rw [valuesDoc_removeDoc, keyBelow_eq_of_relate]
  unfold afterRemove
  cases hr : relate q k ks with
  | covered => exact absurd ((relate_covered_iff q k ks).1 hr) h
  | apart => simp
  | above j js =>
    cases js with
    | nil =>
      simp only [List.map_map, Option.toList, List.singleton_append]
      congr 1
      funext v
      exact outlineDoc_removeDoc_last drop j v
    | cons j2 js2 =>
      simp only [List.map_map, Option.toList, List.nil_append]
      congr 1
      funext v
      exact outlineDoc_removeDoc_deeper drop j j2 js2 v

/-- The outlines of the values at `q` after the removal of several paths,
none of which is a prefix of `q`. -/
theorem outline_values_removePaths (q : List String) (paths : List (List String)) :
    ∀ (d : Doc) (drop : List String), (∀ p ∈ paths, ¬ p <+: q) →
      (valuesDoc q (removePaths paths d)).map (outlineDoc drop) =
        (valuesDoc q d).map (outlineDoc (droppedAt q paths ++ drop)) := by
  induction paths with
  | nil => intro d drop _; simp [removePaths, droppedAt]
  | cons p rest ih =>
    intro d drop h
    have hfold : removePaths (p :: rest) d = removePaths rest (removePath p d) := by
      simp [removePaths]
    have hp := h p (List.mem_cons_self _ _)
    rw [hfold, ih (removePath p d) drop (fun x hx => h x (List.mem_cons_of_mem _ hx))]
    cases p with
    | nil => exact absurd List.nil_prefix hp
    | cons k ks =>
      simp only [removePath]
      rw [outline_values_removeDoc q k ks _ d hp]
      simp [droppedAt, List.append_assoc]

/-! ## filterItem: the claims -/

/-- C18: after `filterItem`, none of the listed paths has a value left, at
any depth and in every element of an array; the values at a path that is
neither at or under a listed path nor above one are unchanged; and at
every path that is not at or under a listed path, the paths above listed
ones included, the values are as many as before and each has the outline
it had, less the keys that a listed path names directly below: a scalar is
the same scalar, an object has the same keys less those, an array has the
same elements in outline. So removing `'foo.bar.baz'` leaves `foo` and
`foo.bar` in place, the latter as an empty object, and leaves a scalar
`foo` of another document alone. -/
theorem filterItem_removes_exactly (target : Doc) (excluded : List String) :
    (∀ p ∈ excluded, valuesDoc (segments p) (filterItem target excluded) = []) ∧
    (∀ q : List String, (∀ p ∈ excluded, ¬ segments p <+: q ∧ ¬ q <+: segments p) →
      valuesDoc q (filterItem target excluded) = valuesDoc q target) ∧
    (∀ q : List String, (∀ p ∈ excluded, ¬ segments p <+: q) →
      (valuesDoc q (filterItem target excluded)).length = (valuesDoc q target).length) ∧
    (∀ q : List String, (∀ p ∈ excluded, ¬ segments p <+: q) →
      (valuesDoc q (filterItem target excluded)).map (outlineDoc []) =
        (valuesDoc q target).map (outlineDoc (droppedAt q (excluded.map segments)))) ∧
    filterItem (docFooBarBaz "3.14") ["foo.bar.baz"] = docFooBarEmpty ∧
    filterItem (Doc.arr (Items.cons (docFooBarBaz "3.14")
        (Items.cons (docFooBarBaz "pi") Items.nil))) ["foo.bar.baz"] =
      Doc.arr (Items.cons docFooBarEmpty (Items.cons docFooBarEmpty Items.nil)) ∧
    filterItem (Doc.arr (Items.cons (docFooBarBaz "3.14")
        (Items.cons (docFoo (Doc.str "kept")) Items.nil))) ["foo.bar.baz"] =
      Doc.arr (Items.cons docFooBarEmpty (Items.cons (docFoo (Doc.str "kept")) Items.nil)) := by
  have houtline : ∀ q : List String, (∀ p ∈ excluded, ¬ segments p <+: q) →
      (valuesDoc q (filterItem target excluded)).map (outlineDoc []) =
        (valuesDoc q target).map (outlineDoc (droppedAt q (excluded.map segments))) := by
    intro q h
    have hall : ∀ path ∈ excluded.map segments, ¬ path <+: q := by
      intro path hpath
      obtain ⟨x, hxmem, hx⟩ := List.mem_map.1 hpath
      rw [← hx]
      exact h x hxmem
    have hmain := outline_values_removePaths q (excluded.map segments) target [] hall
    simpa [filterItem] using hmain
  refine ⟨?_, ?_, ?_, houtline, by decide, by decide, by decide⟩
  · intro p hp
    apply valuesDoc_removePaths_mem (excluded.map segments) target
    · intro path hpath
      obtain ⟨x, _, hx⟩ := List.mem_map.1 hpath
      rw [← hx]
      exact segments_ne_nil x
    · exact List.mem_map.2 ⟨p, hp, rfl⟩
  · intro q h
    apply valuesDoc_removePaths_apart q (excluded.map segments) target
    intro path hpath
    obtain ⟨x, hxmem, hx⟩ := List.mem_map.1 hpath
    rw [← hx]
    exact h x hxmem
  · intro q h
    apply valuesDoc_removePaths_length q (excluded.map segments) target
    intro path hpath
    obtain ⟨x, hxmem, hx⟩ := List.mem_map.1 hpath
    rw [← hx]
    exact h x hxmem

/-- C19: `filterItem` is idempotent: for every document or array of
documents and every list of paths, filtering the filtered target again with
the same paths gives the filtered target. -/
theorem filterItem_idempotent (target : Doc) (excluded : List String) :
    filterItem (filterItem target excluded) excluded = filterItem target excluded := by
  simp only [filterItem]
  exact removePaths_idem (excluded.map segments) target

/-- C20: when a leading part `q` of the dotted path `p` has no value in the
document (an intermediate segment does not exist), `filterItem` with `p`
alone gives the document back unchanged, and in a longer list `p` has no
effect; `filterItem` is a total function, so it does not throw, and on an
`undefined` target it gives `undefined` for every list. -/
theorem filterItem_missing_segment (target : Doc) (p : String) (q r : List String)
    (listedBefore listedAfter : List String) (hsplit : segments p = q ++ r)
    (hmiss : valuesDoc q target = []) :
    filterItem target [p] = target ∧
    filterItem target (listedBefore ++ p :: listedAfter) =
      filterItem target (listedBefore ++ listedAfter) ∧
    (∀ excluded : List String, filterItem Doc.undefined excluded = Doc.undefined) := by
  have hnone : valuesDoc (segments p) target = [] := by
    rw [hsplit]
    exact valuesDoc_append_nil r q target hmiss
  have hstep : ∀ d : Doc, valuesDoc (segments p) d = [] → removePath (segments p) d = d := by
    intro d hd
    cases hseg : segments p with
    | nil => simp [removePath]
    | cons k ks =>
      rw [hseg] at hd
      simp only [removePath]
      exact removeDoc_of_values_nil k ks d hd
  refine ⟨?_, ?_, ?_⟩
  · simp only [filterItem, List.map, removePaths, List.foldl]
    exact hstep target hnone
  · simp only [filterItem, List.map_append, List.map_cons, removePaths_append]
    have hfold : ∀ d : Doc, removePaths (segments p :: listedAfter.map segments) d =
        removePaths (listedAfter.map segments) (removePath (segments p) d) := by
      intro d
      simp [removePaths]
    rw [hfold, hstep _ (valuesDoc_removePaths_nil (segments p) (listedBefore.map segments)
      target hnone)]
  · intro excluded
    simp only [filterItem]
    generalize excluded.map segments = paths
    induction paths with
    | nil => simp [removePaths]
    | cons path paths ih =>
      have hu : removePath path Doc.undefined = Doc.undefined := by
        cases path with
        | nil => simp [removePath]
        | cons k ks => simp [removePath, removeDoc]
      have hfold : removePaths (path :: paths) Doc.undefined =
          removePaths paths (removePath path Doc.undefined) := by
        simp [removePaths]
      rw [hfold, hu, ih]

/-- Witness of C20: the path `'privateDoes.notExist'` on the document
`{ name: 'Bob', age: 12 }`, alone and listed after `'age'`. -/
theorem filterItem_missing_segment_witness :
    segments "privateDoes.notExist" = ["privateDoes"] ++ ["notExist"] ∧
    valuesDoc ["privateDoes"] docBob = [] ∧
    filterItem docBob ["privateDoes.notExist"] = docBob ∧
    filterItem docBob (["age"] ++ "privateDoes.notExist" :: []) =
      filterItem docBob (["age"] ++ []) :=
  ⟨by decide, by decide,
    (filterItem_missing_segment docBob "privateDoes.notExist" ["privateDoes"] ["notExist"]
      ["age"] [] (by decide) (by decide)).1,
    (filterItem_missing_segment docBob "privateDoes.notExist" ["privateDoes"] ["notExist"]
      ["age"] [] (by decide) (by decide)).2.1⟩

/-! ## errorHandler: reporting twice, postcondition -/

/-- The status that line 11 keeps or sets is at least 400. -/
theorem keepOr400_ge (statusCode : Option Int) : keepOr400 statusCode ≥ 400 := by
  unfold keepOr400
  cases statusCode with
  | none => simp
  | some c =>
    by_cases h : c ≥ 400
    · have hne : c ≠ 0 := by omega
      simp [truthyNum, hne, h]
    · simp [h]

/-- A status of at least 400 is kept by line 11. -/
theorem keepOr400_of_ge (c : Int) (h : c ≥ 400) : keepOr400 (some c) = c := by
  have hne : c ≠ 0 := by omega
  simp [keepOr400, truthyNum, hne, h]

/-- C28: handling the same error twice on the same request leaves the
status, and the whole request, as handling it once does. -/
theorem errorHandler_status_idempotent (options : Options) (res : Res) (next : Next)
    (err : Err) (s : State) :
    (errorHandler options res next err (errorHandler options res next err s)).req.erm.statusCode =
      (errorHandler options res next err s).req.erm.statusCode ∧
    (errorHandler options res next err (errorHandler options res next err s)).req =
      (errorHandler options res next err s).req := by
  have hreq : (errorHandler options res next err (errorHandler options res next err s)).req =
      (errorHandler options res next err s).req := by
    cases hcls : isNotFoundClass options s.req err with
    | true => simp [errorHandler, isNotFoundClass, hcls] at *; simp [*]
    | false =>
      have hk := keepOr400_of_ge (keepOr400 s.req.erm.statusCode)
        (keepOr400_ge s.req.erm.statusCode)
      simp only [errorHandler, isNotFoundClass] at *
      simp [hcls, hk]
  exact ⟨by rw [hreq], hreq⟩

/-- C29: after `errorHandler` the status is a number of at least 400, so a
success status set earlier (200, 204, any status below 400) does not
survive; and the request is the earlier request with only
`req.erm.statusCode` assigned. -/
theorem errorHandler_postcondition (options : Options) (res : Res) (next : Next)
    (err : Err) (s : State) :
    (∃ c : Int, (errorHandler options res next err s).req.erm.statusCode = some c ∧
      c ≥ 400) ∧
    (∀ c : Int, s.req.erm.statusCode = some c → c < 400 →
      (errorHandler options res next err s).req.erm.statusCode ≠ some c) ∧
    (errorHandler options res next err s).req =
      { s.req with erm := { s.req.erm with
          statusCode := (errorHandler options res next err s).req.erm.statusCode } } := by
  have hpost : ∃ c : Int, (errorHandler options res next err s).req.erm.statusCode = some c ∧
      c ≥ 400 := by
    cases hcls : isNotFoundClass options s.req err with
    | true => exact ⟨404, by simp [errorHandler, hcls], by decide⟩
    | false =>
      exact ⟨keepOr400 s.req.erm.statusCode, by simp [errorHandler, hcls],
        keepOr400_ge s.req.erm.statusCode⟩
  refine ⟨hpost, ?_, rfl⟩
  intro c _ hlt hsame
  obtain ⟨k, hk, hge⟩ := hpost
  rw [hk] at hsame
  cases hsame
  omega

/-! ## outputFn: falsy results -/

/-- C30: in express mode a result that is present but falsy (`0`, `false`,
the empty string, `null`) is not sent: only `sendStatus(statusCode)` is
called; in restify mode the same result is the body of
`send(statusCode, result)`; and in every mode, for every request, exactly
one call that sends the response is added to the log. -/
theorem outputFn_falsy_result (isExpress : Bool) (res : Res) (s : State) :
    ((s.req.erm.result = JSVal.num 0 ∨ s.req.erm.result = JSVal.bool false ∨
        s.req.erm.result = JSVal.str "" ∨ s.req.erm.result = JSVal.null) →
      outputFn true res s =
        { req := s.req, calls := s.calls ++ [Call.sendStatus res s.req.erm.statusCode] } ∧
      outputFn false res s =
        { req := s.req,
          calls := s.calls ++ [Call.send res s.req.erm.statusCode s.req.erm.result] }) ∧
    ((outputFn isExpress res s).calls.filter Call.isSending).length =
      (s.calls.filter Call.isSending).length + 1 := by
  constructor
  · intro h
    have hfalsy : truthyVal s.req.erm.result = false := by
      rcases h with h | h | h | h <;> rw [h] <;> decide
    simp [outputFn, hfalsy]
  · cases isExpress with
    | false => simp [outputFn, List.filter_append, Call.isSending]
    | true =>
      cases hres : truthyVal s.req.erm.result <;>
        simp [outputFn, hres, List.filter_append, Call.isSending]

/-- Witness of C30: the result `0` with the status 200, in both modes. -/
theorem outputFn_falsy_result_witness :
    outputFn true res0 { req := reqOutput 200 (JSVal.num 0), calls := [] } =
      { req := reqOutput 200 (JSVal.num 0), calls := [Call.sendStatus res0 (some 200)] } ∧
    outputFn false res0 { req := reqOutput 200 (JSVal.num 0), calls := [] } =
      { req := reqOutput 200 (JSVal.num 0),
        calls := [Call.send res0 (some 200) (JSVal.num 0)] } :=
  (outputFn_falsy_result true res0
    { req := reqOutput 200 (JSVal.num 0), calls := [] }).1 (Or.inl rfl)

/-! ## filterPopulatedItem: filtering below a path is removal -/

mutual
/-- Removing `j.js` in every value at a path is removing the path followed
by `j.js`, for a document. -/
theorem mapAtDoc_removeDoc (j : String) (js : List String) :
    ∀ (path : List String) (d : Doc),
      mapAtDoc (removeDoc j js) path d = removePath (path ++ j :: js) d
  | [], d => by simp [mapAtDoc, removePath]
  | _ :: _, Doc.undefined => by simp [mapAtDoc, removePath, removeDoc]
  | _ :: _, Doc.null => by simp [mapAtDoc, removePath, removeDoc]
  | _ :: _, Doc.bool _ => by simp [mapAtDoc, removePath, removeDoc]
  | _ :: _, Doc.num _ => by simp [mapAtDoc, removePath, removeDoc]
  | _ :: _, Doc.str _ => by simp [mapAtDoc, removePath, removeDoc]
  | k :: ks, Doc.arr items => by
    simp only [mapAtDoc, List.cons_append, removePath, removeDoc]
    rw [mapAtItems_removeDoc j js k ks items]
  | k :: ks, Doc.obj fields => by
    simp only [mapAtDoc, List.cons_append, removePath, removeDoc]
    rw [mapAtFields_removeDoc j js k ks fields]
/-- Removing `j.js` at the path `k.ks` in array elements. -/
theorem mapAtItems_removeDoc (j : String) (js : List String) (k : String)
    (ks : List String) :
    ∀ items : Items,
      mapAtItems (removeDoc j js) k ks items = removeItems k (ks ++ j :: js) items
  | Items.nil => by simp [mapAtItems, removeItems]
  | Items.cons d rest => by
    simp only [mapAtItems, removeItems]
    rw [mapAtDoc_removeDoc j js (k :: ks) d, mapAtItems_removeDoc j js k ks rest]
    simp [removePath]
/-- Removing `j.js` at the path `k.ks` in object fields. -/
theorem mapAtFields_removeDoc (j : String) (js : List String) (k : String)
    (ks : List String) :
    ∀ fields : Fields,
      mapAtFields (removeDoc j js) k ks fields = removeFields k (ks ++ j :: js) fields
  | Fields.nil => by simp [mapAtFields, removeFields]
  | Fields.cons key v rest => by
    have ih := mapAtFields_removeDoc j js k ks rest
    have hv := mapAtDoc_removeDoc j js ks v
    by_cases hk : key = k
    · subst hk
      cases ks with
      | nil =>
        simp only [mapAtFields, removeFields, if_true, List.nil_append]
        rw [ih, hv]
        simp [removePath]
      | cons k2 ks2 =>
        simp only [mapAtFields, removeFields, if_true, List.cons_append]
        rw [ih, hv]
        simp [removePath]
    · simp [mapAtFields, removeFields, hk, ih]
end

mutual
/-- Applying `f` and then `g` at a path is applying their composition, for a
document. -/
theorem mapAtDoc_comp (f g : Doc → Doc) :
    ∀ (path : List String) (d : Doc),
      mapAtDoc g path (mapAtDoc f path d) = mapAtDoc (fun v => g (f v)) path d
  | [], d => by simp [mapAtDoc]
  | _ :: _, Doc.undefined => by simp [mapAtDoc]
  | _ :: _, Doc.null => by simp [mapAtDoc]
  | _ :: _, Doc.bool _ => by simp [mapAtDoc]
  | _ :: _, Doc.num _ => by simp [mapAtDoc]
  | _ :: _, Doc.str _ => by simp [mapAtDoc]
  | k :: ks, Doc.arr items => by
    simp only [mapAtDoc]
    rw [mapAtItems_comp f g k ks items]
  | k :: ks, Doc.obj fields => by
    simp only [mapAtDoc]
    rw [mapAtFields_comp f g k ks fields]
/-- Applying `f` and then `g` at a path, for array elements. -/
theorem mapAtItems_comp (f g : Doc → Doc) (k : String) (ks : List String) :
    ∀ items : Items,
      mapAtItems g k ks (mapAtItems f k ks items) = mapAtItems (fun v => g (f v)) k ks items
  | Items.nil => by simp [mapAtItems]
  | Items.cons d rest => by
    simp only [mapAtItems]
    rw [mapAtDoc_comp f g (k :: ks) d, mapAtItems_comp f g k ks rest]
/-- Applying `f` and then `g` at a path, for object fields. -/
theorem mapAtFields_comp (f g : Doc → Doc) (k : String) (ks : List String) :
    ∀ fields : Fields,
      mapAtFields g k ks (mapAtFields f k ks fields) =
        mapAtFields (fun v => g (f v)) k ks fields
  | Fields.nil => by simp [mapAtFields]
  | Fields.cons key v rest => by
    have ih := mapAtFields_comp f g k ks rest
    have hv := mapAtDoc_comp f g ks v
    by_cases hk : key = k
    · subst hk
      simp only [mapAtFields, if_true]
      rw [ih, hv]
    · simp [mapAtFields, hk, ih]
end

mutual
/-- Applying a function at a path that has no value changes nothing, for a
document. -/
theorem mapAtDoc_of_values_nil (f : Doc → Doc) :
    ∀ (path : List String) (d : Doc), valuesDoc path d = [] → mapAtDoc f path d = d
  | [], d => by simp [valuesDoc]
  | _ :: _, Doc.undefined => by simp [mapAtDoc]
  | _ :: _, Doc.null => by simp [mapAtDoc]
  | _ :: _, Doc.bool _ => by simp [mapAtDoc]
  | _ :: _, Doc.num _ => by simp [mapAtDoc]
  | _ :: _, Doc.str _ => by simp [mapAtDoc]
  | k :: ks, Doc.arr items => by
    intro h
    simp only [valuesDoc] at h
    simp only [mapAtDoc]
    rw [mapAtItems_of_values_nil f k ks items h]
  | k :: ks, Doc.obj fields => by
    intro h
    simp only [valuesDoc] at h
    simp only [mapAtDoc]
    rw [mapAtFields_of_values_nil f k ks fields h]
/-- Applying a function at a path without value, for array elements. -/
theorem mapAtItems_of_values_nil (f : Doc → Doc) (k : String) (ks : List String) :
    ∀ items : Items, valuesItems k ks items = [] → mapAtItems f k ks items = items
  | Items.nil => by simp [mapAtItems]
  | Items.cons d rest => by
    intro h
    simp only [valuesItems, List.append_eq_nil] at h
    simp only [mapAtItems]
    rw [mapAtDoc_of_values_nil f (k :: ks) d h.1, mapAtItems_of_values_nil f k ks rest h.2]
/-- Applying a function at a path without value, for object fields. -/
theorem mapAtFields_of_values_nil (f : Doc → Doc) (k : String) (ks : List String) :
    ∀ fields : Fields, valuesFields k ks fields = [] → mapAtFields f k ks fields = fields
  | Fields.nil => by simp [mapAtFields]
  | Fields.cons key v rest => by
    intro h
    simp only [valuesFields, List.append_eq_nil] at h
    have ih := mapAtFields_of_values_nil f k ks rest h.2
    by_cases hk : key = k
    · subst hk
      have hv : valuesDoc ks v = [] := by simpa using h.1
      simp only [mapAtFields, if_true]
      rw [ih, mapAtDoc_of_values_nil f ks v hv]
    · simp [mapAtFields, hk, ih]
end

mutual
/-- Applying the identity at a path changes nothing, for a document. -/
theorem mapAtDoc_id : ∀ (path : List String) (d : Doc), mapAtDoc (fun v => v) path d = d
  | [], d => by simp [mapAtDoc]
  | _ :: _, Doc.undefined => by simp [mapAtDoc]
  | _ :: _, Doc.null => by simp [mapAtDoc]
  | _ :: _, Doc.bool _ => by simp [mapAtDoc]
  | _ :: _, Doc.num _ => by simp [mapAtDoc]
  | _ :: _, Doc.str _ => by simp [mapAtDoc]
  | k :: ks, Doc.arr items => by
    simp only [mapAtDoc]
    rw [mapAtItems_id k ks items]
  | k :: ks, Doc.obj fields => by
    simp only [mapAtDoc]
    rw [mapAtFields_id k ks fields]
/-- Applying the identity at a path, for array elements. -/
theorem mapAtItems_id (k : String) (ks : List String) :
    ∀ items : Items, mapAtItems (fun v => v) k ks items = items
  | Items.nil => by simp [mapAtItems]
  | Items.cons d rest => by
    simp only [mapAtItems]
    rw [mapAtDoc_id (k :: ks) d, mapAtItems_id k ks rest]
/-- Applying the identity at a path, for object fields. -/
theorem mapAtFields_id (k : String) (ks : List String) :
    ∀ fields : Fields, mapAtFields (fun v => v) k ks fields = fields
  | Fields.nil => by simp [mapAtFields]
  | Fields.cons key v rest => by
    have ih := mapAtFields_id k ks rest
    by_cases hk : key = k
    · subst hk
      simp only [mapAtFields, if_true]
      rw [ih, mapAtDoc_id ks v]
    · simp [mapAtFields, hk, ih]
end

/-- Removing several paths in every value at a path is removing each of
them below that path. -/
theorem mapAtDoc_removePaths (path : List String) (paths : List (List String)) :
    (∀ e ∈ paths, e ≠ []) → ∀ d : Doc,
      mapAtDoc (fun v => removePaths paths v) path d =
        removePaths (paths.map (fun e => path ++ e)) d := by
  induction paths with
  | nil =>
    intro _ d
    simpa [removePaths] using mapAtDoc_id path d
  | cons e rest ih =>
    intro hne d
    have hrest : ∀ x ∈ rest, x ≠ [] := fun x hx => hne x (List.mem_cons_of_mem _ hx)
    have hfun : (fun v => removePaths (e :: rest) v) =
        (fun v => (fun w => removePaths rest w) (removePath e v)) := by
      funext v
      simp [removePaths]
    have hfold : removePaths ((e :: rest).map (fun x => path ++ x)) d =
        removePaths (rest.map (fun x => path ++ x)) (removePath (path ++ e) d) := by
      simp [removePaths]
    rw [hfun, ← mapAtDoc_comp (removePath e) (fun w => removePaths rest w) path d,
      ih hrest, hfold]
    cases e with
    | nil => exact absurd rfl (hne [] (List.mem_cons_self _ _))
    | cons j js =>
      have hstep : removePath (j :: js) = removeDoc j js := by
        funext v
        simp [removePath]
      rw [hstep, mapAtDoc_removeDoc j js path d]

/-- One step of `filterPopulatedItem` is the removal of the paths of that
descriptor. -/
theorem filterPopulatedStep_eq (refOf : String → Option String) (access : AccessLevel)
    (excludedMap : List (String × FilteredKeys)) (d : Doc) (desc : Populate) :
    filterPopulatedStep refOf access excludedMap d desc =
      removePaths (populatedPaths refOf access excludedMap desc) d := by
  cases hp : desc.path with
  | none => simp [filterPopulatedStep, populatedPaths, hp, removePaths]
  | some p =>
    cases hr : refOf p with
    | none => simp [filterPopulatedStep, populatedPaths, hp, hr, removePaths]
    | some name =>
      simp only [filterPopulatedStep, populatedPaths, hp, hr, filterItem]
      rw [mapAtDoc_removePaths (segments p)]
      · simp [List.map_map, Function.comp_def]
      · intro e he
        obtain ⟨x, _, hx⟩ := List.mem_map.1 he
        rw [← hx]
        exact segments_ne_nil x

/-- The steps of `filterPopulatedItem` for a list of descriptors are the
removal of the paths of all of them. -/
theorem filterPopulated_foldl_eq (refOf : String → Option String) (access : AccessLevel)
    (excludedMap : List (String × FilteredKeys)) (descs : List Populate) :
    ∀ d : Doc, descs.foldl (filterPopulatedStep refOf access excludedMap) d =
      removePaths (descs.flatMap (populatedPaths refOf access excludedMap)) d := by
  induction descs with
  | nil => intro d; simp [removePaths]
  | cons desc rest ih =>
    intro d
    simp only [List.foldl_cons, List.flatMap_cons, removePaths_append]
    rw [ih, filterPopulatedStep_eq]

mutual
/-- The values at a path after `f` was applied there are the images of the
values before, for a document. -/
theorem valuesDoc_mapAtDoc (f : Doc → Doc) :
    ∀ (path : List String) (d : Doc),
      valuesDoc path (mapAtDoc f path d) = (valuesDoc path d).map f
  | [], d => by simp [mapAtDoc, valuesDoc]
  | _ :: _, Doc.undefined => by simp [mapAtDoc, valuesDoc]
  | _ :: _, Doc.null => by simp [mapAtDoc, valuesDoc]
  | _ :: _, Doc.bool _ => by simp [mapAtDoc, valuesDoc]
  | _ :: _, Doc.num _ => by simp [mapAtDoc, valuesDoc]
  | _ :: _, Doc.str _ => by simp [mapAtDoc, valuesDoc]
  | k :: ks, Doc.arr items => by
    simp only [mapAtDoc, valuesDoc]
    exact valuesItems_mapAtItems f k ks items
  | k :: ks, Doc.obj fields => by
    simp only [mapAtDoc, valuesDoc]
    exact valuesFields_mapAtFields f k ks fields
/-- The values at a path after `f` was applied there, for array elements. -/
theorem valuesItems_mapAtItems (f : Doc → Doc) (k : String) (ks : List String) :
    ∀ items : Items,
      valuesItems k ks (mapAtItems f k ks items) = (valuesItems k ks items).map f
  | Items.nil => by simp [mapAtItems, valuesItems]
  | Items.cons d rest => by
    simp only [mapAtItems, valuesItems, List.map_append]
    rw [valuesDoc_mapAtDoc f (k :: ks) d, valuesItems_mapAtItems f k ks rest]
/-- The values at a path after `f` was applied there, for object fields. -/
theorem valuesFields_mapAtFields (f : Doc → Doc) (k : String) (ks : List String) :
    ∀ fields : Fields,
      valuesFields k ks (mapAtFields f k ks fields) = (valuesFields k ks fields).map f
  | Fields.nil => by simp [mapAtFields, valuesFields]
  | Fields.cons key v rest => by
    have ih := valuesFields_mapAtFields f k ks rest
    by_cases hk : key = k
    · subst hk
      simp only [mapAtFields, valuesFields, if_true, List.map_append]
      rw [ih, valuesDoc_mapAtDoc f ks v]
    · simp [mapAtFields, valuesFields, hk, ih]
end

/-! ## filterPopulatedItem: the claims -/

/-- C21: after `filterPopulatedItem`, for every populate descriptor whose
path refers to a resource, each excluded path of that resource has no value
left below the populate path, in a single populated object, in every
element of a populated array and below every element of an array crossed
on the way; for a single descriptor the values at the populate path are the
earlier values, each filtered by `filterItem`; and the values at every path
that is neither at or under a populate path nor above one are unchanged.
The four unit tests evaluate as expected. -/
theorem filterPopulatedItem_filters_populated (refOf : String → Option String)
    (target : Doc) (opts : PopulateOptions) :
    (∀ desc ∈ opts.populate, ∀ p name : String, desc.path = some p → refOf p = some name →
      ∀ e ∈ excludedOf opts.access opts.excludedMap name,
        valuesDoc (segments p ++ segments e) (filterPopulatedItem refOf target opts) = []) ∧
    (∀ (desc : Populate) (p name : String), desc.path = some p → refOf p = some name →
      valuesDoc (segments p)
          (filterPopulatedItem refOf target { opts with populate := [desc] }) =
        (valuesDoc (segments p) target).map
          (fun v => filterItem v (excludedOf opts.access opts.excludedMap name))) ∧
    (∀ q : List String,
      (∀ desc ∈ opts.populate, ∀ p : String, desc.path = some p →
        ¬ segments p <+: q ∧ ¬ q <+: segments p) →
      valuesDoc q (filterPopulatedItem refOf target opts) = valuesDoc q target) ∧
    filterPopulatedItem invoiceRefs (docInvoice "John" "42")
        (populateOne "customer" "Customer") = docInvoiceFiltered "42" ∧
    filterPopulatedItem invoiceRefs
        (Doc.arr (Items.cons (docInvoice "John" "42")
          (Items.cons (docInvoice "Bob" "3.14") Items.nil)))
        (populateOne "customer" "Customer") =
      Doc.arr (Items.cons (docInvoiceFiltered "42")
        (Items.cons (docInvoiceFiltered "3.14") Items.nil)) ∧
    filterPopulatedItem invoiceRefs docInvoiceProducts (populateOne "products" "Product") =
      Doc.obj (Fields.cons "products"
        (Doc.arr (Items.cons (Doc.obj Fields.nil) (Items.cons (Doc.obj Fields.nil) Items.nil)))
        (Fields.cons "amount" (Doc.str "42") Fields.nil)) ∧
    filterPopulatedItem customerRefs docCustomerPurchases
        (populateOne "purchases.item" "Product") =
      Doc.obj (Fields.cons "name" (Doc.str "John")
        (Fields.cons "purchases"
          (Doc.arr (Items.cons
            (Doc.obj (Fields.cons "item" (Doc.obj Fields.nil) Fields.nil)) Items.nil))
          Fields.nil)) := by
  have hrun : filterPopulatedItem refOf target opts =
      removePaths (opts.populate.flatMap
        (populatedPaths refOf opts.access opts.excludedMap)) target := by
    simp only [filterPopulatedItem]
    exact filterPopulated_foldl_eq refOf opts.access opts.excludedMap opts.populate target
  refine ⟨?_, ?_, ?_, by decide, by decide, by decide, by decide⟩
  · intro desc hdesc p name hp hr e he
    rw [hrun]
    apply valuesDoc_removePaths_mem
    · intro path hpath
      obtain ⟨x, _, hx⟩ := List.mem_flatMap.1 hpath
      unfold populatedPaths at hx
      cases hxp : x.path with
      | none => simp [hxp] at hx
      | some xp =>
        cases hxr : refOf xp with
        | none => simp [hxp, hxr] at hx
        | some xname =>
          simp only [hxp, hxr, List.mem_map] at hx
          obtain ⟨y, _, hy⟩ := hx
          rw [← hy]
          intro hnil
          exact segments_ne_nil y (List.append_eq_nil.1 hnil).2
    · apply List.mem_flatMap.2
      refine ⟨desc, hdesc, ?_⟩
      simp only [populatedPaths, hp, hr, List.mem_map]
      exact ⟨e, he, rfl⟩
  · intro desc p name hp hr
    simp only [filterPopulatedItem, List.foldl, filterPopulatedStep, hp, hr]
    exact valuesDoc_mapAtDoc _ (segments p) target
  · intro q h
    rw [hrun]
    apply valuesDoc_removePaths_apart
    intro path hpath
    obtain ⟨x, hxmem, hx⟩ := List.mem_flatMap.1 hpath
    unfold populatedPaths at hx
    cases hxp : x.path with
    | none => simp [hxp] at hx
    | some xp =>
      cases hxr : refOf xp with
      | none => simp [hxp, hxr] at hx
      | some xname =>
        simp only [hxp, hxr, List.mem_map] at hx
        obtain ⟨y, _, hy⟩ := hx
        rw [← hy]
        have hq := h x hxmem xp hxp
        constructor
        · intro hpre
          exact hq.1 ((List.prefix_append _ _).trans hpre)
        · intro hpre
          rcases List.prefix_or_prefix_of_prefix hpre (List.prefix_append _ _) with h1 | h1
          · exact hq.2 h1
          · exact hq.1 h1

/-- C22: a populate descriptor that carries no path, whose path refers to
no known resource, whose resource has no entry in the excluded map, or
whose path has no value on the document leaves the document exactly as it
was, alone and anywhere in a longer list of descriptors;
`filterPopulatedItem` is a total function, so it does not throw, and a
`null` target is returned as `null`. -/
theorem filterPopulatedItem_untouched (refOf : String → Option String) (target : Doc)
    (opts : PopulateOptions) (desc : Populate) (listedBefore listedAfter : List Populate)
    (h : desc.path = none ∨
      ∃ p : String, desc.path = some p ∧
        (refOf p = none ∨
         (∃ name : String, refOf p = some name ∧ opts.excludedMap.lookup name = none) ∨
         valuesDoc (segments p) target = [])) :
    filterPopulatedItem refOf target { opts with populate := [desc] } = target ∧
    filterPopulatedItem refOf target
        { opts with populate := listedBefore ++ desc :: listedAfter } =
      filterPopulatedItem refOf target { opts with populate := listedBefore ++ listedAfter } ∧
    (∀ o : PopulateOptions, filterPopulatedItem refOf Doc.null o = Doc.null) := by
  have hstep : ∀ paths : List (List String),
      filterPopulatedStep refOf opts.access opts.excludedMap (removePaths paths target) desc =
        removePaths paths target := by
    intro paths
    rcases h with hnone | ⟨p, hp, hcase⟩
    · simp [filterPopulatedStep, hnone]
    · rcases hcase with hr | ⟨name, hr, hlookup⟩ | hmiss
      · simp [filterPopulatedStep, hp, hr]
      · have hex : excludedOf opts.access opts.excludedMap name = [] := by
          simp only [excludedOf, getExcluded, ExcludedContext.keys, hlookup]
          cases opts.access <;> rfl
        simp only [filterPopulatedStep, hp, hr, hex, filterItem, List.map_nil, removePaths,
          List.foldl_nil]
        exact mapAtDoc_id (segments p) _
      · cases hr : refOf p with
        | none => simp [filterPopulatedStep, hp, hr]
        | some name =>
          simp only [filterPopulatedStep, hp, hr]
          exact mapAtDoc_of_values_nil _ (segments p) _
            (valuesDoc_removePaths_nil (segments p) paths target hmiss)
  refine ⟨?_, ?_, ?_⟩
  · have h0 := hstep []
    simpa [filterPopulatedItem, removePaths] using h0
  · simp only [filterPopulatedItem, List.foldl_append, List.foldl_cons]
    rw [filterPopulated_foldl_eq refOf opts.access opts.excludedMap listedBefore target,
      hstep]
  · intro o
    simp only [filterPopulatedItem]
    rw [filterPopulated_foldl_eq]
    generalize o.populate.flatMap (populatedPaths refOf o.access o.excludedMap) = paths
    induction paths with
    | nil => simp [removePaths]
    | cons path paths ih =>
      have hu : removePath path Doc.null = Doc.null := by
        cases path with
        | nil => simp [removePath]
        | cons k ks => simp [removePath, removeDoc]
      have hfold : removePaths (path :: paths) Doc.null =
          removePaths paths (removePath path Doc.null) := by
        simp [removePaths]
      rw [hfold, hu, ih]

/-- Witness of C22: the unit tests "ignores undefined path" and "skip when
populate path is undefined", and a populate of `customer` when the excluded
map has no entry for Customer. -/
theorem filterPopulatedItem_untouched_witness :
    filterPopulatedItem invoiceRefs (Doc.obj (Fields.cons "amount" (Doc.str "42") Fields.nil))
        { populateOne "customer" "Customer" with populate := [{ path := some "customer" }] } =
      Doc.obj (Fields.cons "amount" (Doc.str "42") Fields.nil) ∧
    filterPopulatedItem invoiceRefs (docInvoice "John" "42")
        { populateOne "customer" "Customer" with populate := [{ path := none }] } =
      docInvoice "John" "42" ∧
    filterPopulatedItem invoiceRefs (docInvoice "John" "42")
        { populateOne "customer" "Product" with populate := [{ path := some "customer" }] } =
      docInvoice "John" "42" :=
  ⟨(filterPopulatedItem_untouched invoiceRefs
      (Doc.obj (Fields.cons "amount" (Doc.str "42") Fields.nil))
      (populateOne "customer" "Customer") { path := some "customer" } [] []
      (Or.inr ⟨"customer", rfl, Or.inr (Or.inr (by decide))⟩)).1,
    (filterPopulatedItem_untouched invoiceRefs (docInvoice "John" "42")
      (populateOne "customer" "Customer") { path := none } [] [] (Or.inl rfl)).1,
    (filterPopulatedItem_untouched invoiceRefs (docInvoice "John" "42")
      (populateOne "customer" "Product") { path := some "customer" } [] []
      (Or.inr ⟨"customer", rfl, Or.inr (Or.inl ⟨"Customer", by decide, by decide⟩)⟩)).1⟩

/-! ## prepareQuery: the reviver of the query parameter -/

/-- What the walk does with one field: it is deleted when the reviver
answers `undefined`, and replaced by the answer otherwise. -/
theorem reviveFields_cons (allowRegex : Bool) (key : String) (v : Doc) (rest : Fields) :
    reviveFields allowRegex (Fields.cons key v rest) =
      if jsonQueryParser allowRegex (ReviverKey.field key) (reviveDoc allowRegex v) =
          Doc.undefined
      then reviveFields allowRegex rest
      else Fields.cons key
        (jsonQueryParser allowRegex (ReviverKey.field key) (reviveDoc allowRegex v))
        (reviveFields allowRegex rest) := by
  simp only [reviveFields]
  cases jsonQueryParser allowRegex (ReviverKey.field key) (reviveDoc allowRegex v) <;> simp

/-- The reviver brings in no field named `$regex`. -/
theorem jsonQueryParser_no_regex (allowRegex : Bool) (key : ReviverKey) (x : Doc)
    (h : hasKeyDoc "$regex" x = false) :
    hasKeyDoc "$regex" (jsonQueryParser allowRegex key x) = false := by
  unfold jsonQueryParser
  split
  · simp [hasKeyDoc]
  · cases x with
    | arr items =>
      simp only [hasKeyDoc] at h
      simp [hasKeyDoc, hasKeyFields, h]
    | _ => simpa using h

mutual
/-- With `allowRegex` false the walk leaves no field named `$regex`, for a
value. -/
theorem reviveDoc_no_regex : ∀ d : Doc, hasKeyDoc "$regex" (reviveDoc false d) = false
  | Doc.undefined => by simp [reviveDoc, hasKeyDoc]
  | Doc.null => by simp [reviveDoc, hasKeyDoc]
  | Doc.bool _ => by simp [reviveDoc, hasKeyDoc]
  | Doc.num _ => by simp [reviveDoc, hasKeyDoc]
  | Doc.str _ => by simp [reviveDoc, hasKeyDoc]
  | Doc.arr items => by
    simp only [reviveDoc, hasKeyDoc]
    exact reviveItems_no_regex 0 items
  | Doc.obj fields => by
    simp only [reviveDoc, hasKeyDoc]
    exact reviveFields_no_regex fields
/-- With `allowRegex` false the walk leaves no field named `$regex`, for
array elements. -/
theorem reviveItems_no_regex (i : Nat) :
    ∀ items : Items, hasKeyItems "$regex" (reviveItems false i items) = false
  | Items.nil => by simp [reviveItems, hasKeyItems]
  | Items.cons d rest => by
    simp only [reviveItems, hasKeyItems, Bool.or_eq_false_iff]
    exact ⟨jsonQueryParser_no_regex false _ _ (reviveDoc_no_regex d),
      reviveItems_no_regex (i + 1) rest⟩
/-- With `allowRegex` false the walk leaves no field named `$regex`, for
object fields. -/
theorem reviveFields_no_regex :
    ∀ fields : Fields, hasKeyFields "$regex" (reviveFields false fields) = false
  | Fields.nil => by simp [reviveFields, hasKeyFields]
  | Fields.cons key v rest => by
    have ih := reviveFields_no_regex rest
    have hv := jsonQueryParser_no_regex false (ReviverKey.field key) _ (reviveDoc_no_regex v)
    rw [reviveFields_cons]
    split
    · exact ih
    · rename_i hne
      have hkey : key ≠ "$regex" := by
        intro hk
        apply hne
        simp [jsonQueryParser, hk]
      simp [hasKeyFields, hkey, hv, ih]
end

mutual
/-- The walk changes nothing in a value without arrays and without
`undefined`, when `$regex` is allowed or does not occur. -/
theorem reviveDoc_id (allowRegex : Bool) :
    ∀ d : Doc, hasArrayDoc d = false → hasUndefinedDoc d = false →
      (allowRegex = true ∨ hasKeyDoc "$regex" d = false) → reviveDoc allowRegex d = d
  | Doc.undefined => by simp [reviveDoc]
  | Doc.null => by simp [reviveDoc]
  | Doc.bool _ => by simp [reviveDoc]
  | Doc.num _ => by simp [reviveDoc]
  | Doc.str _ => by simp [reviveDoc]
  | Doc.arr _ => by simp [hasArrayDoc]
  | Doc.obj fields => by
    intro ha hu hr
    simp only [hasArrayDoc] at ha
    simp only [hasUndefinedDoc] at hu
    simp only [hasKeyDoc] at hr
    simp only [reviveDoc]
    rw [reviveFields_id allowRegex fields ha hu hr]
/-- The walk changes nothing in fields without arrays and without
`undefined`, when `$regex` is allowed or does not occur. -/
theorem reviveFields_id (allowRegex : Bool) :
    ∀ fields : Fields, hasArrayFields fields = false → hasUndefinedFields fields = false →
      (allowRegex = true ∨ hasKeyFields "$regex" fields = false) →
      reviveFields allowRegex fields = fields
  | Fields.nil => by simp [reviveFields]
  | Fields.cons key v rest => by
    intro ha hu hr
    simp only [hasArrayFields, Bool.or_eq_false_iff] at ha
    simp only [hasUndefinedFields, Bool.or_eq_false_iff] at hu
    have hrv : allowRegex = true ∨ hasKeyDoc "$regex" v = false := by
      rcases hr with h | h
      · exact Or.inl h
      · simp only [hasKeyFields, Bool.or_eq_false_iff] at h
        exact Or.inr h.1.2
    have hrrest : allowRegex = true ∨ hasKeyFields "$regex" rest = false := by
      rcases hr with h | h
      · exact Or.inl h
      · simp only [hasKeyFields, Bool.or_eq_false_iff] at h
        exact Or.inr h.2
    have hkeep : ¬ (ReviverKey.field key = ReviverKey.field "$regex" ∧ allowRegex = false) := by
      rintro ⟨hk, hal⟩
      rcases hr with h | h
      · rw [hal] at h
        cases h
      · simp only [hasKeyFields, Bool.or_eq_false_iff, decide_eq_false_iff_not] at h
        exact h.1.1 (by simpa using hk)
    have hv := reviveDoc_id allowRegex v ha.1 hu.1 hrv
    have hrest := reviveFields_id allowRegex rest ha.2 hu.2 hrrest
    have hparse : jsonQueryParser allowRegex (ReviverKey.field key) v = v := by
      unfold jsonQueryParser
      rw [if_neg hkeep]
      cases v with
      | arr items => simp [hasArrayDoc] at ha
      | _ => rfl
    have hne : v ≠ Doc.undefined := by
      intro h
      rw [h] at hu
      simp [hasUndefinedDoc] at hu
    rw [reviveFields_cons, hv, hparse, hrest, if_neg hne]
end

/-- The walk changes nothing in array elements without arrays inside and
without `undefined`, when `$regex` is allowed or does not occur. -/
theorem reviveItems_id (allowRegex : Bool) :
    ∀ (items : Items) (i : Nat), hasArrayItems items = false →
      hasUndefinedItems items = false →
      (allowRegex = true ∨ hasKeyItems "$regex" items = false) →
      reviveItems allowRegex i items = items
  | Items.nil, _ => by simp [reviveItems]
  | Items.cons d rest, i => by
    intro ha hu hr
    simp only [hasArrayItems, Bool.or_eq_false_iff] at ha
    simp only [hasUndefinedItems, Bool.or_eq_false_iff] at hu
    have hrd : allowRegex = true ∨ hasKeyDoc "$regex" d = false := by
      rcases hr with h | h
      · exact Or.inl h
      · simp only [hasKeyItems, Bool.or_eq_false_iff] at h
        exact Or.inr h.1
    have hrrest : allowRegex = true ∨ hasKeyItems "$regex" rest = false := by
      rcases hr with h | h
      · exact Or.inl h
      · simp only [hasKeyItems, Bool.or_eq_false_iff] at h
        exact Or.inr h.2
    have hd := reviveDoc_id allowRegex d ha.1 hu.1 hrd
    have hrest := reviveItems_id allowRegex rest (i + 1) ha.2 hu.2 hrrest
    have hparse : jsonQueryParser allowRegex (ReviverKey.index i) d = d := by
      unfold jsonQueryParser
      rw [if_neg (by simp)]
      cases d with
      | arr items => simp [hasArrayDoc] at ha
      | _ => rfl
    simp only [reviveItems]
    rw [hd, hparse, hrest]

/-- An object whose first field holds no array is unwrapped field by
field. -/
theorem unwrapDoc_obj (fs : Fields) (h : headArray fs = false) :
    unwrapDoc (Doc.obj fs) = Doc.obj (unwrapFields fs) := by
  cases fs with
  | nil => rfl
  | cons key v rest =>
    cases v with
    | arr items => simp [headArray] at h
    | undefined => rfl
    | null => rfl
    | bool b => rfl
    | num n => rfl
    | str t => rfl
    | obj fields => rfl

/-- In an object whose first field holds no array, every array has been
rewritten when that is so in each field. -/
theorem wrappedDoc_obj (fs : Fields) (h : headArray fs = false) :
    wrappedDoc (Doc.obj fs) = wrappedFields fs := by
  cases fs with
  | nil => rfl
  | cons key v rest =>
    cases v with
    | arr items => simp [headArray] at h
    | undefined => rfl
    | null => rfl
    | bool b => rfl
    | num n => rfl
    | str t => rfl
    | obj fields => rfl

/-- The reviver never answers an array. -/
theorem jsonQueryParser_not_arr (allowRegex : Bool) (key : ReviverKey) (x : Doc)
    (items : Items) : jsonQueryParser allowRegex key x ≠ Doc.arr items := by
  unfold jsonQueryParser
  split
  · simp
  · cases x <;> simp

/-- The walk leaves no array in the first field of an object. -/
theorem headArray_reviveFields (allowRegex : Bool) :
    ∀ fields : Fields, headArray (reviveFields allowRegex fields) = false
  | Fields.nil => by simp [reviveFields, headArray]
  | Fields.cons key v rest => by
    have ih := headArray_reviveFields allowRegex rest
    rw [reviveFields_cons]
    split
    · exact ih
    · cases hnv : jsonQueryParser allowRegex (ReviverKey.field key) (reviveDoc allowRegex v) with
      | arr items => exact absurd hnv (jsonQueryParser_not_arr allowRegex _ _ items)
      | undefined => rfl
      | null => rfl
      | bool b => rfl
      | num n => rfl
      | str t => rfl
      | obj fields => rfl

/-- A wrapper `{ $in: <array> }` counts as rewritten when its elements do. -/
theorem wrappedDoc_wrapper (items : Items) :
    wrappedDoc (Doc.obj (Fields.cons "$in" (Doc.arr items) Fields.nil)) = wrappedItems items := by
  have h : wrappedDoc (Doc.obj (Fields.cons "$in" (Doc.arr items) Fields.nil)) =
      (decide ("$in" = "$in") && wrappedItems items) := rfl
  rw [h]
  simp

/-- A wrapper `{ $in: <array> }` unwraps to the array. -/
theorem unwrapDoc_wrapper (items : Items) :
    unwrapDoc (Doc.obj (Fields.cons "$in" (Doc.arr items) Fields.nil)) =
      Doc.arr (unwrapItems items) := by
  have h : unwrapDoc (Doc.obj (Fields.cons "$in" (Doc.arr items) Fields.nil)) =
      (if "$in" = "$in" then Doc.arr (unwrapItems items)
       else Doc.obj (Fields.cons "$in" (Doc.arr (unwrapItems items)) Fields.nil)) := rfl
  rw [h]
  simp

mutual
/-- What the reviver answers for a walked value has every array rewritten,
for a value. -/
theorem wrapped_reviveDoc (allowRegex : Bool) :
    ∀ (d : Doc) (key : ReviverKey),
      wrappedDoc (jsonQueryParser allowRegex key (reviveDoc allowRegex d)) = true
  | Doc.undefined, key => by
    unfold jsonQueryParser
    split <;> rfl
  | Doc.null, key => by
    unfold jsonQueryParser
    split <;> rfl
  | Doc.bool _, key => by
    unfold jsonQueryParser
    split <;> rfl
  | Doc.num _, key => by
    unfold jsonQueryParser
    split <;> rfl
  | Doc.str _, key => by
    unfold jsonQueryParser
    split <;> rfl
  | Doc.arr items, key => by
    unfold jsonQueryParser
    split
    · rfl
    · simp only [reviveDoc]
      rw [wrappedDoc_wrapper]
      exact wrapped_reviveItems allowRegex items 0
  | Doc.obj fields, key => by
    unfold jsonQueryParser
    split
    · rfl
    · simp only [reviveDoc]
      rw [wrappedDoc_obj _ (headArray_reviveFields allowRegex fields)]
      exact wrapped_reviveFields allowRegex fields
/-- The walk leaves every array rewritten in the elements of an array. -/
theorem wrapped_reviveItems (allowRegex : Bool) :
    ∀ (items : Items) (i : Nat), wrappedItems (reviveItems allowRegex i items) = true
  | Items.nil, _ => by simp [reviveItems, wrappedItems]
  | Items.cons d rest, i => by
    simp only [reviveItems, wrappedItems, Bool.and_eq_true]
    exact ⟨wrapped_reviveDoc allowRegex d _, wrapped_reviveItems allowRegex rest (i + 1)⟩
/-- The walk leaves every array rewritten in the fields of an object. -/
theorem wrapped_reviveFields (allowRegex : Bool) :
    ∀ fields : Fields, wrappedFields (reviveFields allowRegex fields) = true
  | Fields.nil => by simp [reviveFields, wrappedFields]
  | Fields.cons key v rest => by
    have ih := wrapped_reviveFields allowRegex rest
    have hv := wrapped_reviveDoc allowRegex v (ReviverKey.field key)
    rw [reviveFields_cons]
    split
    · exact ih
    · simp only [wrappedFields, Bool.and_eq_true]
      exact ⟨hv, ih⟩
end

/-- For a key that is not stripped, what the reviver answers unwraps to what
the value unwraps to. -/
theorem unwrapDoc_jsonQueryParser (allowRegex : Bool) (key : ReviverKey) (x : Doc)
    (hkeep : ¬ (key = ReviverKey.field "$regex" ∧ allowRegex = false)) :
    unwrapDoc (jsonQueryParser allowRegex key x) = unwrapDoc x := by
  unfold jsonQueryParser
  rw [if_neg hkeep]
  cases x with
  | arr items =>
    simp only []
    rw [unwrapDoc_wrapper]
    rfl
  | _ => rfl

/-- For a key that is not stripped, the reviver answers `undefined` only for
the value `undefined`. -/
theorem jsonQueryParser_ne_undefined (allowRegex : Bool) (key : ReviverKey) (v : Doc)
    (hkeep : ¬ (key = ReviverKey.field "$regex" ∧ allowRegex = false))
    (hv : v ≠ Doc.undefined) :
    jsonQueryParser allowRegex key (reviveDoc allowRegex v) ≠ Doc.undefined := by
  unfold jsonQueryParser
  rw [if_neg hkeep]
  cases v with
  | undefined => exact absurd rfl hv
  | _ => simp [reviveDoc]

mutual
/-- Unwrapping the walked value gives the value with `$regex` stripped, for a
value without `undefined`. -/
theorem unwrap_reviveDoc (allowRegex : Bool) :
    ∀ d : Doc, hasUndefinedDoc d = false →
      unwrapDoc (reviveDoc allowRegex d) = stripDoc allowRegex d
  | Doc.undefined => by simp [hasUndefinedDoc]
  | Doc.null => by intro _; rfl
  | Doc.bool _ => by intro _; rfl
  | Doc.num _ => by intro _; rfl
  | Doc.str _ => by intro _; rfl
  | Doc.arr items => by
    intro hu
    simp only [hasUndefinedDoc] at hu
    simp only [reviveDoc, stripDoc]
    have h : unwrapDoc (Doc.arr (reviveItems allowRegex 0 items)) =
        Doc.arr (unwrapItems (reviveItems allowRegex 0 items)) := rfl
    rw [h, unwrap_reviveItems allowRegex items 0 hu]
  | Doc.obj fields => by
    intro hu
    simp only [hasUndefinedDoc] at hu
    simp only [reviveDoc, stripDoc]
    rw [unwrapDoc_obj _ (headArray_reviveFields allowRegex fields),
      unwrap_reviveFields allowRegex fields hu]
/-- Unwrapping the walked elements of an array. -/
theorem unwrap_reviveItems (allowRegex : Bool) :
    ∀ (items : Items) (i : Nat), hasUndefinedItems items = false →
      unwrapItems (reviveItems allowRegex i items) = stripItems allowRegex items
  | Items.nil, _ => by intro _; rfl
  | Items.cons d rest, i => by
    intro hu
    simp only [hasUndefinedItems, Bool.or_eq_false_iff] at hu
    simp only [reviveItems, unwrapItems, stripItems]
    rw [unwrapDoc_jsonQueryParser allowRegex _ _ (by simp),
      unwrap_reviveDoc allowRegex d hu.1, unwrap_reviveItems allowRegex rest (i + 1) hu.2]
/-- Unwrapping the walked fields of an object. -/
theorem unwrap_reviveFields (allowRegex : Bool) :
    ∀ fields : Fields, hasUndefinedFields fields = false →
      unwrapFields (reviveFields allowRegex fields) = stripFields allowRegex fields
  | Fields.nil => by intro _; rfl
  | Fields.cons key v rest => by
    intro hu
    simp only [hasUndefinedFields, Bool.or_eq_false_iff] at hu
    have ih := unwrap_reviveFields allowRegex rest hu.2
    have hv := unwrap_reviveDoc allowRegex v hu.1
    have hne : v ≠ Doc.undefined := by
      intro h
      rw [h] at hu
      simp [hasUndefinedDoc] at hu
    rw [reviveFields_cons]
    by_cases hstrip : key = "$regex" ∧ allowRegex = false
    · have hund : jsonQueryParser allowRegex (ReviverKey.field key) (reviveDoc allowRegex v) =
          Doc.undefined := by
        simp [jsonQueryParser, hstrip.1, hstrip.2]
      rw [if_pos hund, ih]
      simp only [stripFields, if_pos hstrip]
    · have hkeep : ¬ (ReviverKey.field key = ReviverKey.field "$regex" ∧
          allowRegex = false) := by
        rintro ⟨hk, hal⟩
        exact hstrip ⟨by simpa using hk, hal⟩
      rw [if_neg (jsonQueryParser_ne_undefined allowRegex _ v hkeep hne)]
      simp only [unwrapFields, stripFields, if_neg hstrip]
      rw [unwrapDoc_jsonQueryParser allowRegex _ _ hkeep, hv, ih]
end

mutual
/-- With `allowRegex` true nothing is stripped, for a value. -/
theorem stripDoc_true : ∀ d : Doc, stripDoc true d = d
  | Doc.undefined => rfl
  | Doc.null => rfl
  | Doc.bool _ => rfl
  | Doc.num _ => rfl
  | Doc.str _ => rfl
  | Doc.arr items => by
    simp only [stripDoc]
    rw [stripItems_true items]
  | Doc.obj fields => by
    simp only [stripDoc]
    rw [stripFields_true fields]
/-- With `allowRegex` true nothing is stripped, for array elements. -/
theorem stripItems_true : ∀ items : Items, stripItems true items = items
  | Items.nil => rfl
  | Items.cons d rest => by
    simp only [stripItems]
    rw [stripDoc_true d, stripItems_true rest]
/-- With `allowRegex` true nothing is stripped, for object fields. -/
theorem stripFields_true : ∀ fields : Fields, stripFields true fields = fields
  | Fields.nil => rfl
  | Fields.cons key v rest => by
    simp only [stripFields]
    rw [stripDoc_true v, stripFields_true rest]
    simp
end

mutual
/-- What the reviver answers for a walked value, under a key that is not
stripped, is the value with `$regex` stripped and every array replaced by
`{ $in: <array> }`. -/
theorem wrap_reviveDoc (allowRegex : Bool) :
    ∀ (d : Doc) (key : ReviverKey), hasUndefinedDoc d = false →
      ¬ (key = ReviverKey.field "$regex" ∧ allowRegex = false) →
      jsonQueryParser allowRegex key (reviveDoc allowRegex d) =
        wrapDoc (stripDoc allowRegex d)
  | Doc.undefined, _ => by simp [hasUndefinedDoc]
  | Doc.null, key => by
    intro _ hkeep
    unfold jsonQueryParser
    rw [if_neg hkeep]
    rfl
  | Doc.bool _, key => by
    intro _ hkeep
    unfold jsonQueryParser
    rw [if_neg hkeep]
    rfl
  | Doc.num _, key => by
    intro _ hkeep
    unfold jsonQueryParser
    rw [if_neg hkeep]
    rfl
  | Doc.str _, key => by
    intro _ hkeep
    unfold jsonQueryParser
    rw [if_neg hkeep]
    rfl
  | Doc.arr items, key => by
    intro hu hkeep
    simp only [hasUndefinedDoc] at hu
    unfold jsonQueryParser
    rw [if_neg hkeep]
    simp only [reviveDoc, stripDoc, wrapDoc]
    rw [wrap_reviveItems allowRegex items 0 hu]
  | Doc.obj fields, key => by
    intro hu hkeep
    simp only [hasUndefinedDoc] at hu
    unfold jsonQueryParser
    rw [if_neg hkeep]
    simp only [reviveDoc, stripDoc, wrapDoc]
    rw [wrap_reviveFields allowRegex fields hu]
/-- The walked elements of an array are the elements with `$regex` stripped
and every array replaced. -/
theorem wrap_reviveItems (allowRegex : Bool) :
    ∀ (items : Items) (i : Nat), hasUndefinedItems items = false →
      reviveItems allowRegex i items = wrapItems (stripItems allowRegex items)
  | Items.nil, _ => by intro _; rfl
  | Items.cons d rest, i => by
    intro hu
    simp only [hasUndefinedItems, Bool.or_eq_false_iff] at hu
    simp only [reviveItems, stripItems, wrapItems]
    rw [wrap_reviveDoc allowRegex d (ReviverKey.index i) hu.1 (by simp),
      wrap_reviveItems allowRegex rest (i + 1) hu.2]
/-- The walked fields of an object are the fields with `$regex` stripped and
every array replaced. -/
theorem wrap_reviveFields (allowRegex : Bool) :
    ∀ fields : Fields, hasUndefinedFields fields = false →
      reviveFields allowRegex fields = wrapFields (stripFields allowRegex fields)
  | Fields.nil => by intro _; rfl
  | Fields.cons key v rest => by
    intro hu
    simp only [hasUndefinedFields, Bool.or_eq_false_iff] at hu
    have ih := wrap_reviveFields allowRegex rest hu.2
    have hne : v ≠ Doc.undefined := by
      intro h
      rw [h] at hu
      simp [hasUndefinedDoc] at hu
    rw [reviveFields_cons]
    by_cases hstrip : key = "$regex" ∧ allowRegex = false
    · have hund : jsonQueryParser allowRegex (ReviverKey.field key) (reviveDoc allowRegex v) =
          Doc.undefined := by
        simp [jsonQueryParser, hstrip.1, hstrip.2]
      rw [if_pos hund, ih]
      simp only [stripFields, if_pos hstrip]
    · have hkeep : ¬ (ReviverKey.field key = ReviverKey.field "$regex" ∧
          allowRegex = false) := by
        rintro ⟨hk, hal⟩
        exact hstrip ⟨by simpa using hk, hal⟩
      rw [if_neg (jsonQueryParser_ne_undefined allowRegex _ v hkeep hne)]
      simp only [stripFields, if_neg hstrip, wrapFields]
      rw [wrap_reviveDoc allowRegex v (ReviverKey.field key) hu.1 hkeep, ih]
end

/-- C23: the query parameter, a JSON text that `JSON.parse` reads as `root`,
parses to `root` with every array `v` inside it, at any depth (below nested
objects and inside array elements, the root included), replaced by
`{ $in: v }` and, when `allowRegex` is false, every field named `$regex`
deleted from the object that held it (`wrapDoc (stripDoc allowRegex root)`).
Said without the closed form: in the parsed query no array is left except
as the single field `$in` of a wrapper, putting the arrays back in place of
the wrappers gives `root` with `$regex` stripped, with `allowRegex` true
nothing is stripped, and with `allowRegex` false no field named `$regex` is
left anywhere. In one step of the walk a field whose value is an array
becomes `{ $in: v }` with the elements of `v` revived, and a field named
`$regex` is deleted from its parent. With `allowRegex` true a query without
arrays parses to what `JSON.parse` gives. The two examples of the
specification and an example with arrays and `$regex` inside an array
element evaluate as stated. -/
theorem parseJsonQuery_reviver (parse : String → Option Doc) :
    (∀ (allowRegex : Bool) (text : String) (root : Doc), parse text = some root →
      hasUndefinedDoc root = false →
      parseJsonQuery parse allowRegex text =
        Except.ok (wrapDoc (stripDoc allowRegex root))) ∧
    (∀ (allowRegex : Bool) (text : String) (root : Doc), parse text = some root →
      ∃ q : Doc, parseJsonQuery parse allowRegex text = Except.ok q ∧
        wrappedDoc q = true ∧
        (hasUndefinedDoc root = false → unwrapDoc q = stripDoc allowRegex root)) ∧
    (∀ d : Doc, stripDoc true d = d) ∧
    (∀ (allowRegex : Bool) (key : String) (items : Items) (rest : Fields),
      ¬ (key = "$regex" ∧ allowRegex = false) →
      reviveFields allowRegex (Fields.cons key (Doc.arr items) rest) =
        Fields.cons key
          (Doc.obj (Fields.cons "$in" (Doc.arr (reviveItems allowRegex 0 items)) Fields.nil))
          (reviveFields allowRegex rest)) ∧
    (∀ (allowRegex : Bool) (key : String) (items : Items) (rest : Fields),
      ¬ (key = "$regex" ∧ allowRegex = false) → hasArrayItems items = false →
      hasUndefinedItems items = false →
      (allowRegex = true ∨ hasKeyItems "$regex" items = false) →
      reviveFields allowRegex (Fields.cons key (Doc.arr items) rest) =
        Fields.cons key (Doc.obj (Fields.cons "$in" (Doc.arr items) Fields.nil))
          (reviveFields allowRegex rest)) ∧
    (∀ (v : Doc) (rest : Fields),
      reviveFields false (Fields.cons "$regex" v rest) = reviveFields false rest) ∧
    (∀ (text : String) (root : Doc), parse text = some root →
      ∃ q : Doc, parseJsonQuery parse false text = Except.ok q ∧
        hasKeyDoc "$regex" q = false) ∧
    (∀ (text : String) (root : Doc), parse text = some root → hasArrayDoc root = false →
      hasUndefinedDoc root = false → parseJsonQuery parse true text = Except.ok root) ∧
    parseJsonQuery parseExamples false textFooRegex =
      Except.ok (docFoo (Doc.obj Fields.nil)) ∧
    parseJsonQuery parseExamples true textFooArray =
      Except.ok (docFoo (Doc.obj (Fields.cons "$in" (Doc.arr itemsBar) Fields.nil))) ∧
    parseJsonQuery parseExamples true textFooBar =
      Except.ok (docFoo (Doc.str "bar")) ∧
    parseJsonQuery parseExamples false textNested =
      Except.ok (docNestedParsed (Doc.obj Fields.nil)) ∧
    parseJsonQuery parseExamples true textNested =
      Except.ok (docNestedParsed
        (Doc.obj (Fields.cons "$regex" (Doc.str "x") Fields.nil))) := by
  have hwrap : ∀ (allowRegex : Bool) (key : String) (items : Items) (rest : Fields),
      ¬ (key = "$regex" ∧ allowRegex = false) →
      reviveFields allowRegex (Fields.cons key (Doc.arr items) rest) =
        Fields.cons key
          (Doc.obj (Fields.cons "$in" (Doc.arr (reviveItems allowRegex 0 items)) Fields.nil))
          (reviveFields allowRegex rest) := by
    intro allowRegex key items rest hkeep
    have hkeep2 : ¬ (ReviverKey.field key = ReviverKey.field "$regex" ∧ allowRegex = false) := by
      rintro ⟨hk, hal⟩
      exact hkeep ⟨by simpa using hk, hal⟩
    rw [reviveFields_cons]
    simp only [reviveDoc, jsonQueryParser, if_neg hkeep2]
    simp
  have hroot : ∀ allowRegex : Bool,
      ¬ (ReviverKey.field "" = ReviverKey.field "$regex" ∧ allowRegex = false) := by
    intro allowRegex
    simp
  refine ⟨?_, ?_, stripDoc_true, hwrap, ?_, ?_, ?_, ?_, by decide, by decide, by decide,
    by decide, by decide⟩
  · intro allowRegex text root hparse hu
    simp only [parseJsonQuery, hparse]
    rw [wrap_reviveDoc allowRegex root _ hu (hroot allowRegex)]
  · intro allowRegex text root hparse
    refine ⟨jsonQueryParser allowRegex (ReviverKey.field "") (reviveDoc allowRegex root),
      ?_, wrapped_reviveDoc allowRegex root _, ?_⟩
    · simp only [parseJsonQuery, hparse]
    · intro hu
      rw [unwrapDoc_jsonQueryParser allowRegex _ _ (hroot allowRegex),
        unwrap_reviveDoc allowRegex root hu]
  · intro allowRegex key items rest hkeep ha hu hr
    rw [hwrap allowRegex key items rest hkeep, reviveItems_id allowRegex items 0 ha hu hr]
  · intro v rest
    rw [reviveFields_cons]
    simp [jsonQueryParser]
  · intro text root hparse
    refine ⟨jsonQueryParser false (ReviverKey.field "") (reviveDoc false root), ?_, ?_⟩
    · simp only [parseJsonQuery, hparse]
    · exact jsonQueryParser_no_regex false _ _ (reviveDoc_no_regex root)
  · intro text root hparse ha hu
    simp only [parseJsonQuery, hparse]
    rw [reviveDoc_id true root ha hu (Or.inl rfl)]
    unfold jsonQueryParser
    rw [if_neg (by simp)]
    cases root with
    | arr items => simp [hasArrayDoc] at ha
    | _ => rfl

/-! ## prepareQuery: populate and select -/

/-- The descriptors carry the populated paths in order. -/
theorem attachSelect_paths (paths : List String) :
    ∀ select : List (String × Doc),
      (attachSelect paths select).1.map (fun desc => desc.path) = paths.map some := by
  induction paths with
  | nil => intro select; simp [attachSelect]
  | cons p ps ih =>
    intro select
    simp [attachSelect, ih]

/-- What is left of the select mapping is the entries scoped under none of
the populated paths. -/
theorem attachSelect_left (paths : List String) :
    ∀ select : List (String × Doc),
      (attachSelect paths select).2 =
        select.filter (fun e => paths.all (fun p => !isScopedUnder p e.1)) := by
  induction paths with
  | nil => intro select; simp [attachSelect]
  | cons p ps ih =>
    intro select
    simp only [attachSelect, ih, List.filter_filter, List.all_cons]
    congr 1
    funext e
    exact Bool.and_comm _ _

/-- The descriptor of a populated path takes the entries scoped under it
that the paths before it have left. -/
theorem attachSelect_at (listedBefore : List String) (p : String)
    (listedAfter : List String) :
    ∀ select : List (String × Doc),
      (attachSelect (listedBefore ++ p :: listedAfter) select).1[listedBefore.length]? =
        some { path := some p,
               select := attachedSelect p
                 (select.filter
                   (fun e => listedBefore.all (fun b => !isScopedUnder b e.1))) } := by
  induction listedBefore with
  | nil => intro select; simp [attachSelect]
  | cons b bs ih =>
    intro select
    have h := ih (select.filter (fun e => !isScopedUnder b e.1))
    rw [List.filter_filter] at h
    have hf : (fun e : String × Doc =>
          (bs.all fun x => !isScopedUnder x e.1) && !isScopedUnder b e.1) =
        (fun e => (b :: bs).all (fun x => !isScopedUnder x e.1)) := by
      funext e
      simp [List.all_cons, Bool.and_comm]
    rw [hf] at h
    simpa [attachSelect] using h

/-- C24: for a populate string that is a comma-separated list of paths (not
the JSON text of an object or an array) and a select string of either form,
comma-separated or a JSON object, read as the mapping `parseSelect`: the
descriptors carry the comma-separated paths in the same order, also when no
select is given; no key scoped under a populated path is left in the
top-level select, which keeps exactly the entries scoped under none of
them; and the descriptor of each path has as its select string the fields
of the entries scoped under it (those that the paths before it have left),
joined by spaces in the order of the request. A JSON-object select is the
mapping it spells, and a comma-separated one maps each piece to 1, or to 0
after a leading `-`. The example of the specification evaluates as stated,
and so does the same request with the select given as a JSON object. -/
theorem parseSelectPopulate_scoped (parse : String → Option Doc) (select populate : String)
    (hlist : jsonPopulate parse populate = none) :
    (parseSelectPopulate parse (some select) (some populate)).populate.map
        (fun descs => descs.map (fun desc => desc.path)) =
      some ((splitComma populate).map some) ∧
    (parseSelectPopulate parse none (some populate)).populate.map
        (fun descs => descs.map (fun desc => desc.path)) =
      some ((splitComma populate).map some) ∧
    (∀ p ∈ splitComma populate,
      ∀ e ∈ ((parseSelectPopulate parse (some select) (some populate)).select).getD [],
        isScopedUnder p e.1 = false) ∧
    ((parseSelectPopulate parse (some select) (some populate)).select).getD [] =
      (parseSelect parse select).filter
        (fun e => (splitComma populate).all (fun p => !isScopedUnder p e.1)) ∧
    (∀ (listedBefore : List String) (p : String) (listedAfter : List String),
      splitComma populate = listedBefore ++ p :: listedAfter →
      ∃ descs : List Populate,
        (parseSelectPopulate parse (some select) (some populate)).populate = some descs ∧
        descs[listedBefore.length]? =
          some { path := some p,
                 select := attachedSelect p
                   ((parseSelect parse select).filter
                     (fun e => listedBefore.all (fun b => !isScopedUnder b e.1))) }) ∧
    (∀ fields : Fields, parse select = some (Doc.obj fields) →
      parseSelect parse select = fieldList fields) ∧
    (parse select = none → parseSelect parse select = splitSelect select) ∧
    splitSelect "foo,-bar,baz.qux" =
      [("foo", Doc.num 1), ("bar", Doc.num 0), ("baz.qux", Doc.num 1)] ∧
    parseSelectPopulate parseParamExamples (some "foo.bar,foo.baz") (some "foo") =
      { select := none,
        populate := some [{ path := some "foo", select := some "bar baz" }] } ∧
    parseSelectPopulate parseParamExamples none (some "foo,bar") =
      { select := none,
        populate := some [{ path := some "foo" }, { path := some "bar" }] } ∧
    parseSelectPopulate parseParamExamples (some textSelectObject) (some "foo") =
      { select := some [("baz", Doc.num 0)],
        populate := some [{ path := some "foo", select := some "bar" }] } ∧
    parseSelectPopulate parseParamExamples (some "amount,-customer._id,customer.name")
        (some "customer") =
      { select := some [("amount", Doc.num 1)],
        populate := some [{ path := some "customer", select := some "-_id name" }] } := by
  have hleft : ((parseSelectPopulate parse (some select) (some populate)).select).getD [] =
      (parseSelect parse select).filter
        (fun e => (splitComma populate).all (fun p => !isScopedUnder p e.1)) := by
    simp only [parseSelectPopulate, hlist]
    rw [← attachSelect_left]
    cases (attachSelect (splitComma populate) (parseSelect parse select)).2 <;> simp
  refine ⟨?_, ?_, ?_, hleft, ?_, ?_, ?_, by decide, by decide, by decide, by decide,
    by decide⟩
  · simp [parseSelectPopulate, hlist, attachSelect_paths]
  · simp [parseSelectPopulate, hlist, attachSelect_paths]
  · intro p hp e he
    rw [hleft] at he
    have hall := (List.mem_filter.1 he).2
    have hp2 := List.all_eq_true.1 hall p hp
    simpa using hp2
  · intro listedBefore p listedAfter hsplit
    refine ⟨(attachSelect (splitComma populate) (parseSelect parse select)).1, ?_, ?_⟩
    · simp [parseSelectPopulate, hlist]
    · rw [hsplit]
      exact attachSelect_at listedBefore p listedAfter (parseSelect parse select)
  · intro fields hobj
    simp only [parseSelect, hobj]
  · intro hnone
    simp only [parseSelect, hnone]

/-- Witness of C24: the request of the specification, populate `foo` with
the select `foo.bar,foo.baz`; neither string is JSON. -/
theorem parseSelectPopulate_scoped_witness :
    jsonPopulate parseParamExamples "foo" = none ∧
    ((parseSelectPopulate parseParamExamples (some "foo.bar,foo.baz")
        (some "foo")).select).getD [] =
      (parseSelect parseParamExamples "foo.bar,foo.baz").filter
        (fun e => (splitComma "foo").all (fun p => !isScopedUnder p e.1)) :=
  ⟨by decide,
    (parseSelectPopulate_scoped parseParamExamples "foo.bar,foo.baz" "foo"
      (by decide)).2.2.2.1⟩

/-! ## buildQuery -/

/-- With distinct set, the build is the filter, if any, followed by
distinct. -/
theorem buildQuery_distinct_calls (coerce : Doc → Option Int) (staticOptions : StaticOptions)
    (plan : Plan) (queryOptions : QueryOptions) (field : String)
    (hd : queryOptions.distinct = some field) :
    buildQuery coerce staticOptions plan queryOptions =
      { calls := callIfPresent PlanCall.filter queryOptions.query ++
          [PlanCall.distinct field],
        result := Except.ok plan } := by
  simp [buildQuery, hd]

/-- On a count plan without distinct, the build is the filter, select and
populate, each if present. -/
theorem buildQuery_count_calls (coerce : Doc → Option Int) (staticOptions : StaticOptions)
    (plan : Plan) (queryOptions : QueryOptions)
    (hcount : plan.op = some "count") (hd : queryOptions.distinct = none) :
    buildQuery coerce staticOptions plan queryOptions =
      { calls := callIfPresent PlanCall.filter queryOptions.query ++
          (callIfPresent PlanCall.select queryOptions.select ++
            callIfPresent PlanCall.populate queryOptions.populate),
        result := Except.ok plan } := by
  simp [buildQuery, hcount, hd]

/-- A skip that is absent or numeric is applied when it is present. -/
theorem skipCalls_numeric (coerce : Doc → Option Int) (skip : Option Doc)
    (hskip : ∀ k : Doc, skip = some k → ∃ m : Int, coerce k = some m) :
    skipCalls coerce skip = Except.ok (callIfPresent PlanCall.skip (skip.bind coerce)) := by
  cases skip with
  | none => rfl
  | some k =>
    obtain ⟨m, hm⟩ := hskip k rfl
    simp [skipCalls, hm, callIfPresent]

/-- On a plan that is neither a count nor a distinct operation, with a
numeric limit and a skip that is absent or numeric, the build is the
filter, sort, skip, the resolved limit, select and populate, each if
present. -/
theorem buildQuery_numeric_calls (coerce : Doc → Option Int) (staticOptions : StaticOptions)
    (plan : Plan) (queryOptions : QueryOptions) (l : Doc) (n : Int)
    (hcount : plan.op ≠ some "count") (hd : queryOptions.distinct = none)
    (hl : queryOptions.limit = some l) (hn : coerce l = some n)
    (hskip : ∀ k : Doc, queryOptions.skip = some k → ∃ m : Int, coerce k = some m) :
    buildQuery coerce staticOptions plan queryOptions =
      { calls := callIfPresent PlanCall.filter queryOptions.query ++
          callIfPresent PlanCall.sort queryOptions.sort ++
          callIfPresent PlanCall.skip (queryOptions.skip.bind coerce) ++
          callIfPresent PlanCall.limit (resolveLimit staticOptions.limit (some n)) ++
          (callIfPresent PlanCall.select queryOptions.select ++
            callIfPresent PlanCall.populate queryOptions.populate),
        result := Except.ok plan } := by
  simp [buildQuery, hd, hcount, skipCalls_numeric coerce queryOptions.skip hskip, limitCalls,
    hl, hn]

/-- Among the operations of a build that went through, limit is the one of
the limit rule. -/
theorem isLimit_calls (queryOptions : QueryOptions) (skip lim : Option Int) :
    (callIfPresent PlanCall.filter queryOptions.query ++
        callIfPresent PlanCall.sort queryOptions.sort ++
        callIfPresent PlanCall.skip skip ++
        callIfPresent PlanCall.limit lim ++
        (callIfPresent PlanCall.select queryOptions.select ++
          callIfPresent PlanCall.populate queryOptions.populate)).filter PlanCall.isLimit =
      callIfPresent PlanCall.limit lim := by
  cases queryOptions.query <;> cases queryOptions.sort <;> cases skip <;>
    cases queryOptions.select <;> cases queryOptions.populate <;> cases lim <;>
    simp [callIfPresent, PlanCall.isLimit]

/-- C25: when distinct is set in the request options, whatever the static
options (a configured limit included) and the other request options, the
build invokes the filter, if a query is present, and then distinct on
that field, and nothing else: none of sort, skip, limit, select and
populate; it does not fail and hands back the same plan. -/
theorem buildQuery_distinct_only (coerce : Doc → Option Int) (staticOptions : StaticOptions)
    (plan : Plan) (queryOptions : QueryOptions) (field : String)
    (hd : queryOptions.distinct = some field) :
    buildQuery coerce staticOptions plan queryOptions =
      { calls := callIfPresent PlanCall.filter queryOptions.query ++
          [PlanCall.distinct field],
        result := Except.ok plan } ∧
    (buildQuery coerce staticOptions plan queryOptions).calls.filter PlanCall.isPaging = [] ∧
    PlanCall.distinct field ∈ (buildQuery coerce staticOptions plan queryOptions).calls := by
  have hrun := buildQuery_distinct_calls coerce staticOptions plan queryOptions field hd
  rw [hrun]
  refine ⟨rfl, ?_, by simp⟩
  cases queryOptions.query <;> simp [callIfPresent, PlanCall.isPaging]

/-- Witness of C25: static limit 1 and the request options
`{ distinct: 'name' }`, as in the unit test. -/
theorem buildQuery_distinct_only_witness :
    buildQuery coerceDecimal { limit := some 1 } planFind { distinct := some "name" } =
      { calls := [PlanCall.distinct "name"], result := Except.ok planFind } :=
  (buildQuery_distinct_only coerceDecimal { limit := some 1 } planFind
    { distinct := some "name" } "name" rfl).1

/-- C26, as stated, fails on the numbered order of the specification: on a
find plan, the request options `{ query, sort, limit: 'foo' }` fail with
`invalid_limit_value` after the filter and sort were invoked on the plan,
and the request options `{ skip: 'bar', limit: 'foo' }` fail with
`invalid_skip_value`, the skip rule coming before the limit rule. -/
theorem buildQuery_invalid_limit_counterexample :
    planFind.op ≠ some "count" ∧
    coerceDecimal (Doc.str "foo") = none ∧
    buildQuery coerceDecimal { } planFind
        { query := some (docFoo (Doc.str "bar")), sort := some (Doc.str "name"),
          limit := some (Doc.str "foo") } =
      { calls := [PlanCall.filter (docFoo (Doc.str "bar")), PlanCall.sort (Doc.str "name")],
        result := Except.error "invalid_limit_value" } ∧
    buildQuery coerceDecimal { } planFind
        { skip := some (Doc.str "bar"), limit := some (Doc.str "foo") } =
      { calls := [], result := Except.error "invalid_skip_value" } := by
  decide

/-- C26, amended: on a plan that is neither a count nor a distinct
operation, with a request-supplied limit that is not numeric, the build
fails, and none of limit, select and populate is invoked on the plan. When
the request-supplied skip is absent or numeric the error is
`invalid_limit_value`, and the operations invoked are those of the steps
before the limit rule: the filter, sort and skip, each if present, in that
order; so no operation at all is invoked when query, sort and skip are
absent. When the request-supplied skip is not numeric the error is
`invalid_skip_value`, after the filter and sort. -/
theorem buildQuery_invalid_limit (coerce : Doc → Option Int) (staticOptions : StaticOptions)
    (plan : Plan) (queryOptions : QueryOptions) (l : Doc)
    (hcount : plan.op ≠ some "count") (hd : queryOptions.distinct = none)
    (hl : queryOptions.limit = some l) (hbad : coerce l = none) :
    ((∀ k : Doc, queryOptions.skip = some k → ∃ m : Int, coerce k = some m) →
      buildQuery coerce staticOptions plan queryOptions =
        { calls := callIfPresent PlanCall.filter queryOptions.query ++
            callIfPresent PlanCall.sort queryOptions.sort ++
            callIfPresent PlanCall.skip (queryOptions.skip.bind coerce),
          result := Except.error "invalid_limit_value" }) ∧
    (queryOptions.query = none → queryOptions.sort = none → queryOptions.skip = none →
      buildQuery coerce staticOptions plan queryOptions =
        { calls := [], result := Except.error "invalid_limit_value" }) ∧
    (∀ k : Doc, queryOptions.skip = some k → coerce k = none →
      buildQuery coerce staticOptions plan queryOptions =
        { calls := callIfPresent PlanCall.filter queryOptions.query ++
            callIfPresent PlanCall.sort queryOptions.sort,
          result := Except.error "invalid_skip_value" }) ∧
    (∃ e : String,
      (buildQuery coerce staticOptions plan queryOptions).result = Except.error e) ∧
    (buildQuery coerce staticOptions plan queryOptions).calls.filter
      PlanCall.isLimitOrLater = [] := by
  have hnum : (∀ k : Doc, queryOptions.skip = some k → ∃ m : Int, coerce k = some m) →
      buildQuery coerce staticOptions plan queryOptions =
        { calls := callIfPresent PlanCall.filter queryOptions.query ++
            callIfPresent PlanCall.sort queryOptions.sort ++
            callIfPresent PlanCall.skip (queryOptions.skip.bind coerce),
          result := Except.error "invalid_limit_value" } := by
    intro hskip
    simp [buildQuery, hd, hcount, skipCalls_numeric coerce queryOptions.skip hskip,
      limitCalls, hl, hbad]
  have hbadskip : ∀ k : Doc, queryOptions.skip = some k → coerce k = none →
      buildQuery coerce staticOptions plan queryOptions =
        { calls := callIfPresent PlanCall.filter queryOptions.query ++
            callIfPresent PlanCall.sort queryOptions.sort,
          result := Except.error "invalid_skip_value" } := by
    intro k hk hkbad
    simp [buildQuery, hd, hcount, skipCalls, hk, hkbad]
  have hcases : (∀ k : Doc, queryOptions.skip = some k → ∃ m : Int, coerce k = some m) ∨
      ∃ k : Doc, queryOptions.skip = some k ∧ coerce k = none := by
    cases hk : queryOptions.skip with
    | none => exact Or.inl (by intro k h; cases h)
    | some k =>
      cases hc : coerce k with
      | none => exact Or.inr ⟨k, rfl, hc⟩
      | some m =>
        refine Or.inl ?_
        intro k2 h2
        cases h2
        exact ⟨m, hc⟩
  refine ⟨hnum, ?_, hbadskip, ?_, ?_⟩
  · intro hq hs hk
    have h := hnum (by intro k h; rw [hk] at h; cases h)
    rw [h, hq, hs, hk]
    rfl
  · rcases hcases with hskip | ⟨k, hk, hkbad⟩
    · exact ⟨"invalid_limit_value", by rw [hnum hskip]⟩
    · exact ⟨"invalid_skip_value", by rw [hbadskip k hk hkbad]⟩
  · rcases hcases with hskip | ⟨k, hk, hkbad⟩
    · rw [hnum hskip]
      cases queryOptions.query <;> cases queryOptions.sort <;>
        cases queryOptions.skip.bind coerce <;>
        simp [callIfPresent, PlanCall.isLimitOrLater]
    · rw [hbadskip k hk hkbad]
      cases queryOptions.query <;> cases queryOptions.sort <;>
        simp [callIfPresent, PlanCall.isLimitOrLater]

/-- Witness of C26: the request options `{ limit: 'foo' }` on a find plan,
where no operation is invoked, and `{ query, skip: '1', limit: 'foo' }`,
where the filter and skip are. -/
theorem buildQuery_invalid_limit_witness :
    coerceDecimal (Doc.str "foo") = none ∧
    buildQuery coerceDecimal { } planFind { limit := some (Doc.str "foo") } =
      { calls := [], result := Except.error "invalid_limit_value" } ∧
    buildQuery coerceDecimal { limit := some 1 } planFind
        { query := some (docFoo (Doc.str "bar")), skip := some (Doc.str "1"),
          limit := some (Doc.str "foo") } =
      { calls := [PlanCall.filter (docFoo (Doc.str "bar")), PlanCall.skip 1],
        result := Except.error "invalid_limit_value" } :=
  ⟨by decide,
    (buildQuery_invalid_limit coerceDecimal { } planFind { limit := some (Doc.str "foo") }
      (Doc.str "foo") (by decide) rfl rfl (by decide)).2.1 rfl rfl rfl,
    (buildQuery_invalid_limit coerceDecimal { limit := some 1 } planFind
      { query := some (docFoo (Doc.str "bar")), skip := some (Doc.str "1"),
        limit := some (Doc.str "foo") }
      (Doc.str "foo") (by decide) rfl rfl (by decide)).1
        (by
          intro k hk
          cases hk
          exact ⟨1, by decide⟩)⟩

/-- C27: on a plan that is neither a count nor a distinct operation, in a
build that does not fail (the request-supplied limit is numeric, the skip
is absent or numeric): when the request-supplied limit exceeds the static
limit, limit is invoked exactly once, with the static limit; when no static
limit is configured, limit is invoked exactly once, with the
request-supplied limit. On a count plan limit is never invoked, with or
without a static limit. -/
theorem buildQuery_limit_cap (coerce : Doc → Option Int) (staticOptions : StaticOptions)
    (plan : Plan) (queryOptions : QueryOptions) :
    (∀ (l : Doc) (n cap : Int), plan.op ≠ some "count" → queryOptions.distinct = none →
      queryOptions.limit = some l → coerce l = some n →
      (∀ k : Doc, queryOptions.skip = some k → ∃ m : Int, coerce k = some m) →
      staticOptions.limit = some cap → n > cap →
      (buildQuery coerce staticOptions plan queryOptions).calls.filter PlanCall.isLimit =
        [PlanCall.limit cap] ∧
      (buildQuery coerce staticOptions plan queryOptions).result = Except.ok plan) ∧
    (∀ (l : Doc) (n : Int), plan.op ≠ some "count" → queryOptions.distinct = none →
      queryOptions.limit = some l → coerce l = some n →
      (∀ k : Doc, queryOptions.skip = some k → ∃ m : Int, coerce k = some m) →
      staticOptions.limit = none →
      (buildQuery coerce staticOptions plan queryOptions).calls.filter PlanCall.isLimit =
        [PlanCall.limit n] ∧
      (buildQuery coerce staticOptions plan queryOptions).result = Except.ok plan) ∧
    (plan.op = some "count" →
      (buildQuery coerce staticOptions plan queryOptions).calls.filter PlanCall.isLimit = [] ∧
      (buildQuery coerce staticOptions plan queryOptions).result = Except.ok plan) := by
  refine ⟨?_, ?_, ?_⟩
  · intro l n cap hcount hd hl hn hskip hcap hgt
    rw [buildQuery_numeric_calls coerce staticOptions plan queryOptions l n hcount hd hl hn
      hskip]
    refine ⟨?_, rfl⟩
    rw [isLimit_calls]
    simp [hcap, resolveLimit, hgt, callIfPresent]
  · intro l n hcount hd hl hn hskip hcap
    rw [buildQuery_numeric_calls coerce staticOptions plan queryOptions l n hcount hd hl hn
      hskip]
    refine ⟨?_, rfl⟩
    rw [isLimit_calls]
    simp [hcap, resolveLimit, callIfPresent]
  · intro hcount
    cases hdist : queryOptions.distinct with
    | some field =>
      have h := buildQuery_distinct_calls coerce staticOptions plan queryOptions field hdist
      rw [h]
      refine ⟨?_, rfl⟩
      cases queryOptions.query <;> simp [callIfPresent, PlanCall.isLimit]
    | none =>
      rw [buildQuery_count_calls coerce staticOptions plan queryOptions hcount hdist]
      refine ⟨?_, rfl⟩
      cases queryOptions.query <;> cases queryOptions.select <;>
        cases queryOptions.populate <;> simp [callIfPresent, PlanCall.isLimit]

/-- Witness of C27: the unit tests with static limit 1 and request limit
'2', with no static limit and request limit '1', and on a count plan. -/
theorem buildQuery_limit_cap_witness :
    (buildQuery coerceDecimal { limit := some 1 } planFind
      { limit := some (Doc.str "2") }).calls.filter PlanCall.isLimit = [PlanCall.limit 1] ∧
    (buildQuery coerceDecimal { } planFind
      { limit := some (Doc.str "1") }).calls.filter PlanCall.isLimit = [PlanCall.limit 1] ∧
    (buildQuery coerceDecimal { limit := some 1 } planCount
      { limit := some (Doc.str "2") }).calls.filter PlanCall.isLimit = [] :=
  ⟨((buildQuery_limit_cap coerceDecimal { limit := some 1 } planFind
      { limit := some (Doc.str "2") }).1 (Doc.str "2") 2 1 (by decide) rfl rfl (by decide)
      (by intro k hk; cases hk) rfl (by decide)).1,
    ((buildQuery_limit_cap coerceDecimal { } planFind
      { limit := some (Doc.str "1") }).2.1 (Doc.str "1") 1 (by decide) rfl rfl (by decide)
      (by intro k hk; cases hk) rfl).1,
    ((buildQuery_limit_cap coerceDecimal { limit := some 1 } planCount
      { limit := some (Doc.str "2") }).2.2 rfl).1⟩

end ERM
